import Mathlib

/-!
# Tako: interpreter (`tako.c`) and code generator (`compiler.c`)

A shallow embedding of the two C programs and the properties of their
block matchers, symbol tables, literal resolvers, statement execution, code
generation, string pre-pass and termination.

Conventions of the embedding.
* A C string is the list of its characters before the terminating NUL
  (`CStr`); characters stand for bytes.
* The script is the list of its lines; `lines.getD i []` reads `lines[i]`.
* C `int` values are `Int`; arithmetic that can leave the 32-bit range is
  wrapped with `wrap32`.
* `exit(1)` is an explicit outcome; in the interpreter it carries what had been
  written to the two output streams up to that point.
* The assembly file is the list of the pieces written to it (`Compiler.Asm`).
-/

set_option autoImplicit false

/-- A C string: the characters before the terminating NUL. -/
abbrev CStr := List Char

/-! ## `<ctype.h>` and `<string.h>` in the C locale -/

/-- The function `isspace`: space, `\t`, `\n`, `\v`, `\f`, `\r`. -/
def isspace (c : Char) : Bool :=
  c.toNat == 32 || (9 ≤ c.toNat && c.toNat ≤ 13)

/-- The function `isdigit`: `0` to `9`. -/
def isdigit (c : Char) : Bool :=
  48 ≤ c.toNat && c.toNat ≤ 57

/-- The test `strncmp(s, t, n) == 0`: the two strings agree on their first `n`
characters (a string shorter than `n` has to agree up to and including its
terminator). -/
def strncmp_eq (s t : CStr) (n : Nat) : Bool :=
  s.take n == t.take n

/-- The test `strcmp(s, t) == 0`. -/
def strcmp_eq (s t : CStr) : Bool :=
  s == t

/-- The call `strncpy(dst, src, n)` followed by `dst[n] = 0`: at most `n`
characters are kept. -/
def strncpy (src : CStr) (n : Nat) : CStr :=
  src.take n

/-! ## `sscanf` for the conversions the two programs use -/

/-- One directive of a `sscanf` format. -/
inductive Directive where
  /-- An ordinary character: the next input character has to be this one. -/
  | lit (c : Char)
  /-- White space in the format: skips any amount of input white space. -/
  | space
  /-- The conversions `%s`, `%2s` (a width) and `%*s` (no assignment). -/
  | str (width : Option Nat) (assign : Bool)
  /-- The conversion `%[^c]`: a non-empty run of characters other than `c`. -/
  | not_set (c : Char)
  deriving DecidableEq, Repr

/-- Reads a format string into its directives (the conversions that occur in
`tako.c` and `compiler.c`). -/
def parse_format : CStr → List Directive
  | [] => []
  | '%' :: 's' :: rest => .str none true :: parse_format rest
  | '%' :: '2' :: 's' :: rest => .str (some 2) true :: parse_format rest
  | '%' :: '*' :: 's' :: rest => .str none false :: parse_format rest
  | '%' :: '[' :: '^' :: c :: ']' :: rest => .not_set c :: parse_format rest
  | c :: rest => (if isspace c then .space else .lit c) :: parse_format rest

/-- The token a `%s` conversion reads: after the leading white space, the
longest run of characters that are not white space, cut at the width. -/
def scan_token (width : Option Nat) (input : CStr) : CStr :=
  let run := (input.dropWhile isspace).takeWhile (fun c => !isspace c)
  match width with
  | none => run
  | some n => run.take n

/-- Runs the directives over the input and returns the strings assigned, in
order.  The value `sscanf` returns is the length of this list, except that C
returns `EOF` instead of 0 when the input ends before the first conversion; the
programs only compare the value with 1, 2 and 3.  The destination arrays are
taken to be large enough for the tokens. -/
def sscanf_run : List Directive → CStr → List CStr
  | [], _ => []
  | .lit c :: ds, input =>
    match input with
    | [] => []
    | x :: rest => if x = c then sscanf_run ds rest else []
  | .space :: ds, input => sscanf_run ds (input.dropWhile isspace)
  | .str width assign :: ds, input =>
    let tok := scan_token width input
    if tok = [] then []
    else
      (if assign then [tok] else [])
        ++ sscanf_run ds ((input.dropWhile isspace).drop tok.length)
  | .not_set c :: ds, input =>
    let tok := input.takeWhile (fun x => x != c)
    if tok = [] then [] else tok :: sscanf_run ds (input.drop tok.length)

/-- The call `sscanf(input, format, ...)`: the strings assigned. -/
def sscanf (input : CStr) (format : String) : List CStr :=
  sscanf_run (parse_format format.toList) input

deriving instance DecidableEq for Except

namespace Tako

/-! ## `tako.c`: string helpers -/

def MAX_VARS : Nat := 100
def MAX_VAR_NAME : Nat := 32
def MAX_ARG_LEN : Nat := 128
def MAX_LINES : Nat := 1000
def MAX_LINE_LEN : Nat := 256

/-- The string `trim_whitespace` returns.  The leading loop advances `str` past
white space; the trailing loop moves `end` down from the last character while
`end > str`, so the first remaining character is never removed. -/
def trim_whitespace (str : CStr) : CStr :=
  match str.dropWhile isspace with
  | [] => []
  | c :: cs => c :: cs.rdropWhile isspace

/-- The buffer `trim_whitespace` leaves behind: it writes one NUL after the
last character it keeps, so the buffer loses its trailing white space and keeps
its leading white space (a buffer of white space only is not written to). -/
def trim_whitespace_buf (str : CStr) : CStr :=
  str.takeWhile isspace ++ trim_whitespace str

/-! ## `tako.c`: faults and text formatting -/

/-- The conversion `%d` of `printf` for a natural number: its decimal digits. -/
def fmt_nat (n : Nat) : CStr :=
  Nat.toDigits 10 n

/-- The conversion `%d` of `printf`. -/
def fmt_d (n : Int) : CStr :=
  if n < 0 then '-' :: fmt_nat n.natAbs else fmt_nat n.natAbs

/-- The places where the interpreter writes a diagnostic and calls `exit(1)`. -/
inductive Fault where
  /-- In `resolve_value`: the token is neither a number nor a known variable. -/
  | undefined_reference (token : CStr)
  /-- In `set_var`: the table already holds `MAX_VARS` variables. -/
  | resource_exhausted
  /-- In `run_script`: `find_matching_end` returned `-1` for the header
  `keyword` on the 1-based line `line`. -/
  | unterminated_block (keyword : CStr) (line : Nat)
  /-- In `run_script`: the `if` header does not scan into three tokens. -/
  | malformed_header (line : Nat)
  /-- In `run_script`: the operator of an `if` header is not one of the six. -/
  | unknown_operator (op : CStr) (line : Nat)
  deriving DecidableEq, Repr

/-- The diagnostic written to the error stream for a fault. -/
def Fault.message : Fault → CStr
  | .undefined_reference token =>
    "Runtime Error: Unknown variable or invalid number '".toList ++ token ++ "'\n".toList
  | .resource_exhausted =>
    "Runtime Error: Maximum number of variables (".toList ++ fmt_nat MAX_VARS
      ++ ") reached.\n".toList
  | .unterminated_block keyword line =>
    "Syntax Error: '".toList ++ keyword ++ "' on line ".toList ++ fmt_nat line
      ++ " has no matching 'end'.\n".toList
  | .malformed_header line =>
    "Syntax Error: Malformed 'if' statement on line ".toList ++ fmt_nat line ++ ".\n".toList
  | .unknown_operator op line =>
    "Syntax Error: Unknown operator '".toList ++ op ++ "' in 'if' on line ".toList
      ++ fmt_nat line ++ ".\n".toList

/-! ## `tako.c`: variables -/

/-- The two's-complement value of an integer in a 32-bit `int`. -/
def wrap32 (x : Int) : Int :=
  (x + 2147483648) % 4294967296 - 2147483648

/-- The struct `Variable`. -/
structure Variable where
  name : CStr
  value : Int
  deriving DecidableEq, Repr

/-- The struct `InterpreterState`: `vars` holds the entries `vars[0]` to
`vars[var_count - 1]` of the array, the only ones the program reads. -/
structure InterpreterState where
  vars : List Variable
  deriving DecidableEq, Repr

/-- The field `var_count`. -/
def InterpreterState.var_count (state : InterpreterState) : Nat :=
  state.vars.length

/-- The state after `memset(&state, 0, sizeof(InterpreterState))`. -/
def InterpreterState.empty : InterpreterState :=
  { vars := [] }

/-- The loop of `find_var` over the entries from index `i` on. -/
def find_var_loop (name : CStr) : List Variable → Nat → Option Nat
  | [], _ => none
  | v :: vs, i => if strcmp_eq v.name name then some i else find_var_loop name vs (i + 1)

/-- The function `find_var`: the index of the first entry whose name is `name`
(the C function returns the address of that entry), or `none` for `NULL`. -/
def find_var (state : InterpreterState) (name : CStr) : Option Nat :=
  find_var_loop name state.vars 0

/-- The function `atoi`, as `(int) strtol(s, NULL, 10)`: leading white space, an
optional sign, then the longest run of digits; the value saturates at the range
of `long` and is then cut to 32 bits. -/
def atoi (s : CStr) : Int :=
  let s1 := s.dropWhile isspace
  let negative := s1.head? == some '-'
  let s2 := if s1.head? == some '-' || s1.head? == some '+' then s1.drop 1 else s1
  let magnitude : Nat := (s2.takeWhile isdigit).foldl (fun acc c => acc * 10 + (c.toNat - 48)) 0
  let value : Int := if negative then - (magnitude : Int) else (magnitude : Int)
  wrap32 (max (-9223372036854775808) (min 9223372036854775807 value))

/-- The condition under which `resolve_value` calls `atoi`:
`isdigit(s[0]) || (s[0] == '-' && isdigit(s[1]))`. -/
def looks_numeric (s : CStr) : Bool :=
  match s with
  | [] => false
  | c :: cs =>
    isdigit c || (c == '-' && (match cs with | [] => false | c1 :: _ => isdigit c1))

/-- The function `resolve_value`. -/
def resolve_value (state : InterpreterState) (name_or_literal : CStr) : Except Fault Int :=
  if looks_numeric name_or_literal then
    .ok (atoi name_or_literal)
  else
    match find_var state name_or_literal with
    | some i => .ok ((state.vars.getD i ⟨[], 0⟩).value)
    | none => .error (.undefined_reference name_or_literal)

/-- The assignment `var->value = value` for the entry at index `i`. -/
def store_value (value : Int) : List Variable → Nat → List Variable
  | [], _ => []
  | v :: vs, 0 => { name := v.name, value := value } :: vs
  | v :: vs, i + 1 => v :: store_value value vs i

/-- The function `set_var`. -/
def set_var (state : InterpreterState) (name : CStr) (value : Int) :
    Except Fault InterpreterState :=
  match find_var state name with
  | some i => .ok { vars := store_value value state.vars i }
  | none =>
    if state.var_count ≥ MAX_VARS then
      .error .resource_exhausted
    else
      .ok { vars := state.vars ++ [{ name := strncpy name (MAX_VAR_NAME - 1), value := value }] }

/-! ## `tako.c`: the block matcher -/

/-- The condition `strncmp(line, "if ", 3) == 0 || strncmp(line, "loop ", 5) == 0`. -/
def is_block_header (line : CStr) : Bool :=
  strncmp_eq line ['i', 'f', ' '] 3 || strncmp_eq line ['l', 'o', 'o', 'p', ' '] 5

/-- The condition `strcmp(line, "end") == 0`. -/
def is_end (line : CStr) : Bool :=
  strcmp_eq line ['e', 'n', 'd']

/-- The loop of `find_matching_end` from index `i` with the current `depth`;
`fuel` is the number of iterations left (`line_count - i`). -/
def find_matching_end_loop (lines : List CStr) (line_count : Nat) :
    Nat → Nat → Int → Int
  | 0, _, _ => -1
  | fuel + 1, i, depth =>
    if i < line_count then
      let line := trim_whitespace (lines.getD i [])
      if is_block_header line then
        find_matching_end_loop lines line_count fuel (i + 1) (depth + 1)
      else if is_end line then
        if depth - 1 = 0 then (i : Int)
        else find_matching_end_loop lines line_count fuel (i + 1) (depth - 1)
      else
        find_matching_end_loop lines line_count fuel (i + 1) depth
    else -1

/-- The function `find_matching_end`: index of the `end` that closes the block
whose body starts at `start_line`, or `-1`.  The C function also trims every
line it visits in place; `find_matching_end_buf` threads the buffer through,
and no result of the interpreter depends on it (`find_matching_end_buf_spec`,
`run_script_same_lines`). -/
def find_matching_end (lines : List CStr) (line_count start_line : Nat) : Int :=
  find_matching_end_loop lines line_count (line_count - start_line) start_line 1

/-- The loop of `find_matching_end` with the script buffer threaded through:
each visited line is trimmed in place. -/
def find_matching_end_buf_loop (line_count : Nat) :
    Nat → List CStr → Nat → Int → List CStr × Int
  | 0, lines, _, _ => (lines, -1)
  | fuel + 1, lines, i, depth =>
    if i < line_count then
      let line := trim_whitespace (lines.getD i [])
      let lines1 := lines.set i (trim_whitespace_buf (lines.getD i []))
      if is_block_header line then
        find_matching_end_buf_loop line_count fuel lines1 (i + 1) (depth + 1)
      else if is_end line then
        if depth - 1 = 0 then (lines1, (i : Int))
        else find_matching_end_buf_loop line_count fuel lines1 (i + 1) (depth - 1)
      else
        find_matching_end_buf_loop line_count fuel lines1 (i + 1) depth
    else (lines, -1)

/-! ## `tako.c`: execution -/

/-- What the process has done so far: the interpreter state and the text
written to the standard output and to the error stream. -/
structure World where
  state : InterpreterState
  out : CStr
  err : CStr
  deriving DecidableEq, Repr

/-- How a piece of the program ends: it returns (`done`), it calls `exit(1)`
after writing the diagnostic of a fault (`exit`), or the step budget of the
model ran out (`unfinished`, which `run_script` never yields). -/
inductive Outcome where
  | done (w : World)
  | exit (fault : Fault) (w : World)
  | unfinished (w : World)
  deriving DecidableEq, Repr

/-- The outcome is one of the program: it returned or it called `exit`. -/
def Outcome.finished : Outcome → Bool
  | .unfinished _ => false
  | _ => true

/-- The world an outcome carries. -/
def Outcome.world : Outcome → World
  | .done w => w
  | .exit _ w => w
  | .unfinished w => w

/-- Sequencing: what follows runs only after a normal return. -/
def Outcome.bind (o : Outcome) (next : World → Outcome) : Outcome :=
  match o with
  | .done w => next w
  | .exit fault w => .exit fault w
  | .unfinished w => .unfinished w

/-- Writes the diagnostic of `fault` to the error stream and calls `exit(1)`. -/
def die (fault : Fault) (w : World) : Outcome :=
  .exit fault { w with err := w.err ++ fault.message }

/-- The function `execute_line`. -/
def execute_line (w : World) (line : CStr) : Outcome :=
  match sscanf line "print \"%[^\"]\" %s" with
  | [arg1, arg2] =>
    match resolve_value w.state arg2 with
    | .error fault => die fault w
    | .ok val => .done { w with out := w.out ++ arg1 ++ [' '] ++ fmt_d val ++ ['\n'] }
  | _ =>
  match sscanf line "print \"%[^\"]\"" with
  | [arg1] => .done { w with out := w.out ++ arg1 ++ ['\n'] }
  | _ =>
  match sscanf line "print %s" with
  | [arg1] =>
    match resolve_value w.state arg1 with
    | .error fault => die fault w
    | .ok val => .done { w with out := w.out ++ fmt_d val ++ ['\n'] }
  | _ =>
  match sscanf line "set %s = %s" with
  | [arg1, arg2] =>
    match resolve_value w.state arg2 with
    | .error fault => die fault w
    | .ok val =>
      match set_var w.state arg1 val with
      | .error fault => die fault w
      | .ok state1 => .done { w with state := state1 }
  | _ =>
  match sscanf line "add %s %s" with
  | [arg1, arg2] =>
    match resolve_value w.state arg1 with
    | .error fault => die fault w
    | .ok current_val =>
      match resolve_value w.state arg2 with
      | .error fault => die fault w
      | .ok amount =>
        match set_var w.state arg1 (wrap32 (current_val + amount)) with
        | .error fault => die fault w
        | .ok state1 => .done { w with state := state1 }
  | _ =>
  match sscanf line "sub %s %s" with
  | [arg1, arg2] =>
    match resolve_value w.state arg1 with
    | .error fault => die fault w
    | .ok current_val =>
      match resolve_value w.state arg2 with
      | .error fault => die fault w
      | .ok amount =>
        match set_var w.state arg1 (wrap32 (current_val - amount)) with
        | .error fault => die fault w
        | .ok state1 => .done { w with state := state1 }
  | _ =>
    .done { w with err := w.err ++ "Syntax Error: Unknown command on line: '".toList ++ line
      ++ "'\n".toList }

/-- The chain of `strcmp(op, ...)` tests of `run_script`: the value of
`condition`, or `none` when `op` is none of the six operators. -/
def eval_condition (op : CStr) (left_val right_val : Int) : Option Bool :=
  if strcmp_eq op ['=', '='] then some (decide (left_val = right_val))
  else if strcmp_eq op ['!', '='] then some (decide (left_val ≠ right_val))
  else if strcmp_eq op ['>'] then some (decide (left_val > right_val))
  else if strcmp_eq op ['<'] then some (decide (left_val < right_val))
  else if strcmp_eq op ['>', '='] then some (decide (left_val ≥ right_val))
  else if strcmp_eq op ['<', '='] then some (decide (left_val ≤ right_val))
  else none

/-- The loop `for (j = 0; j < loop_count; j++) body`. -/
def repeat_body (body : World → Outcome) : Nat → World → Outcome
  | 0, w => .done w
  | n + 1, w => (body w).bind (repeat_body body n)

/-- The line `run_script` works on at index `i`: `lines[i]` copied into
`line_buffer` and trimmed. -/
def clean_line (lines : List CStr) (i : Nat) : CStr :=
  trim_whitespace (strncpy (lines.getD i []) (MAX_LINE_LEN - 1))

/-- One iteration of the `for` loop of `run_script` at index `i < end_line`,
followed by the rest of the loop.  `self w i end_line` stands for `run_script`
on the range `[i, end_line)`: a recursive call on a block body, or the loop
continuing from the next index. -/
def run_script_iter (self : World → Nat → Nat → Outcome) (w : World) (lines : List CStr)
    (line_count i end_line : Nat) : Outcome :=
  let line := clean_line lines i
  if line.head? = none ∨ line.head? = some '#' then
    self w (i + 1) end_line
  else if strncmp_eq line ['l', 'o', 'o', 'p', ' '] 5 then
    match resolve_value w.state (line.drop 5) with
    | .error fault => die fault w
    | .ok loop_count =>
      let block_start := i + 1
      let block_end := find_matching_end lines line_count block_start
      if block_end = -1 then
        die (.unterminated_block ['l', 'o', 'o', 'p'] (i + 1)) w
      else
        (repeat_body (fun w1 => self w1 block_start block_end.toNat) loop_count.toNat w).bind
          (fun w1 => self w1 (block_end.toNat + 1) end_line)
  else if strncmp_eq line ['i', 'f', ' '] 3 then
    match sscanf line "if %s %2s %s" with
    | [var_name, op, val_str] =>
      match resolve_value w.state var_name with
      | .error fault => die fault w
      | .ok left_val =>
        match resolve_value w.state val_str with
        | .error fault => die fault w
        | .ok right_val =>
          match eval_condition op left_val right_val with
          | none => die (.unknown_operator op (i + 1)) w
          | some condition =>
            let block_start := i + 1
            let block_end := find_matching_end lines line_count block_start
            if block_end = -1 then
              die (.unterminated_block ['i', 'f'] (i + 1)) w
            else
              (if condition then self w block_start block_end.toNat else .done w).bind
                (fun w1 => self w1 (block_end.toNat + 1) end_line)
    | _ => die (.malformed_header (i + 1)) w
  else
    (execute_line w line).bind (fun w1 => self w1 (i + 1) end_line)

/-- The function `run_script` with a step budget: every iteration of the `for`
loop and every recursive call takes one unit of `gas`. -/
def run_script_gas (lines : List CStr) (line_count : Nat) : Nat → World → Nat → Nat → Outcome
  | 0, w, _, _ => .unfinished w
  | gas + 1, w, i, end_line =>
    if i < end_line then
      run_script_iter (fun w1 i1 e1 => run_script_gas lines line_count gas w1 i1 e1)
        w lines line_count i end_line
    else .done w

/-- The budget that always suffices for the range `[start_line, end_line)`:
every call works on a later line than its caller. -/
def gas_bound (line_count start_line end_line : Nat) : Nat :=
  max line_count end_line - start_line + 1

/-- The function `run_script`. -/
def run_script (w : World) (lines : List CStr) (line_count start_line end_line : Nat) :
    Outcome :=
  run_script_gas lines line_count (gas_bound line_count start_line end_line) w
    start_line end_line

/-- The run `main` starts: the whole script from the zeroed state. -/
def run_program (lines : List CStr) : Outcome :=
  run_script { state := InterpreterState.empty, out := [], err := [] } lines lines.length 0
    lines.length

/-! ## The depth counter of the specification -/

/-- The lines with indices in `[start, k]`, normalized. -/
def block_slice (lines : List CStr) (start k : Nat) : List CStr :=
  ((lines.drop start).take (k + 1 - start)).map trim_whitespace

/-- The depth counter after line `k`: it starts at 1 before line `start`, every
normalized line in `[start, k]` that begins with `if ` or `loop ` adds one and
every normalized line equal to `end` takes one away. -/
def depth_after (lines : List CStr) (start k : Nat) : Int :=
  1 + ((block_slice lines start k).countP is_block_header : Int)
    - ((block_slice lines start k).countP is_end : Int)

/-! ## Auxiliary definitions for the block matcher -/

/-- What one normalized line does to the depth counter of `find_matching_end`. -/
def depth_step (line : CStr) : Int :=
  if is_block_header line then 1 else if is_end line then -1 else 0

/-- The change of the depth counter over the `n` lines from index `i` on. -/
def depth_delta (lines : List CStr) : Nat → Nat → Int
  | _, 0 => 0
  | i, n + 1 => depth_step (trim_whitespace (lines.getD i [])) + depth_delta lines (i + 1) n

/-- Two script buffers that no function of the interpreter can tell apart:
line by line they have the same trimmed text, also after the copy into
`line_buffer`. -/
def same_lines (lines lines2 : List CStr) : Prop :=
  ∀ j, trim_whitespace (lines.getD j []) = trim_whitespace (lines2.getD j []) ∧
    clean_line lines j = clean_line lines2 j

/-- The function `find_matching_end` with the script buffer threaded through. -/
def find_matching_end_buf (lines : List CStr) (line_count start_line : Nat) :
    List CStr × Int :=
  find_matching_end_buf_loop line_count (line_count - start_line) lines start_line 1

/-- A small script with one block nested in another. -/
def nested_script : List CStr :=
  ["loop 2".toList, "  if x > 1".toList, "    print x".toList, "  end".toList, "end  ".toList,
   "print x".toList]

end Tako

namespace Compiler

/-! ## `compiler.c`: state and symbol table -/

def MAX_VARS : Nat := 100
def MAX_VAR_NAME : Nat := 32
def MAX_STRINGS : Nat := 100
def MAX_ARG_LEN : Nat := 128
def MAX_LINES : Nat := 1000
def MAX_LINE_LEN : Nat := 256

/-- The struct `VariableSymbol`. -/
structure VariableSymbol where
  name : CStr
  deriving DecidableEq, Repr

/-- The struct `StringSymbol`. -/
structure StringSymbol where
  label : CStr
  value : CStr
  deriving DecidableEq, Repr

/-- One piece of the text that `fprintf` writes to the assembly file.  The
pieces that carry a jump label are kept apart from plain text, so that the
labels defined and used by the generated code can be read off; the file is the
concatenation of the rendered pieces. -/
inductive Asm where
  /-- Text without a `.L` label. -/
  | text (s : CStr)
  /-- The comment `; Line <line>: <source>` that opens the code of a line. -/
  | line_comment (line : Nat) (source : CStr)
  /-- The definition `.L<n>:` of a jump label. -/
  | label_def (n : Nat)
  /-- The jump `<mnemonic> .L<n>`. -/
  | jump (mnemonic : CStr) (n : Nat)
  deriving DecidableEq, Repr

/-- The text of a piece, as the format strings of `compiler.c` write it. -/
def Asm.render : Asm → CStr
  | .text s => s
  | .line_comment line source =>
    "\n    ; Line ".toList ++ Tako.fmt_nat line ++ ": ".toList ++ source ++ "\n".toList
  | .label_def n => ".L".toList ++ Tako.fmt_nat n ++ ":\n".toList
  | .jump mnemonic n => "    ".toList ++ mnemonic ++ " .L".toList ++ Tako.fmt_nat n ++ "\n".toList

/-- The struct `CompilerState`: `outfile` is what has been written to the
assembly file so far, `vars` and `strings` hold the first `var_count` and
`string_count` entries of the two arrays. -/
structure CompilerState where
  outfile : List Asm
  label_count : Nat
  vars : List VariableSymbol
  strings : List StringSymbol
  deriving DecidableEq, Repr

/-- The field `var_count`. -/
def CompilerState.var_count (state : CompilerState) : Nat :=
  state.vars.length

/-- The field `string_count`. -/
def CompilerState.string_count (state : CompilerState) : Nat :=
  state.strings.length

/-- The state after `memset(&state, 0, sizeof(CompilerState))`. -/
def CompilerState.empty : CompilerState :=
  { outfile := [], label_count := 0, vars := [], strings := [] }

/-- The places where the code generator calls `exit(1)`. -/
inductive Fault where
  /-- In `get_var_offset`: "Compiler Error: Too many variables." -/
  | too_many_variables
  /-- In `get_string_label`: "Compiler Error: Too many string literals." -/
  | too_many_strings
  /-- In `compile_script`: `find_matching_end` returned `-1` for the header
  `keyword` on the 1-based line `line`. -/
  | unterminated_block (keyword : CStr) (line : Nat)
  /-- In `compile_script`: the `if` header does not scan into three tokens. -/
  | malformed_header (line : Nat)
  /-- In `compile_script`: the operator of an `if` header is not one of the six. -/
  | unknown_operator (op : CStr) (line : Nat)
  /-- In `compile_script`: the line is no statement and is not `end`. -/
  | unknown_command (line : Nat) (source : CStr)
  deriving DecidableEq, Repr

/-- The search loop of `get_var_offset` over the entries from index `i` on. -/
def get_var_offset_loop (name : CStr) : List VariableSymbol → Nat → Option Nat
  | [], _ => none
  | v :: vs, i => if strcmp_eq v.name name then some (i * 8) else get_var_offset_loop name vs (i + 1)

/-- The function `get_var_offset`: the offset returned and the state left. -/
def get_var_offset (state : CompilerState) (name : CStr) : Except Fault (Nat × CompilerState) :=
  match get_var_offset_loop name state.vars 0 with
  | some offset => .ok (offset, state)
  | none =>
    if state.var_count ≥ MAX_VARS then
      .error .too_many_variables
    else
      let index := state.var_count
      .ok (index * 8,
        { state with vars := state.vars ++ [{ name := strncpy name (MAX_VAR_NAME - 1) }] })

/-- The function `is_number` (its argument is never `NULL`: every caller passes
an array). -/
def is_number (s : CStr) : Bool :=
  match s with
  | [] => false
  | c :: cs =>
    let s1 := if c = '-' then cs else c :: cs
    match s1 with
    | [] => false
    | _ :: _ => s1.all isdigit

/-- Successive calls of `get_var_offset` with the names of a list: the offsets
returned, in order, and the final state. -/
def get_var_offsets : CompilerState → List CStr → Except Fault (List Nat × CompilerState)
  | state, [] => .ok ([], state)
  | state, name :: names =>
    match get_var_offset state name with
    | .error f => .error f
    | .ok (offset, state1) =>
      match get_var_offsets state1 names with
      | .error f => .error f
      | .ok (offsets, state2) => .ok (offset :: offsets, state2)

/-! ## `compiler.c`: string literals and labels -/

/-- The function `trim_leading`. -/
def trim_leading (str : CStr) : CStr :=
  str.dropWhile isspace

/-- The function `new_label`: the label returned and the state left. -/
def new_label (state : CompilerState) : Nat × CompilerState :=
  (state.label_count, { state with label_count := state.label_count + 1 })

/-- The search loop of `get_string_label`. -/
def get_string_label_loop (str : CStr) : List StringSymbol → Option CStr
  | [] => none
  | sym :: syms => if strcmp_eq sym.value str then some sym.label else get_string_label_loop str syms

/-- The function `get_string_label`: the label returned (the C function
returns the address of the stored label) and the state left. -/
def get_string_label (state : CompilerState) (str : CStr) :
    Except Fault (CStr × CompilerState) :=
  match get_string_label_loop str state.strings with
  | some label => .ok (label, state)
  | none =>
    if state.string_count ≥ MAX_STRINGS then
      .error .too_many_strings
    else
      let index := state.string_count
      let label := ['s', 't', 'r'] ++ Tako.fmt_nat index
      .ok (label,
        { state with strings := state.strings
            ++ [{ label := label, value := strncpy str (MAX_ARG_LEN - 1) }] })

/-- Successive calls of `get_string_label` with the texts of a list: the labels
returned, in order, and the final state. -/
def get_string_labels : CompilerState → List CStr → Except Fault (List CStr × CompilerState)
  | state, [] => .ok ([], state)
  | state, str :: strs =>
    match get_string_label state str with
    | .error f => .error f
    | .ok (label, state1) =>
      match get_string_labels state1 strs with
      | .error f => .error f
      | .ok (labels, state2) => .ok (label :: labels, state2)

/-! ## `compiler.c`: code generation -/

/-- The call `fprintf(state->outfile, ...)`: the pieces are appended to the
file. -/
def emit (state : CompilerState) (pieces : List Asm) : CompilerState :=
  { state with outfile := state.outfile ++ pieces }

/-- The function `emit_load_value`. -/
def emit_load_value (state : CompilerState) (value_str : CStr) : Except Fault CompilerState :=
  if is_number value_str then
    .ok (emit state [.text ("    mov rax, ".toList ++ value_str ++ "\n".toList)])
  else
    match get_var_offset state value_str with
    | .error f => .error f
    | .ok (offset, state1) =>
      .ok (emit state1
        [.text ("    mov rax, [vars + ".toList ++ Tako.fmt_nat offset ++ "]\n".toList)])

/-- The condition `strncmp(line, "if ", 3) == 0 || strncmp(line, "loop ", 5) == 0`. -/
def is_block_header (line : CStr) : Bool :=
  strncmp_eq line ['i', 'f', ' '] 3 || strncmp_eq line ['l', 'o', 'o', 'p', ' '] 5

/-- The condition `strcmp(line, "end") == 0`. -/
def is_end (line : CStr) : Bool :=
  strcmp_eq line ['e', 'n', 'd']

/-- The loop of the code generator's `find_matching_end` from index `i` with
the current `depth`; `fuel` is the number of iterations left.  Each line is
copied into `temp_line` (`strncpy` with `MAX_LINE_LEN`, the size of a line
buffer) and only its leading white space is skipped. -/
def find_matching_end_loop (lines : List CStr) (line_count : Nat) :
    Nat → Nat → Int → Int
  | 0, _, _ => -1
  | fuel + 1, i, depth =>
    if i < line_count then
      let line := trim_leading (strncpy (lines.getD i []) MAX_LINE_LEN)
      if is_block_header line then
        find_matching_end_loop lines line_count fuel (i + 1) (depth + 1)
      else if is_end line then
        if depth - 1 = 0 then (i : Int)
        else find_matching_end_loop lines line_count fuel (i + 1) (depth - 1)
      else
        find_matching_end_loop lines line_count fuel (i + 1) depth
    else -1

/-- The code generator's function `find_matching_end`. -/
def find_matching_end (lines : List CStr) (line_count start_line : Nat) : Int :=
  find_matching_end_loop lines line_count (line_count - start_line) start_line 1

/-- How a piece of the compilation ends: it returns (`done`), it calls
`exit(1)` (`exit`), or the step budget of the model ran out (`unfinished`,
which `compile_script` never yields). -/
inductive Outcome where
  | done (state : CompilerState)
  | exit (fault : Fault)
  | unfinished
  deriving DecidableEq, Repr

/-- Sequencing: what follows runs only after a normal return. -/
def Outcome.bind (o : Outcome) (next : CompilerState → Outcome) : Outcome :=
  match o with
  | .done state => next state
  | .exit fault => .exit fault
  | .unfinished => .unfinished

/-- The outcome is one of the program: it returned or it called `exit`. -/
def Outcome.finished : Outcome → Bool
  | .unfinished => false
  | _ => true

/-- A step that can call `exit(1)`, as an outcome. -/
def Outcome.of_except : Except Fault CompilerState → Outcome
  | .ok state => .done state
  | .error fault => .exit fault

/-- The branches of `compile_script` for `set`, `add` and `sub`, which differ
in the mnemonic only: the slot of `arg1`, the load of `arg2`, the update. -/
def compile_update (state : CompilerState) (mnemonic arg1 arg2 : CStr) :
    Except Fault CompilerState :=
  match get_var_offset state arg1 with
  | .error f => .error f
  | .ok (offset, state1) =>
    match emit_load_value state1 arg2 with
    | .error f => .error f
    | .ok state2 =>
      .ok (emit state2 [.text ("    ".toList ++ mnemonic ++ " [vars + ".toList
        ++ Tako.fmt_nat offset ++ "], rax\n".toList)])

/-- The first six branches of the `if`/`else if` chain of `compile_script`, the
statements without a block: `none` when the line matches none of them. -/
def compile_simple (state : CompilerState) (clean_line : CStr) :
    Option (Except Fault CompilerState) :=
  match sscanf clean_line "set %s = %s" with
  | [arg1, arg2] => some (compile_update state ['m', 'o', 'v'] arg1 arg2)
  | _ =>
  match sscanf clean_line "add %s %s" with
  | [arg1, arg2] => some (compile_update state ['a', 'd', 'd'] arg1 arg2)
  | _ =>
  match sscanf clean_line "sub %s %s" with
  | [arg1, arg2] => some (compile_update state ['s', 'u', 'b'] arg1 arg2)
  | _ =>
  match sscanf clean_line "print \"%[^\"]\" %s" with
  | [arg1, arg2] =>
    some (match get_string_label state arg1 with
      | .error f => .error f
      | .ok (str_label, state1) =>
        match emit_load_value
            (emit state1 [.text ("    mov rdi, ".toList ++ str_label
              ++ "\n    call print_string\n    mov rdi, ' '\n    call print_char\n".toList)])
            arg2 with
        | .error f => .error f
        | .ok state2 =>
          .ok (emit state2
            [.text "    mov rdi, rax\n    call print_int\n    call print_newline\n".toList]))
  | _ =>
  match sscanf clean_line "print \"%[^\"]\"" with
  | [arg1] =>
    some (match get_string_label state arg1 with
      | .error f => .error f
      | .ok (str_label, state1) =>
        .ok (emit state1 [.text ("    mov rdi, ".toList ++ str_label
          ++ "\n    call print_string\n    call print_newline\n".toList)]))
  | _ =>
  match sscanf clean_line "print %s" with
  | [arg1] =>
    some (match emit_load_value state arg1 with
      | .error f => .error f
      | .ok state1 =>
        .ok (emit state1
          [.text "    mov rdi, rax\n    call print_int\n    call print_newline\n".toList]))
  | _ => none

/-- The chain of `strcmp(op, ...)` tests of the `if` branch: the mnemonic of
the conditional jump to the end label, or `none` when `op` is none of the six
operators. -/
def jump_for (op : CStr) : Option CStr :=
  if strcmp_eq op ['=', '='] then some ['j', 'n', 'e']
  else if strcmp_eq op ['!', '='] then some ['j', 'e']
  else if strcmp_eq op ['>'] then some ['j', 'l', 'e']
  else if strcmp_eq op ['<'] then some ['j', 'g', 'e']
  else if strcmp_eq op ['>', '='] then some ['j', 'l']
  else if strcmp_eq op ['<', '='] then some ['j', 'g']
  else none

/-- The line `compile_script` works on at index `i`: `lines[i]` copied into
`line_buffer`, leading white space skipped. -/
def clean_line (lines : List CStr) (i : Nat) : CStr :=
  trim_leading (strncpy (lines.getD i []) (MAX_LINE_LEN - 1))

/-- The `loop` branch of `compile_script` for the header on line `i`. -/
def compile_loop (self : CompilerState → Nat → Nat → Outcome) (state : CompilerState)
    (lines : List CStr) (line_count i end_line : Nat) (line : CStr) : Outcome :=
  let (start_label, state1) := new_label state
  let (end_label, state2) := new_label state1
  match emit_load_value state2 (line.drop 5) with
  | .error f => .exit f
  | .ok state3 =>
    let state4 := emit state3
      [.text "    mov rcx, rax\n".toList, .label_def start_label,
       .text "    cmp rcx, 0\n".toList, .jump ['j', 'l', 'e'] end_label]
    let block_end := find_matching_end lines line_count (i + 1)
    if block_end = -1 then
      .exit (.unterminated_block ['l', 'o', 'o', 'p'] (i + 1))
    else
      (self state4 (i + 1) block_end.toNat).bind (fun state5 =>
        self (emit state5
          [.text "    dec rcx\n".toList, .jump ['j', 'm', 'p'] start_label,
           .label_def end_label]) (block_end.toNat + 1) end_line)

/-- The `if` branch of `compile_script` for the header on line `i`. -/
def compile_if (self : CompilerState → Nat → Nat → Outcome) (state : CompilerState)
    (lines : List CStr) (line_count i end_line : Nat) (line : CStr) : Outcome :=
  match sscanf line "if %s %s %s" with
  | [arg1, op, arg2] =>
    let (end_label, state1) := new_label state
    match emit_load_value state1 arg1 with
    | .error f => .exit f
    | .ok state2 =>
      match emit_load_value (emit state2 [.text "    push rax\n".toList]) arg2 with
      | .error f => .exit f
      | .ok state3 =>
        let state4 := emit state3 [.text "    pop rbx\n    cmp rbx, rax\n".toList]
        match jump_for op with
        | none => .exit (.unknown_operator op (i + 1))
        | some mnemonic =>
          let state5 := emit state4 [.jump mnemonic end_label]
          let block_end := find_matching_end lines line_count (i + 1)
          if block_end = -1 then
            .exit (.unterminated_block ['i', 'f'] (i + 1))
          else
            (self state5 (i + 1) block_end.toNat).bind (fun state6 =>
              self (emit state6 [.label_def end_label]) (block_end.toNat + 1) end_line)
  | _ => .exit (.malformed_header (i + 1))

/-- One iteration of the `for` loop of `compile_script` at index `i < end_line`,
followed by the rest of the loop.  `self state i end_line` stands for
`compile_script` on the range `[i, end_line)`: a recursive call on a block
body, or the loop continuing from the next index. -/
def compile_script_iter (self : CompilerState → Nat → Nat → Outcome) (state : CompilerState)
    (lines : List CStr) (line_count i end_line : Nat) : Outcome :=
  let line := clean_line lines i
  if line.head? = none ∨ line.head? = some '#' then
    self state (i + 1) end_line
  else
    let state1 := emit state [.line_comment (i + 1) line]
    match compile_simple state1 line with
    | some (.error f) => .exit f
    | some (.ok state2) => self state2 (i + 1) end_line
    | none =>
      if strncmp_eq line ['l', 'o', 'o', 'p', ' '] 5 then
        compile_loop self state1 lines line_count i end_line line
      else if strncmp_eq line ['i', 'f', ' '] 3 then
        compile_if self state1 lines line_count i end_line line
      else if strcmp_eq line ['e', 'n', 'd'] then
        self state1 (i + 1) end_line
      else
        .exit (.unknown_command (i + 1) line)

/-- The function `compile_script` with a step budget: every iteration of the
`for` loop and every recursive call takes one unit of `gas`. -/
def compile_script_gas (lines : List CStr) (line_count : Nat) :
    Nat → CompilerState → Nat → Nat → Outcome
  | 0, _, _, _ => .unfinished
  | gas + 1, state, i, end_line =>
    if i < end_line then
      compile_script_iter (fun s1 i1 e1 => compile_script_gas lines line_count gas s1 i1 e1)
        state lines line_count i end_line
    else .done state

/-- The function `compile_script`; the budget is that of `Tako.gas_bound`. -/
def compile_script (state : CompilerState) (lines : List CStr)
    (line_count start_line end_line : Nat) : Outcome :=
  compile_script_gas lines line_count (Tako.gas_bound line_count start_line end_line) state
    start_line end_line

/-- The labels defined in a piece of output, in order. -/
def label_defs (out : List Asm) : List Nat :=
  out.filterMap (fun a => match a with
    | .label_def n => some n
    | _ => none)

/-- The number of lines compiled in a piece of output whose source begins with
the given keyword and a space. -/
def headers_compiled (keyword : CStr) (out : List Asm) : Nat :=
  out.countP (fun a => match a with
    | .line_comment _ source => strncmp_eq source (keyword ++ [' ']) (keyword.length + 1)
    | _ => false)

/-! ## `compiler.c`: `main`, the pre-pass and the prologue -/

/-- The line the pre-pass of `main` works on at index `i`: `lines[i]` copied
into `line_buffer` (`strncpy` with `MAX_LINE_LEN`, the size of the buffer),
leading white space skipped. -/
def prepass_line (lines : List CStr) (i : Nat) : CStr :=
  trim_leading (strncpy (lines.getD i []) MAX_LINE_LEN)

/-- The pre-pass loop of `main` from index `i` on; `fuel` is the number of
iterations left.  The second `sscanf` runs only when the first has not made
its assignment. -/
def prepass_loop (lines : List CStr) (line_count : Nat) :
    Nat → Nat → CompilerState → Except Fault CompilerState
  | 0, _, state => .ok state
  | fuel + 1, i, state =>
    if i < line_count then
      let clean_line := prepass_line lines i
      match sscanf clean_line "print \"%[^\"]\"" with
      | [arg1] =>
        match get_string_label state arg1 with
        | .error f => .error f
        | .ok (_, state1) => prepass_loop lines line_count fuel (i + 1) state1
      | _ =>
        match sscanf clean_line "print \"%[^\"]\" %*s" with
        | [arg1] =>
          match get_string_label state arg1 with
          | .error f => .error f
          | .ok (_, state1) => prepass_loop lines line_count fuel (i + 1) state1
        | _ => prepass_loop lines line_count fuel (i + 1) state
    else .ok state

/-- The pre-pass of `main`: the loop over all lines that interns the print
texts. -/
def prepass (state : CompilerState) (lines : List CStr) (line_count : Nat) :
    Except Fault CompilerState :=
  prepass_loop lines line_count line_count 0 state

/-- The line of the data section for one entry of the string table, in the
format `    %s db "%s", 0`. -/
def data_line (sym : StringSymbol) : Asm :=
  .text ("    ".toList ++ sym.label ++ " db \"".toList ++ sym.value ++ "\", 0\n".toList)

/-- What `emit_prologue` writes after the data section: the other two sections
(`%d` is `MAX_VARS`), the four print routines and the entry label. -/
def prologue_code : List Asm :=
  [.text ("\nsection .bss\n    vars resq ".toList ++ Tako.fmt_nat MAX_VARS
      ++ "\n    int_buffer resb 21\n".toList),
   .text "\nsection .text\n    global _start\n\n".toList,
   .text ("print_string:\n    mov rbx, rdi\n    mov rdx, 0\n.strlen_loop:\n"
      ++ "    cmp byte [rbx], 0\n    je .strlen_done\n    inc rdx\n    inc rbx\n"
      ++ "    jmp .strlen_loop\n.strlen_done:\n    mov rax, 1\n    mov rsi, rdi\n"
      ++ "    mov rdi, 1\n    syscall\n    ret\n\n").toList,
   .text ("print_int:\n    mov rax, rdi\n    mov rsi, int_buffer + 20\n"
      ++ "    mov byte [rsi], 10\n    mov rcx, 10\n    cmp rax, 0\n    jge .p_loop\n"
      ++ "    neg rax\n    push rax\n    mov rdi, minus_sign\n    call print_string\n"
      ++ "    pop rax\n.p_loop:\n    xor rdx, rdx\n    div rcx\n    add rdx, '0'\n"
      ++ "    dec rsi\n    mov [rsi], dl\n    test rax, rax\n    jnz .p_loop\n"
      ++ "    inc rsi\n    mov rdi, rsi\n    mov rbx, int_buffer + 21\n"
      ++ "    sub rbx, rsi\n    mov rdx, rbx\n    mov rax, 1\n    mov rsi, rdi\n"
      ++ "    mov rdi, 1\n    syscall\n    ret\n\n").toList,
   .text ("print_newline:\n    mov rax, 1\n    mov rdi, 1\n    mov rsi, newline\n"
      ++ "    mov rdx, 1\n    syscall\n    ret\n\n").toList,
   .text ("print_char:\n    mov [int_buffer], dil\n    mov rax, 1\n    mov rdi, 1\n"
      ++ "    mov rsi, int_buffer\n    mov rdx, 1\n    syscall\n    ret\n\n").toList,
   .text "_start:\n".toList]

/-- The function `emit_prologue`: the head of the data section, one line for
every entry of the string table, and the rest of the prologue. -/
def emit_prologue (state : CompilerState) : CompilerState :=
  emit state
    ([.text "section .data\n    minus_sign db '-', 0\n    newline db 10\n".toList]
      ++ state.strings.map data_line ++ prologue_code)

/-- The function `emit_epilogue`. -/
def emit_epilogue (state : CompilerState) : CompilerState :=
  emit state [.text "\n    mov rax, 60\n    xor rdi, rdi\n    syscall\n".toList]

/-- The function `main` from the pre-pass to `emit_epilogue`, for the lines
read from the source file: the state it leaves, with the assembly file written.
The calls of the assembler and of the linker that follow are not part of the
model. -/
def main (lines : List CStr) : Outcome :=
  match prepass CompilerState.empty lines lines.length with
  | .error f => .exit f
  | .ok state =>
    (compile_script (emit_prologue state) lines lines.length 0 lines.length).bind
      (fun state1 => .done (emit_epilogue state1))

/-- Reads `s` as `pre`, an operand that ends before the first `stop`
character, and `post`: the operand, if `s` has this shape. -/
def operand_between (pre : CStr) (stop : Char) (post : CStr) (s : CStr) : Option CStr :=
  if pre.isPrefixOf s then
    let operand := (s.drop pre.length).takeWhile (fun c => c != stop)
    if post.isPrefixOf ((s.drop pre.length).drop operand.length) then some operand else none
  else none

/-- The string label a piece of code refers to: the operand of
`mov rdi, <label>` when `call print_string` follows, the two instructions that
`compile_script` writes for the text of a `print`. -/
def string_ref : Asm → Option CStr
  | .text s => operand_between "    mov rdi, ".toList '\n' "\n    call print_string\n".toList s
  | _ => none

/-- The string label a piece of the data section defines: `<label>` in a line
`    <label> db "<text>", 0`. -/
def string_def : Asm → Option CStr
  | .text s => operand_between "    ".toList ' ' " db \"".toList s
  | _ => none

/-- The string labels defined in a piece of output, in order. -/
def string_defs (out : List Asm) : List CStr :=
  out.filterMap string_def

/-- The states of the code generator that a compilation can reach, as far as
the variable table goes: `get_var_offset` is the only function that writes
`vars` or `var_count`. -/
inductive Reachable : CompilerState → Prop where
  | empty : Reachable CompilerState.empty
  | get_var_offset {s s1 : CompilerState} {name : CStr} {offset : Nat} :
      Reachable s → get_var_offset s name = .ok (offset, s1) → Reachable s1
  | other {s s1 : CompilerState} : Reachable s → s1.vars = s.vars → Reachable s1

end Compiler

namespace Tako

/-- The states of the interpreter that a run can reach: `set_var` is the only
function that writes to the state. -/
inductive Reachable : InterpreterState → Prop where
  | empty : Reachable InterpreterState.empty
  | set_var {s s1 : InterpreterState} {name : CStr} {value : Int} :
      Reachable s → set_var s name value = .ok s1 → Reachable s1

end Tako

/-! ## The literal shape of the specification -/

/-- A token is numeric in the sense of the specification: an optional single
`-` followed by one or more decimal digits and nothing else. -/
def numeric_shape (s : CStr) : Prop :=
  ∃ ds : CStr, ds ≠ [] ∧ (∀ c ∈ ds, isdigit c = true) ∧ (s = ds ∨ s = '-' :: ds)

/-- The position of the first occurrence of a name in a list of names (the
length of the list when the name does not occur). -/
def position (n : CStr) : List CStr → Nat
  | [] => 0
  | m :: ms => if m = n then 0 else position n ms + 1

/-- The distinct names of a sequence of lookups in the order of their first
appearance, after the names `acc` seen before. -/
def first_seen : List CStr → List CStr → List CStr
  | acc, [] => acc
  | acc, n :: ns => if n ∈ acc then first_seen acc ns else first_seen (acc ++ [n]) ns

/-- A name of 32 characters, one more than a table entry keeps. -/
def long_name : CStr := List.replicate 32 'a'

/-- The first 31 characters of `long_name`. -/
def long_name_stored : CStr := List.replicate 31 'a'

/-- An interpreter state whose table is full: 100 variables `v0` to `v99`. -/
def full_state : Tako.InterpreterState :=
  { vars := (List.range 100).map (fun i => { name := 'v' :: Tako.fmt_nat i, value := 0 }) }

/-- A code-generator state whose table is full: 100 variables `v0` to `v99`. -/
def full_cstate : Compiler.CompilerState :=
  { Compiler.CompilerState.empty with
    vars := (List.range 100).map (fun i => { name := 'v' :: Tako.fmt_nat i }) }

/-! ## Tokens, operators and example scripts -/

/-- A token: not empty and free of white space. -/
def is_token (t : CStr) : Bool :=
  !t.isEmpty && t.all (fun c => !isspace c)

/-- The six comparison operators. -/
def operators : List CStr :=
  [['=', '='], ['!', '='], ['>'], ['<'], ['>', '='], ['<', '=']]

/-- The comparison `l op r` of the specification, on integers. -/
def op_holds (op : CStr) (l r : Int) : Prop :=
  (op = ['=', '='] ∧ l = r) ∨ (op = ['!', '='] ∧ l ≠ r) ∨ (op = ['>'] ∧ l > r) ∨
  (op = ['<'] ∧ l < r) ∨ (op = ['>', '='] ∧ l ≥ r) ∨ (op = ['<', '='] ∧ l ≤ r)

instance (op : CStr) (l r : Int) : Decidable (op_holds op l r) := by
  unfold op_holds
  infer_instance

/-- A script whose loop body changes the variable that gives the count. -/
def loop_script : List CStr :=
  ["set n = 2".toList, "loop n".toList, "  add n 5".toList, "  print n".toList, "end".toList,
   "print \"done\"".toList]

/-- The world in which `n` is 2 and nothing has been printed. -/
def loop_world : Tako.World :=
  { state := { vars := [{ name := ['n'], value := 2 }] }, out := [], err := [] }

/-- The script of the end-to-end example with a conditional. -/
def if_script : List CStr :=
  ["if a > 5".toList, "  print \"big\"".toList, "end".toList, "print a".toList]

/-- The world in which `a` has the given value and nothing has been printed. -/
def if_world (value : Int) : Tako.World :=
  { state := { vars := [{ name := ['a'], value := value }] }, out := [], err := [] }

/-! ## Auxiliary definitions for the properties -/

/-- A script whose first block is never closed. -/
def open_loop_script : List CStr :=
  ["loop 3".toList, "  print 1".toList, "if 1 < 2".toList, "end".toList]

/-- The world of a fresh run. -/
def fresh_world : Tako.World :=
  { state := Tako.InterpreterState.empty, out := [], err := [] }

/-- The number a string of decimal digits stands for. -/
def digits_value (s : CStr) : Nat :=
  s.foldl (fun acc c => acc * 10 + (c.toNat - 48)) 0

/-- The label `str<k>`. -/
def string_label (k : Nat) : CStr :=
  ['s', 't', 'r'] ++ Tako.fmt_nat k

/-- The labels of a string table are `str0`, `str1`, ... in order, from the
index `k0` on. -/
def labels_in_order (k0 : Nat) (strings : List Compiler.StringSymbol) : Prop :=
  strings.map Compiler.StringSymbol.label = (List.range' k0 strings.length).map string_label

/-- A piece of output that is plain text throughout. -/
def plain_text (added : List Compiler.Asm) : Prop :=
  ∀ a ∈ added, ∃ t, a = Compiler.Asm.text t

/-- The bookkeeping of labels over a piece of output written while the label
counter goes from `lc` to `lc1`: the counter grows by one for every `if` header
and by two for every `loop` header compiled, and the labels defined are
distinct numbers taken while the piece was written. -/
def labels_fresh (lc : Nat) (added : List Compiler.Asm) (lc1 : Nat) : Prop :=
  lc1 = lc + Compiler.headers_compiled ['i', 'f'] added
      + 2 * Compiler.headers_compiled ['l', 'o', 'o', 'p'] added ∧
  (∀ n ∈ Compiler.label_defs added, lc ≤ n ∧ n < lc1) ∧
  (Compiler.label_defs added).Nodup

/-- A compilation step appends to the output and keeps the labels fresh. -/
def appends_fresh (s s1 : Compiler.CompilerState) : Prop :=
  ∃ added, s1.outfile = s.outfile ++ added ∧ labels_fresh s.label_count added s1.label_count

/-- A script with an `if` inside a `loop` inside an `if`, and a second loop. -/
def label_script : List CStr :=
  ["set x = 3".toList, "if x > 1".toList, "  loop x".toList, "    if x != 2".toList,
   "      print \"deep\" x".toList, "    end".toList, "  end".toList, "end".toList,
   "loop 2".toList, "  sub x 1".toList, "end".toList]

/-- The state in which `main` calls `compile_script` for `label_script`: the
string table holds the text of the script, nothing has been written. -/
def label_start : Compiler.CompilerState :=
  { Compiler.CompilerState.empty with strings := [⟨string_label 0, "deep".toList⟩] }

/-- The state `compile_script` leaves for `label_script`. -/
def label_result : Compiler.CompilerState :=
  match Compiler.compile_script label_start label_script 11 0 11 with
  | .done s => s
  | _ => label_start

/-- Modelled from the x86-64 instruction set, which is not part of the
repository: whether the conditional jump `mnemonic` is taken after `cmp l, r`,
a comparison of signed integers. -/
def jump_taken (mnemonic : CStr) (l r : Int) : Prop :=
  (mnemonic = ['j', 'n', 'e'] ∧ l ≠ r) ∨ (mnemonic = ['j', 'e'] ∧ l = r) ∨
  (mnemonic = ['j', 'l', 'e'] ∧ l ≤ r) ∨ (mnemonic = ['j', 'g', 'e'] ∧ l ≥ r) ∨
  (mnemonic = ['j', 'l'] ∧ l < r) ∨ (mnemonic = ['j', 'g'] ∧ l > r)

/-- The table of the specification: the jump that skips the body for each
operator. -/
def inverted_jump_table : List (CStr × CStr) :=
  [(['=', '='], ['j', 'n', 'e']), (['!', '='], ['j', 'e']), (['>'], ['j', 'l', 'e']),
   (['<'], ['j', 'g', 'e']), (['>', '='], ['j', 'l']), (['<', '='], ['j', 'g'])]

/-- The state `compile_script` leaves for `if_script` from the empty state. -/
def if_result : Compiler.CompilerState :=
  match Compiler.compile_script Compiler.CompilerState.empty if_script 4 0 4 with
  | .done s => s
  | _ => Compiler.CompilerState.empty

namespace Tako

/-- The call tree of `run_script`, read off its `for` loop.  `LoopAt lines
line_count s i e` says that an invocation of `run_script` on the range `[s, e)`
has its loop index at `i`.  The tree does not look at the state: it has the
body of every block whose `end` is found, also of a loop that runs zero times
or of a conditional that is false, so it holds the calls of every run
(`run_script_iter_calls`). -/
inductive LoopAt (lines : List CStr) (line_count : Nat) : Nat → Nat → Nat → Prop where
  /-- The call `run_script(&state, lines, line_count, 0, line_count)` of `main`. -/
  | entry : LoopAt lines line_count 0 0 line_count
  /-- A line that is no block header: the loop goes on with `i++`. -/
  | next {s i e : Nat} : LoopAt lines line_count s i e → i < e →
      is_block_header (clean_line lines i) = false → LoopAt lines line_count s (i + 1) e
  /-- A block header whose `end` is found: the recursive call on the body
  `[i + 1, block_end)`. -/
  | body {s i e : Nat} : LoopAt lines line_count s i e → i < e →
      is_block_header (clean_line lines i) = true →
      find_matching_end lines line_count (i + 1) ≠ -1 →
      LoopAt lines line_count (i + 1) (i + 1) (find_matching_end lines line_count (i + 1)).toNat
  /-- After the block: `i = block_end`, then `i++`. -/
  | past {s i e : Nat} : LoopAt lines line_count s i e → i < e →
      is_block_header (clean_line lines i) = true →
      find_matching_end lines line_count (i + 1) ≠ -1 →
      LoopAt lines line_count s ((find_matching_end lines line_count (i + 1)).toNat + 1) e

end Tako

namespace Compiler

/-- The outcome satisfies `Q` if it is a return and `F` if it is an exit. -/
def Outcome.holds (Q : CompilerState → Prop) (F : Fault → Prop) : Outcome → Prop
  | .done s => Q s
  | .exit f => F f
  | .unfinished => True

/-- A script with two print texts, one of them used twice. -/
def print_script : List CStr :=
  ["set x = 3".toList, "loop x".toList, "  print \"x is\" x".toList, "end".toList,
   "print \"done\"".toList, "print \"x is\" 7".toList]

/-- Every string label that a piece of output refers to is in `labels`. -/
def refs_in (labels : List CStr) (out : List Asm) : Prop :=
  ∀ a ∈ out, ∀ l, string_ref a = some l → l ∈ labels

/-- The state has the string table `table`, and its output refers to labels
of that table only. -/
def keeps_table (table : List StringSymbol) (s : CompilerState) : Prop :=
  s.strings = table ∧ refs_in (table.map StringSymbol.label) s.outfile

/-- A fault other than the one of a full string table. -/
def no_string_fault (f : Fault) : Prop :=
  f ≠ .too_many_strings

end Compiler

/-! ## Sequences of runs -/

namespace Tako

/-- The words of the specification, "run these in sequence": each piece runs
from the world the piece before it has returned, and the sequence stops at the
first piece that does not return. -/
def run_in_sequence : List (World → Outcome) → World → Outcome
  | [], w => .done w
  | piece :: pieces, w =>
    match piece w with
    | .done w1 => run_in_sequence pieces w1
    | .exit fault w1 => .exit fault w1
    | .unfinished w1 => .unfinished w1

/-- A loop of three rounds whose body prints and changes the count variable. -/
def count_script : List CStr :=
  ["set n = 3".toList, "loop n".toList, "  print \"round\" n".toList, "  sub n 1".toList,
   "end".toList, "print \"after\" n".toList]

end Tako

/-- The world in which the variable named `5` holds 3 and nothing has been
printed: the world after the line `set 5 = 3`. -/
def five_world : Tako.World :=
  { state := { vars := [{ name := ['5'], value := 3 }] }, out := [], err := [] }

/-! ## The machine that runs the code of a conditional -/

/-- Modelled from the x86-64 instruction set, which is not part of the
repository: the part of the machine that the code of an `if` header uses.
`vars` gives the quadword at `[vars + offset]`, and `cmp` holds the two
operands of the last `cmp`, first operand first. -/
structure Machine where
  rax : Int
  rbx : Int
  stack : List Int
  vars : Nat → Int
  cmp : Int × Int

/-- Modelled from the x86-64 instruction set: a value as a signed quadword. -/
def wrap64 (x : Int) : Int :=
  (x + 9223372036854775808) % 18446744073709551616 - 9223372036854775808

/-- The integer that a decimal literal with an optional minus sign stands for. -/
def literal_value (s : CStr) : Int :=
  match s with
  | '-' :: ds => -(digits_value ds : Int)
  | ds => (digits_value ds : Int)

/-- Modelled from the x86-64 instruction set and the syntax of the assembler:
what one line of the generated code does to the machine, for the five
instructions of an `if` header.  `none` for any other line. -/
def exec_line (m : Machine) (line : CStr) : Option Machine :=
  if line = "    push rax".toList then some { m with stack := m.rax :: m.stack }
  else if line = "    pop rbx".toList then
    match m.stack with
    | [] => none
    | v :: rest => some { m with rbx := v, stack := rest }
  else if line = "    cmp rbx, rax".toList then some { m with cmp := (m.rbx, m.rax) }
  else if "    mov rax, [vars + ".toList.isPrefixOf line then
    let operand := line.drop "    mov rax, [vars + ".toList.length
    let digits := operand.takeWhile isdigit
    if digits ≠ [] ∧ operand = digits ++ [']'] then
      some { m with rax := m.vars (digits_value digits) }
    else none
  else if "    mov rax, ".toList.isPrefixOf line then
    let operand := line.drop "    mov rax, ".toList.length
    if Compiler.is_number operand then some { m with rax := wrap64 (literal_value operand) }
    else none
  else none

/-- Runs a text of the assembly file line by line; `acc` holds the characters
of the current line, last first.  The text has to end with a newline. -/
def exec_text_loop : Option Machine → CStr → CStr → Option Machine
  | m, acc, [] => if acc = [] then m else none
  | m, acc, c :: cs =>
    if c = '\n' then exec_text_loop (m.bind (fun m1 => exec_line m1 acc.reverse)) [] cs
    else exec_text_loop m (c :: acc) cs

/-- Runs a text of the assembly file from the machine state `m`. -/
def exec_text (m : Machine) (text : CStr) : Option Machine :=
  exec_text_loop (some m) [] text

/-- Runs straight-line pieces of the assembly file: text is executed, the
comment of a line does nothing, and a jump or a label ends the run. -/
def exec_pieces : Machine → List Compiler.Asm → Option Machine
  | m, [] => some m
  | m, .text t :: rest => (exec_text m t).bind (fun m1 => exec_pieces m1 rest)
  | m, .line_comment _ _ :: rest => exec_pieces m rest
  | _, _ => none

namespace Compiler

/-- The offset that `get_var_offset` returns for `name` when the table is
`vars`: the slot of the entry found, or the next free slot. -/
def slot_of (vars : List VariableSymbol) (name : CStr) : Nat :=
  match get_var_offset_loop name vars 0 with
  | some offset => offset
  | none => vars.length * 8

/-- The variable table after `emit_load_value` has loaded the operand `x`: a
name that is not found is entered. -/
def vars_after_load (vars : List VariableSymbol) (x : CStr) : List VariableSymbol :=
  if is_number x then vars
  else
    match get_var_offset_loop x vars 0 with
    | some _ => vars
    | none => vars ++ [{ name := strncpy x (MAX_VAR_NAME - 1) }]

/-- The value of the operand `x` of the source in the generated program: the
literal as a signed quadword, or the content of the slot that the table gives
to the name. -/
def operand_value (m : Machine) (vars : List VariableSymbol) (x : CStr) : Int :=
  if is_number x then wrap64 (literal_value x) else m.vars (slot_of vars x)

end Compiler

/-- A machine in which the slot at offset 0 holds `value`. -/
def machine_with (value : Int) : Machine :=
  { rax := 0, rbx := 0, stack := [], vars := fun offset => if offset = 0 then value else 0,
    cmp := (0, 0) }

/-! # Properties -/

namespace Tako

/-! ## Block matcher -/

theorem is_end_not_header (line : CStr) (h : is_end line = true) :
    is_block_header line = false := by
  have : line = ['e', 'n', 'd'] := by simpa [is_end, strcmp_eq] using h
  subst this
  decide

theorem depth_delta_succ_right (lines : List CStr) (n i : Nat) :
    depth_delta lines i (n + 1)
      = depth_delta lines i n + depth_step (trim_whitespace (lines.getD (i + n) [])) := by
  induction n generalizing i with
  | zero => simp [depth_delta]
  | succ n ih =>
    rw [depth_delta, ih (i + 1), depth_delta]
    have : i + 1 + n = i + (n + 1) := by omega
    rw [this]; ring

theorem depth_delta_add (lines : List CStr) (m n i : Nat) :
    depth_delta lines i (m + n) = depth_delta lines i m + depth_delta lines (i + m) n := by
  induction m generalizing i with
  | zero => simp [depth_delta]
  | succ m ih =>
    have h1 : m + 1 + n = (m + n) + 1 := by omega
    rw [h1, depth_delta, depth_delta, ih (i + 1)]
    have : i + 1 + m = i + (m + 1) := by omega
    rw [this]; ring

theorem depth_delta_eq_count (lines : List CStr) (n i : Nat) :
    depth_delta lines i n
      = ((((lines.drop i).take n).map trim_whitespace).countP is_block_header : Int)
        - ((((lines.drop i).take n).map trim_whitespace).countP is_end : Int) := by
  induction n generalizing i with
  | zero => simp [depth_delta]
  | succ n ih =>
    rw [depth_delta, ih (i + 1)]
    rcases hd : lines.drop i with _ | ⟨x, rest⟩
    · have hlen : lines.length ≤ i := by simpa using hd
      have h1 : lines.drop (i + 1) = [] := by
        apply List.drop_eq_nil_of_le; omega
      have h2 : lines.getD i [] = [] := by
        rw [List.getD_eq_getElem?_getD, List.getElem?_eq_none hlen]; rfl
      rw [h1, h2]
      simp [depth_step, trim_whitespace, is_block_header, is_end, strncmp_eq, strcmp_eq]
    · have hlen : i < lines.length := by
        by_contra hc
        have : lines.drop i = [] := List.drop_eq_nil_of_le (by omega)
        rw [this] at hd; cases hd
      have h1 : lines.drop (i + 1) = rest := by
        have := List.drop_eq_getElem_cons hlen
        rw [this] at hd
        injection hd
      have h2 : lines.getD i [] = x := by
        have := List.drop_eq_getElem_cons hlen
        rw [this] at hd
        injection hd with hx _
        rw [List.getD_eq_getElem?_getD, List.getElem?_eq_getElem hlen]
        simpa using hx
      rw [h1, h2]
      simp only [List.take_succ_cons, List.map_cons, List.countP_cons]
      unfold depth_step
      by_cases hb : is_block_header (trim_whitespace x) = true
      · have he : is_end (trim_whitespace x) = false := by
          by_contra hc
          have := is_end_not_header _ (by simpa using hc)
          rw [this] at hb; cases hb
        simp [hb, he]; ring
      · by_cases he : is_end (trim_whitespace x) = true
        · simp [hb, he]; ring
        · simp [hb, he]

theorem depth_after_eq (lines : List CStr) (start k : Nat) :
    depth_after lines start k = 1 + depth_delta lines start (k + 1 - start) := by
  rw [depth_delta_eq_count]
  simp only [depth_after, block_slice]
  ring

/-- Loop invariant of `find_matching_end`: started at line `i` with a depth
`d ≥ 1`, the loop returns the first index at which the running depth is 0, and
`-1` exactly when the running depth stays positive up to the end of the
script. -/
theorem find_matching_end_loop_spec (lines : List CStr) (lc : Nat) :
    ∀ (fuel i : Nat) (d : Int), fuel = lc - i → 1 ≤ d →
      (find_matching_end_loop lines lc fuel i d = -1 ∧
        ∀ k, i ≤ k → k < lc → 1 ≤ d + depth_delta lines i (k + 1 - i)) ∨
      (∃ e : Nat, find_matching_end_loop lines lc fuel i d = (e : Int) ∧ i ≤ e ∧ e < lc ∧
        is_end (trim_whitespace (lines.getD e [])) = true ∧
        d + depth_delta lines i (e + 1 - i) = 0 ∧
        ∀ k, i ≤ k → k < e → 1 ≤ d + depth_delta lines i (k + 1 - i)) := by
  intro fuel
  induction fuel with
  | zero =>
    intro i d hf _
    left
    refine ⟨rfl, ?_⟩
    intro k h1 h2
    omega
  | succ fuel ih =>
    intro i d hf hd
    have hi : i < lc := by omega
    have hf2 : fuel = lc - (i + 1) := by omega
    -- the counter after line `k ≥ i`, split at line `i`
    have hsplit : ∀ k, i ≤ k → depth_delta lines i (k + 1 - i)
        = depth_step (trim_whitespace (lines.getD i [])) + depth_delta lines (i + 1) (k - i) := by
      intro k hk
      have : k + 1 - i = (k - i) + 1 := by omega
      rw [this, depth_delta]
    have key : ∀ d2 : Int, 1 ≤ d2 →
        d2 = d + depth_step (trim_whitespace (lines.getD i [])) →
        ((find_matching_end_loop lines lc fuel (i + 1) d2 = -1 ∧
          ∀ k, i ≤ k → k < lc → 1 ≤ d + depth_delta lines i (k + 1 - i)) ∨
        (∃ e : Nat, find_matching_end_loop lines lc fuel (i + 1) d2 = (e : Int) ∧ i ≤ e ∧ e < lc ∧
          is_end (trim_whitespace (lines.getD e [])) = true ∧
          d + depth_delta lines i (e + 1 - i) = 0 ∧
          ∀ k, i ≤ k → k < e → 1 ≤ d + depth_delta lines i (k + 1 - i))) := by
      intro d2 hd2 hd2eq
      have hconv : ∀ k, i ≤ k → d + depth_delta lines i (k + 1 - i)
          = if k = i then d2 else d2 + depth_delta lines (i + 1) (k + 1 - (i + 1)) := by
        intro k hk
        rw [hsplit k hk]
        by_cases hki : k = i
        · subst hki; simp [depth_delta, hd2eq]
        · have : k + 1 - (i + 1) = k - i := by omega
          rw [if_neg hki, this, hd2eq]; ring
      rcases ih (i + 1) d2 hf2 hd2 with ⟨hr, hall⟩ | ⟨e, hr, hie, hel, hend, hz, hall⟩
      · left
        refine ⟨hr, ?_⟩
        intro k hk hkl
        rw [hconv k hk]
        by_cases hki : k = i
        · simp [hki, hd2]
        · rw [if_neg hki]; exact hall k (by omega) hkl
      · right
        refine ⟨e, hr, by omega, hel, hend, ?_, ?_⟩
        · rw [hconv e (by omega), if_neg (by omega)]; exact hz
        · intro k hk hke
          rw [hconv k hk]
          by_cases hki : k = i
          · simp [hki, hd2]
          · rw [if_neg hki]; exact hall k (by omega) hke
    rw [find_matching_end_loop, if_pos hi]
    by_cases hb : is_block_header (trim_whitespace (lines.getD i [])) = true
    · simp only [hb, if_true]
      exact key (d + 1) (by omega) (by unfold depth_step; rw [if_pos hb])
    · by_cases he : is_end (trim_whitespace (lines.getD i [])) = true
      · simp only [hb, he, if_true]
        by_cases hd1 : d - 1 = 0
        · right
          refine ⟨i, by simp [hd1], le_refl _, hi, he, ?_, ?_⟩
          · rw [hsplit i (le_refl _)]
            unfold depth_step
            rw [if_neg hb, if_pos he, Nat.sub_self, depth_delta]
            omega
          · intro k h1 h2; omega
        · rw [if_neg hd1]
          · exact key (d - 1) (by omega) (by unfold depth_step; rw [if_neg hb, if_pos he]; ring)
      · simp only [hb, he]
        exact key d hd (by unfold depth_step; rw [if_neg hb, if_neg he]; ring)

/-- The function `find_matching_end` returns either `-1` or the first index at
which the depth counter of the specification is 0. -/
theorem find_matching_end_spec (lines : List CStr) (lc start : Nat) :
    (find_matching_end lines lc start = -1 ∧
      ∀ k, start ≤ k → k < lc → 1 ≤ depth_after lines start k) ∨
    (∃ e : Nat, find_matching_end lines lc start = (e : Int) ∧ start ≤ e ∧ e < lc ∧
      is_end (trim_whitespace (lines.getD e [])) = true ∧
      depth_after lines start e = 0 ∧
      ∀ k, start ≤ k → k < e → 1 ≤ depth_after lines start k) := by
  simp only [depth_after_eq]
  exact find_matching_end_loop_spec lines lc (lc - start) start 1 rfl (le_refl _)

/-- C1: when `find_matching_end` returns an index `e ≥ 0`, then
`start ≤ e < line_count`, the normalized line `e` is exactly `end`, the depth
counter (1 at the start, plus one for every normalized line of `[start, e]`
that begins with `if ` or `loop `, minus one for every one equal to `end`) is 0
after line `e`, and it is at least 1 after every line of `[start, e)`. -/
theorem find_matching_end_first_zero (lines : List CStr) (line_count start : Nat) (e : Int)
    (h : find_matching_end lines line_count start = e) (he : 0 ≤ e) :
    (start : Int) ≤ e ∧ e < (line_count : Int) ∧
    trim_whitespace (lines.getD e.toNat []) = ['e', 'n', 'd'] ∧
    depth_after lines start e.toNat = 0 ∧
    ∀ k : Nat, start ≤ k → k < e.toNat → 1 ≤ depth_after lines start k := by
  rcases find_matching_end_spec lines line_count start with ⟨hr, _⟩ | ⟨e0, hr, h1, h2, h3, h4, h5⟩
  · rw [hr] at h; omega
  · rw [hr] at h
    subst h
    refine ⟨by omega, by omega, ?_, ?_, ?_⟩
    · simpa [is_end, strcmp_eq] using h3
    · simpa using h4
    · intro k hk hke
      exact h5 k hk (by simpa using hke)

theorem find_matching_end_first_zero_witness :
    find_matching_end nested_script 6 1 = 4 ∧
    ((1 : Nat) : Int) ≤ 4 ∧ (4 : Int) < ((6 : Nat) : Int) ∧
    trim_whitespace (nested_script.getD (4 : Int).toNat []) = ['e', 'n', 'd'] ∧
    depth_after nested_script 1 (4 : Int).toNat = 0 ∧
    ∀ k : Nat, 1 ≤ k → k < (4 : Int).toNat → 1 ≤ depth_after nested_script 1 k :=
  ⟨by decide, find_matching_end_first_zero nested_script 6 1 4 (by decide) (by decide)⟩

/-- C4: blocks nest and never overlap.  If `find_matching_end` from `s` returns
`e` and a line `i` with `s ≤ i < e` is a block header, then `find_matching_end`
from `i + 1` returns an index strictly between `i` and `e`. -/
theorem nested_block_closed_inside (lines : List CStr) (line_count s i : Nat) (e : Int)
    (h : find_matching_end lines line_count s = e) (hsi : s ≤ i) (hie : (i : Int) < e)
    (hhdr : is_block_header (trim_whitespace (lines.getD i [])) = true) :
    ∃ e2 : Int, find_matching_end lines line_count (i + 1) = e2 ∧ (i : Int) < e2 ∧ e2 < e := by
  rcases find_matching_end_spec lines line_count s with ⟨hr, _⟩ | ⟨e0, hr, h1, h2, _, h4, h5⟩
  · rw [hr] at h; omega
  · rw [hr] at h
    subst h
    have hie0 : i < e0 := by omega
    rw [depth_after_eq] at h4
    -- the counter is at least 2 after the header line `i`
    have hbefore : 1 ≤ 1 + depth_delta lines s (i - s) := by
      by_cases hs : i = s
      · subst hs; simp [depth_delta]
      · have := h5 (i - 1) (by omega) (by omega)
        rw [depth_after_eq] at this
        have e1 : i - 1 + 1 - s = i - s := by omega
        rwa [e1] at this
    have hati : depth_delta lines s (i + 1 - s) = depth_delta lines s (i - s) + 1 := by
      have e1 : i + 1 - s = (i - s) + 1 := by omega
      have e2 : s + (i - s) = i := by omega
      rw [e1, depth_delta_succ_right, e2]
      unfold depth_step
      rw [if_pos hhdr]
    have hsum : depth_delta lines s (e0 + 1 - s)
        = depth_delta lines s (i + 1 - s) + depth_delta lines (i + 1) (e0 - i) := by
      have e1 : e0 + 1 - s = (i + 1 - s) + (e0 - i) := by omega
      have e2 : s + (i + 1 - s) = i + 1 := by omega
      rw [e1, depth_delta_add, e2]
    have hneg : 1 + depth_delta lines (i + 1) (e0 - i) ≤ -1 := by omega
    have hk : e0 + 1 - (i + 1) = e0 - i := by omega
    rcases find_matching_end_spec lines line_count (i + 1) with
      ⟨_, hall⟩ | ⟨e2, hr2, g1, _, _, g4, g5⟩
    · have := hall e0 (by omega) h2
      rw [depth_after_eq, hk] at this
      omega
    · refine ⟨(e2 : Int), hr2, by omega, ?_⟩
      by_contra hc
      have hge : e0 ≤ e2 := by omega
      by_cases heq : e2 = e0
      · subst heq
        rw [depth_after_eq, hk] at g4
        omega
      · have := g5 e0 (by omega) (by omega)
        rw [depth_after_eq, hk] at this
        omega

theorem nested_block_closed_inside_witness :
    ∃ e2 : Int, find_matching_end nested_script 6 (1 + 1) = e2 ∧ ((1 : Nat) : Int) < e2 ∧ e2 < 4 :=
  nested_block_closed_inside nested_script 6 1 1 4 (by decide) (by decide) (by decide) (by decide)

end Tako


/-! ## Literal classifiers -/

theorem isdigit_ne_minus (c : Char) (h : isdigit c = true) : c ≠ '-' := by
  intro hc
  subst hc
  revert h
  decide

/-- The code generator's `is_number` accepts exactly the tokens of numeric
shape. -/
theorem is_number_iff_numeric_shape (s : CStr) :
    Compiler.is_number s = true ↔ numeric_shape s := by
  constructor
  · intro h
    cases s with
    | nil => simp [Compiler.is_number] at h
    | cons c cs =>
      by_cases hc : c = '-'
      · subst hc
        cases cs with
        | nil => simp [Compiler.is_number] at h
        | cons d ds =>
          refine ⟨d :: ds, by simp, ?_, Or.inr rfl⟩
          intro x hx
          simp only [Compiler.is_number, if_true, List.all_eq_true] at h
          exact h x hx
      · refine ⟨c :: cs, by simp, ?_, Or.inl rfl⟩
        intro x hx
        simp only [Compiler.is_number, if_neg hc, List.all_eq_true] at h
        exact h x hx
  · rintro ⟨ds, hne, hall, hs | hs⟩
    · subst hs
      cases s with
      | nil => exact absurd rfl hne
      | cons c cs =>
        have hc : c ≠ '-' := isdigit_ne_minus c (hall c (by simp))
        simp only [Compiler.is_number, if_neg hc, List.all_eq_true]
        exact hall
    · subst hs
      cases ds with
      | nil => exact absurd rfl hne
      | cons d ds =>
        simp only [Compiler.is_number, if_true, List.all_eq_true]
        exact hall

/-- C10: `is_number(s)` is true if and only if `s` is an optional single `-`
followed by one or more decimal digits and nothing else; the empty string, a
bare `-`, `--1`, `1a` and `+1` are rejected. -/
theorem is_number_exactly_numeric_shape (s : CStr) :
    (Compiler.is_number s = true ↔ numeric_shape s) ∧
    Compiler.is_number [] = false ∧
    Compiler.is_number ['-'] = false ∧
    Compiler.is_number ['-', '-', '1'] = false ∧
    Compiler.is_number ['1', 'a'] = false ∧
    Compiler.is_number ['+', '1'] = false :=
  ⟨is_number_iff_numeric_shape s, by decide, by decide, by decide, by decide, by decide⟩

/-- The interpreter's test before `atoi` looks at the first one or two
characters only: every token of numeric shape passes it. -/
theorem looks_numeric_of_numeric_shape (s : CStr) (h : numeric_shape s) :
    Tako.looks_numeric s = true := by
  rcases h with ⟨ds, hne, hall, hs | hs⟩
  · subst hs
    cases s with
    | nil => exact absurd rfl hne
    | cons c cs => simp [Tako.looks_numeric, hall c (by simp)]
  · subst hs
    cases ds with
    | nil => exact absurd rfl hne
    | cons d ds => simp [Tako.looks_numeric, hall d (by simp)]

/-- C9 (defect in `resolve_value`): the token `1a` is not of numeric shape and
names no variable of the empty state, yet `resolve_value` does not fail with
the undefined-reference fault: it returns 1, the value `atoi` reads off the
leading digit.  The same holds for `-7up`, and the code generator's `is_number`
rejects both tokens. -/
theorem resolve_value_accepts_malformed_number :
    ¬ numeric_shape ['1', 'a'] ∧
    Tako.find_var Tako.InterpreterState.empty ['1', 'a'] = none ∧
    Tako.resolve_value Tako.InterpreterState.empty ['1', 'a'] = .ok 1 ∧
    ¬ numeric_shape ['-', '7', 'u', 'p'] ∧
    Tako.resolve_value Tako.InterpreterState.empty ['-', '7', 'u', 'p'] = .ok (-7) ∧
    Compiler.is_number ['1', 'a'] = false ∧
    Compiler.is_number ['-', '7', 'u', 'p'] = false := by
  refine ⟨?_, by decide, by decide, ?_, by decide, by decide, by decide⟩
  · rw [← is_number_iff_numeric_shape]; decide
  · rw [← is_number_iff_numeric_shape]; decide

namespace Tako

/-! ## Interpreter symbol table -/

theorem find_var_loop_none_iff (name : CStr) (vars : List Variable) (i : Nat) :
    find_var_loop name vars i = none ↔ ∀ v ∈ vars, v.name ≠ name := by
  induction vars generalizing i with
  | nil => simp [find_var_loop]
  | cons v vs ih =>
    by_cases h : v.name = name
    · simp [find_var_loop, strcmp_eq, h]
    · simp [find_var_loop, strcmp_eq, h, ih]

theorem find_var_loop_some_bounds (name : CStr) (vars : List Variable) (i j : Nat)
    (h : find_var_loop name vars i = some j) : i ≤ j ∧ j - i < vars.length := by
  induction vars generalizing i with
  | nil => simp [find_var_loop] at h
  | cons v vs ih =>
    by_cases hv : v.name = name
    · simp [find_var_loop, strcmp_eq, hv] at h
      subst h; simp
    · simp [find_var_loop, strcmp_eq, hv] at h
      have := ih (i + 1) h
      simp only [List.length_cons]
      omega

theorem store_value_length (value : Int) (vars : List Variable) (i : Nat) :
    (store_value value vars i).length = vars.length := by
  induction vars generalizing i with
  | nil => simp [store_value]
  | cons v vs ih =>
    cases i with
    | zero => simp [store_value]
    | succ i => simp [store_value, ih]

theorem store_value_names (value : Int) (vars : List Variable) (i : Nat) :
    (store_value value vars i).map Variable.name = vars.map Variable.name := by
  induction vars generalizing i with
  | nil => simp [store_value]
  | cons v vs ih =>
    cases i with
    | zero => simp [store_value]
    | succ i => simp [store_value, ih]

/-- A successful `set_var` either keeps `var_count` (the name was found) or
adds one entry to a table that had room. -/
theorem set_var_var_count (state s1 : InterpreterState) (name : CStr) (value : Int)
    (h : set_var state name value = .ok s1) :
    s1.var_count = state.var_count ∨
      (state.var_count < MAX_VARS ∧ s1.var_count = state.var_count + 1) := by
  unfold set_var at h
  cases hf : find_var state name with
  | some i =>
    rw [hf] at h
    simp only [Except.ok.injEq] at h
    subst h
    left
    simp [InterpreterState.var_count, store_value_length]
  | none =>
    rw [hf] at h
    by_cases hc : state.var_count ≥ MAX_VARS
    · simp [hc] at h
    · simp only [if_neg hc, Except.ok.injEq] at h
      subst h
      right
      refine ⟨by omega, ?_⟩
      simp [InterpreterState.var_count]

theorem reachable_var_count_le (state : InterpreterState) (h : Reachable state) :
    state.var_count ≤ MAX_VARS := by
  induction h with
  | empty => simp [InterpreterState.empty, InterpreterState.var_count]
  | set_var _ hs ih =>
    rcases set_var_var_count _ _ _ _ hs with h1 | ⟨h1, h2⟩
    · omega
    · omega

theorem set_var_new_name (state : InterpreterState) (name : CStr) (value : Int)
    (hnew : ∀ v ∈ state.vars, v.name ≠ name) :
    (MAX_VARS ≤ state.var_count → set_var state name value = .error .resource_exhausted) ∧
    (state.var_count < MAX_VARS →
      ∃ s1, set_var state name value = .ok s1 ∧ s1.var_count = state.var_count + 1) := by
  have hf : find_var state name = none := (find_var_loop_none_iff name state.vars 0).2 hnew
  constructor
  · intro hc
    simp [set_var, hf, hc]
  · intro hc
    have hc2 : ¬ state.var_count ≥ MAX_VARS := by omega
    refine ⟨_, by simp only [set_var, hf, if_neg hc2]; rfl, ?_⟩
    simp [InterpreterState.var_count]

theorem find_var_loop_congr (name : CStr) (vars vars2 : List Variable) (i : Nat)
    (h : vars.map Variable.name = vars2.map Variable.name) :
    find_var_loop name vars i = find_var_loop name vars2 i := by
  induction vars generalizing vars2 i with
  | nil =>
    cases vars2 with
    | nil => rfl
    | cons w ws => simp at h
  | cons v vs ih =>
    cases vars2 with
    | nil => simp at h
    | cons w ws =>
      simp only [List.map_cons, List.cons.injEq] at h
      simp only [find_var_loop, h.1]
      rw [ih ws (i + 1) h.2]

theorem find_var_loop_append_new (name : CStr) (vars : List Variable) (x : Variable) (i : Nat)
    (h : find_var_loop name vars i = none) (hx : x.name = name) :
    find_var_loop name (vars ++ [x]) i = some (i + vars.length) := by
  induction vars generalizing i with
  | nil => simp [find_var_loop, strcmp_eq, hx]
  | cons v vs ih =>
    by_cases hv : v.name = name
    · simp [find_var_loop, strcmp_eq, hv] at h
    · simp only [find_var_loop, strcmp_eq, beq_iff_eq, hv, if_false] at h
      simp only [List.cons_append, find_var_loop, strcmp_eq, beq_iff_eq, hv, if_false]
      have := ih (i + 1) h
      simp only [List.append_eq] at this ⊢
      rw [this]
      simp only [List.length_cons]
      congr 1
      omega

theorem store_value_read (value : Int) (vars : List Variable) (i : Nat) (h : i < vars.length) :
    ((store_value value vars i).getD i ⟨[], 0⟩).value = value := by
  induction vars generalizing i with
  | nil => simp at h
  | cons v vs ih =>
    cases i with
    | zero => simp [store_value]
    | succ i =>
      simp only [List.length_cons] at h
      have := ih i (by omega)
      simpa [store_value] using this

/-- Assigning to a name that `find_var` finds overwrites the value in place. -/
theorem set_var_existing (state : InterpreterState) (name : CStr) (value : Int) (i : Nat)
    (h : find_var state name = some i) :
    set_var state name value = .ok { vars := store_value value state.vars i } ∧
    find_var { vars := store_value value state.vars i } name = some i ∧
    resolve_value { vars := store_value value state.vars i } name
      = if looks_numeric name then .ok (atoi name) else .ok value := by
  have hb := find_var_loop_some_bounds name state.vars 0 i h
  have hfind : find_var { vars := store_value value state.vars i } name = some i := by
    unfold find_var at h ⊢
    rw [find_var_loop_congr name _ state.vars 0 (store_value_names value state.vars i)]
    exact h
  refine ⟨by simp only [set_var, h], hfind, ?_⟩
  unfold resolve_value
  rw [hfind]
  by_cases hn : looks_numeric name = true
  · simp [hn]
  · simp only [hn]
    rw [store_value_read value state.vars i (by omega)]

/-- For a name that fits a table entry (fewer than `MAX_VAR_NAME` characters)
the name is a key: a second `set_var` finds the entry of the first, leaves
`var_count` alone and overwrites the value. -/
theorem set_var_twice_short_name (state : InterpreterState) (name : CStr) (v1 v2 : Int)
    (hlen : name.length < MAX_VAR_NAME) (hroom : state.var_count < MAX_VARS)
    (hname : looks_numeric name = false) :
    ∃ s1 s2, set_var state name v1 = .ok s1 ∧ set_var s1 name v2 = .ok s2 ∧
      s2.var_count = s1.var_count ∧ resolve_value s2 name = .ok v2 := by
  have hkeep : strncpy name (MAX_VAR_NAME - 1) = name := by
    unfold strncpy
    apply List.take_of_length_le
    simp only [MAX_VAR_NAME] at hlen ⊢
    omega
  cases hf : find_var state name with
  | some i =>
    obtain ⟨h1, h2, _⟩ := set_var_existing state name v1 i hf
    obtain ⟨h3, _, h5⟩ := set_var_existing _ name v2 i h2
    refine ⟨_, _, h1, h3, ?_, ?_⟩
    · simp [InterpreterState.var_count, store_value_length]
    · rw [h5, hname]; simp
  | none =>
    have hc : ¬ state.var_count ≥ MAX_VARS := by omega
    have h1 : set_var state name v1
        = .ok { vars := state.vars ++ [{ name := name, value := v1 }] } := by
      simp only [set_var, hf, if_neg hc, hkeep]
    have h2 : find_var { vars := state.vars ++ [{ name := name, value := v1 }] } name
        = some (0 + state.vars.length) :=
      find_var_loop_append_new name state.vars _ 0 hf rfl
    obtain ⟨h3, _, h5⟩ := set_var_existing _ name v2 _ h2
    refine ⟨_, _, h1, h3, ?_, ?_⟩
    · simp [InterpreterState.var_count, store_value_length]
    · rw [h5, hname]; simp

end Tako

namespace Compiler

/-! ## Code-generator symbol table -/

theorem get_var_offset_loop_none_iff (name : CStr) (vars : List VariableSymbol) (i : Nat) :
    get_var_offset_loop name vars i = none ↔ ∀ v ∈ vars, v.name ≠ name := by
  induction vars generalizing i with
  | nil => simp [get_var_offset_loop]
  | cons v vs ih =>
    by_cases h : v.name = name
    · simp [get_var_offset_loop, strcmp_eq, h]
    · simp [get_var_offset_loop, strcmp_eq, h, ih]

/-- A successful `get_var_offset` either keeps the table (the name was found)
or adds one entry to a table that had room. -/
theorem get_var_offset_var_count (state s1 : CompilerState) (name : CStr) (offset : Nat)
    (h : get_var_offset state name = .ok (offset, s1)) :
    s1.var_count = state.var_count ∨
      (state.var_count < MAX_VARS ∧ s1.var_count = state.var_count + 1) := by
  unfold get_var_offset at h
  cases hf : get_var_offset_loop name state.vars 0 with
  | some o =>
    rw [hf] at h
    simp only [Except.ok.injEq, Prod.mk.injEq] at h
    rw [← h.2]
    exact Or.inl rfl
  | none =>
    rw [hf] at h
    by_cases hc : state.var_count ≥ MAX_VARS
    · simp [hc] at h
    · simp only [if_neg hc, Except.ok.injEq, Prod.mk.injEq] at h
      rw [← h.2]
      right
      refine ⟨by omega, ?_⟩
      simp [CompilerState.var_count]

theorem reachable_cvar_count_le (state : CompilerState) (h : Reachable state) :
    state.var_count ≤ MAX_VARS := by
  induction h with
  | empty => simp [CompilerState.empty, CompilerState.var_count]
  | get_var_offset _ hs ih =>
    rcases get_var_offset_var_count _ _ _ _ hs with h1 | ⟨h1, h2⟩
    · omega
    · omega
  | other _ hs ih =>
    simp only [CompilerState.var_count] at ih ⊢
    rw [hs]; exact ih

theorem get_var_offset_new_name (state : CompilerState) (name : CStr)
    (hnew : ∀ v ∈ state.vars, v.name ≠ name) :
    (MAX_VARS ≤ state.var_count → get_var_offset state name = .error .too_many_variables) ∧
    (state.var_count < MAX_VARS →
      ∃ offset s1, get_var_offset state name = .ok (offset, s1) ∧
        s1.var_count = state.var_count + 1) := by
  have hf : get_var_offset_loop name state.vars 0 = none :=
    (get_var_offset_loop_none_iff name state.vars 0).2 hnew
  constructor
  · intro hc
    simp [get_var_offset, hf, hc]
  · intro hc
    have hc2 : ¬ state.var_count ≥ MAX_VARS := by omega
    refine ⟨_, _, by simp only [get_var_offset, hf, if_neg hc2]; rfl, ?_⟩
    simp [CompilerState.var_count]

/-! ### Names that fit a table entry -/

theorem first_seen_extends (ns acc : List CStr) : ∃ t, first_seen acc ns = acc ++ t := by
  induction ns generalizing acc with
  | nil => exact ⟨[], by simp [first_seen]⟩
  | cons n ns ih =>
    by_cases h : n ∈ acc
    · simp only [first_seen, if_pos h]; exact ih acc
    · simp only [first_seen, if_neg h]
      obtain ⟨t, ht⟩ := ih (acc ++ [n])
      exact ⟨n :: t, by rw [ht]; simp⟩

theorem first_seen_covers (ns acc : List CStr) : ∀ n ∈ ns, n ∈ first_seen acc ns := by
  induction ns generalizing acc with
  | nil => intro n hn; cases hn
  | cons m ns ih =>
    intro n hn
    have hm : ∀ acc2 : List CStr, m ∈ acc2 → m ∈ first_seen acc2 ns := by
      intro acc2 h2
      obtain ⟨t, ht⟩ := first_seen_extends ns acc2
      rw [ht]; exact List.mem_append_left _ h2
    by_cases h : m ∈ acc
    · simp only [first_seen, if_pos h]
      rcases List.mem_cons.1 hn with rfl | hn2
      · exact hm acc h
      · exact ih acc n hn2
    · simp only [first_seen, if_neg h]
      rcases List.mem_cons.1 hn with rfl | hn2
      · exact hm _ (by simp)
      · exact ih _ n hn2

theorem first_seen_nodup (ns acc : List CStr) (h : acc.Nodup) : (first_seen acc ns).Nodup := by
  induction ns generalizing acc with
  | nil => exact h
  | cons n ns ih =>
    by_cases hn : n ∈ acc
    · simp only [first_seen, if_pos hn]; exact ih acc h
    · simp only [first_seen, if_neg hn]
      apply ih
      rw [List.nodup_append]
      refine ⟨h, by simp, ?_⟩
      intro a ha hb
      simp only [List.mem_singleton] at hb
      subst hb
      exact hn ha

theorem position_append_of_mem (n : CStr) (l1 l2 : List CStr) (h : n ∈ l1) :
    position n (l1 ++ l2) = position n l1 := by
  induction l1 with
  | nil => cases h
  | cons m ms ih =>
    by_cases hm : m = n
    · simp [position, hm]
    · simp only [List.cons_append, position, if_neg hm]
      rcases List.mem_cons.1 h with h1 | h1
      · exact absurd h1.symm hm
      · have := ih h1
        simp only [List.append_eq] at this ⊢
        rw [this]

theorem position_append_new (n : CStr) (l : List CStr) (h : n ∉ l) :
    position n (l ++ [n]) = l.length := by
  induction l with
  | nil => simp [position]
  | cons m ms ih =>
    have hm : ¬ m = n := fun e => h (by simp [e])
    have := ih (fun hmem => h (List.mem_cons_of_mem _ hmem))
    simp only [List.cons_append, position, if_neg hm, List.length_cons]
    simp only [List.append_eq] at this ⊢
    rw [this]

theorem position_inj (n1 n2 : CStr) (l : List CStr) (h1 : n1 ∈ l) (h2 : n2 ∈ l)
    (h : position n1 l = position n2 l) : n1 = n2 := by
  induction l with
  | nil => cases h1
  | cons m ms ih =>
    by_cases e1 : m = n1
    · by_cases e2 : m = n2
      · rw [← e1, ← e2]
      · simp only [position, if_pos e1, if_neg e2] at h
        omega
    · by_cases e2 : m = n2
      · simp only [position, if_neg e1, if_pos e2] at h
        omega
      · simp only [position, if_neg e1, if_neg e2, Nat.add_right_cancel_iff] at h
        rcases List.mem_cons.1 h1 with g1 | g1
        · exact absurd g1.symm e1
        · rcases List.mem_cons.1 h2 with g2 | g2
          · exact absurd g2.symm e2
          · exact ih g1 g2 h

/-- The search loop of `get_var_offset` finds the first entry with the name:
its index is the position of the name among the stored names. -/
theorem get_var_offset_loop_eq (name : CStr) (vars : List VariableSymbol) (i : Nat) :
    get_var_offset_loop name vars i =
      if name ∈ vars.map VariableSymbol.name then
        some ((i + position name (vars.map VariableSymbol.name)) * 8)
      else none := by
  induction vars generalizing i with
  | nil => simp [get_var_offset_loop]
  | cons v vs ih =>
    by_cases hv : v.name = name
    · simp [get_var_offset_loop, strcmp_eq, hv, position]
    · have hne : ¬ name = v.name := fun h => hv h.symm
      simp only [get_var_offset_loop, strcmp_eq, beq_iff_eq, hv, if_false, List.map_cons,
        List.mem_cons, hne, false_or, position]
      rw [ih (i + 1)]
      by_cases hm : name ∈ vs.map VariableSymbol.name
      · rw [if_pos hm, if_pos hm]
        congr 2
        omega
      · rw [if_neg hm, if_neg hm]

/-- One lookup of a name that fits a table entry: the stored names afterwards
and the offset returned. -/
theorem get_var_offset_short (state s1 : CompilerState) (name : CStr) (offset : Nat)
    (hlen : name.length < MAX_VAR_NAME)
    (h : get_var_offset state name = .ok (offset, s1)) :
    s1.vars.map VariableSymbol.name
        = (if name ∈ state.vars.map VariableSymbol.name then state.vars.map VariableSymbol.name
            else state.vars.map VariableSymbol.name ++ [name]) ∧
    offset = 8 * position name (s1.vars.map VariableSymbol.name) := by
  have hkeep : strncpy name (MAX_VAR_NAME - 1) = name := by
    unfold strncpy
    apply List.take_of_length_le
    simp only [MAX_VAR_NAME] at hlen ⊢
    omega
  unfold get_var_offset at h
  rw [get_var_offset_loop_eq] at h
  by_cases hm : name ∈ state.vars.map VariableSymbol.name
  · rw [if_pos hm] at h
    simp only [Except.ok.injEq, Prod.mk.injEq] at h
    rw [← h.2, if_pos hm]
    refine ⟨rfl, ?_⟩
    rw [← h.1]; omega
  · rw [if_neg hm] at h
    by_cases hc : state.var_count ≥ MAX_VARS
    · simp [hc] at h
    · simp only [if_neg hc, Except.ok.injEq, Prod.mk.injEq, hkeep] at h
      rw [← h.2, if_neg hm]
      have hmap : List.map VariableSymbol.name (state.vars ++ [{ name := name }])
          = List.map VariableSymbol.name state.vars ++ [name] := by simp
      refine ⟨hmap, ?_⟩
      rw [hmap, position_append_new name _ hm, ← h.1]
      simp only [CompilerState.var_count, List.length_map]
      omega

/-- For a name that fits a table entry (fewer than `MAX_VAR_NAME` characters)
`get_var_offset` is stable: a second lookup returns the same offset and leaves
the state as it is. -/
theorem get_var_offset_twice_short_name (state s1 : CompilerState) (name : CStr) (offset : Nat)
    (hlen : name.length < MAX_VAR_NAME)
    (h : get_var_offset state name = .ok (offset, s1)) :
    get_var_offset s1 name = .ok (offset, s1) := by
  obtain ⟨h1, h2⟩ := get_var_offset_short state s1 name offset hlen h
  have hm : name ∈ s1.vars.map VariableSymbol.name := by
    rw [h1]
    by_cases hm0 : name ∈ state.vars.map VariableSymbol.name
    · rw [if_pos hm0]; exact hm0
    · rw [if_neg hm0]; simp
  unfold get_var_offset
  rw [get_var_offset_loop_eq, if_pos hm]
  simp only [Except.ok.injEq, Prod.mk.injEq, and_true]
  rw [h2]; omega

/-- For names that fit a table entry the table is ordered by first appearance:
in a sequence of lookups every name gets 8 times its position among the
distinct names in order of first appearance. -/
theorem get_var_offsets_short (names : List CStr) :
    ∀ (state s : CompilerState) (offsets : List Nat),
      (∀ n ∈ names, n.length < MAX_VAR_NAME) →
      get_var_offsets state names = .ok (offsets, s) →
      s.vars.map VariableSymbol.name = first_seen (state.vars.map VariableSymbol.name) names ∧
      offsets = names.map (fun n =>
        8 * position n (first_seen (state.vars.map VariableSymbol.name) names)) := by
  induction names with
  | nil =>
    intro state s offsets _ h
    simp only [get_var_offsets, Except.ok.injEq, Prod.mk.injEq] at h
    rw [← h.1, ← h.2]
    exact ⟨rfl, rfl⟩
  | cons name ns ih =>
    intro state s offsets hshort h
    simp only [get_var_offsets] at h
    cases h1 : get_var_offset state name with
    | error f => rw [h1] at h; cases h
    | ok r1 =>
      obtain ⟨o, s1⟩ := r1
      rw [h1] at h
      simp only [] at h
      cases h2 : get_var_offsets s1 ns with
      | error f => rw [h2] at h; cases h
      | ok r2 =>
        obtain ⟨os, s2⟩ := r2
        rw [h2] at h
        simp only [Except.ok.injEq, Prod.mk.injEq] at h
        obtain ⟨g1, g2⟩ := get_var_offset_short state s1 name o (hshort name (by simp)) h1
        obtain ⟨k1, k2⟩ := ih s1 s2 os (fun n hn => hshort n (by simp [hn])) h2
        have hfs : first_seen (state.vars.map VariableSymbol.name) (name :: ns)
            = first_seen (s1.vars.map VariableSymbol.name) ns := by
          rw [g1]
          by_cases hm : name ∈ state.vars.map VariableSymbol.name
          · simp only [first_seen, if_pos hm]
          · simp only [first_seen, if_neg hm]
        have hmem : name ∈ s1.vars.map VariableSymbol.name := by
          rw [g1]
          by_cases hm0 : name ∈ state.vars.map VariableSymbol.name
          · rw [if_pos hm0]; exact hm0
          · rw [if_neg hm0]; simp
        rw [hfs, ← h.2, ← h.1]
        refine ⟨k1, ?_⟩
        simp only [List.map_cons]
        rw [← k2]
        congr 1
        obtain ⟨t, ht⟩ := first_seen_extends ns (s1.vars.map VariableSymbol.name)
        rw [g2, ht, position_append_of_mem name _ t hmem]

/-- From the empty state and for names that fit a table entry, the table is
injective: the k-th distinct name gets offset `8 * k`, and two lookups return
the same offset only for the same name. -/
theorem get_var_offsets_short_injective (names : List CStr) (s : CompilerState)
    (offsets : List Nat) (hshort : ∀ n ∈ names, n.length < MAX_VAR_NAME)
    (h : get_var_offsets CompilerState.empty names = .ok (offsets, s)) :
    offsets = names.map (fun n => 8 * position n (first_seen [] names)) ∧
    (first_seen [] names).Nodup ∧
    ∀ n1 ∈ names, ∀ n2 ∈ names,
      8 * position n1 (first_seen [] names) = 8 * position n2 (first_seen [] names) →
      n1 = n2 := by
  obtain ⟨_, k2⟩ := get_var_offsets_short names CompilerState.empty s offsets hshort h
  refine ⟨k2, first_seen_nodup names [] List.nodup_nil, ?_⟩
  intro n1 h1 n2 h2 he
  exact position_inj n1 n2 _ (first_seen_covers names [] n1 h1)
    (first_seen_covers names [] n2 h2) (by omega)

end Compiler

namespace Tako

/-! ## Trimming in place cannot be observed -/

theorem rdropWhile_split (cs : CStr) :
    ∃ ws : CStr, cs = cs.rdropWhile isspace ++ ws ∧ ∀ x ∈ ws, isspace x = true := by
  refine ⟨(cs.reverse.takeWhile isspace).reverse, ?_, ?_⟩
  · have h := List.takeWhile_append_dropWhile isspace cs.reverse
    have h2 := congrArg List.reverse h
    simp only [List.reverse_append, List.reverse_reverse] at h2
    exact h2.symm
  · intro x hx
    exact List.mem_takeWhile_imp (List.mem_reverse.1 hx)

theorem rdropWhile_append_spaces (cs ws : CStr) (h : ∀ x ∈ ws, isspace x = true) :
    (cs ++ ws).rdropWhile isspace = cs.rdropWhile isspace := by
  unfold List.rdropWhile
  rw [List.reverse_append, List.dropWhile_append_of_pos]
  intro a ha
  exact h a (List.mem_reverse.1 ha)

theorem dropWhile_spaces (ws : CStr) (h : ∀ x ∈ ws, isspace x = true) :
    ws.dropWhile isspace = [] := by
  simpa using h

/-- White space appended to a line does not change what `trim_whitespace`
returns. -/
theorem trim_whitespace_append_spaces (x ws : CStr) (h : ∀ c ∈ ws, isspace c = true) :
    trim_whitespace (x ++ ws) = trim_whitespace x := by
  unfold trim_whitespace
  rw [List.dropWhile_append]
  cases hd : x.dropWhile isspace with
  | nil => simp [dropWhile_spaces ws h]
  | cons c cs =>
    simp only [List.isEmpty_cons, Bool.false_eq_true, if_false, List.cons_append]
    rw [rdropWhile_append_spaces cs ws h]

/-- The buffer `trim_whitespace` leaves is the old one without some trailing
white space. -/
theorem trim_whitespace_buf_split (l : CStr) :
    ∃ ws : CStr, l = trim_whitespace_buf l ++ ws ∧ ∀ x ∈ ws, isspace x = true := by
  have hl := List.takeWhile_append_dropWhile isspace l
  unfold trim_whitespace_buf trim_whitespace
  cases hd : l.dropWhile isspace with
  | nil =>
    refine ⟨[], ?_, by simp⟩
    rw [hd] at hl
    simpa using hl.symm
  | cons c cs =>
    obtain ⟨ws, hws, hall⟩ := rdropWhile_split cs
    refine ⟨ws, ?_, hall⟩
    rw [hd] at hl
    simp only [List.append_assoc, List.cons_append]
    rw [← hws]
    exact hl.symm

theorem trim_whitespace_buf_trim (l : CStr) :
    trim_whitespace (trim_whitespace_buf l) = trim_whitespace l := by
  obtain ⟨ws, hws, hall⟩ := trim_whitespace_buf_split l
  conv_rhs => rw [hws]
  exact (trim_whitespace_append_spaces _ ws hall).symm

theorem trim_whitespace_buf_copy (l : CStr) (n : Nat) :
    trim_whitespace (strncpy (trim_whitespace_buf l) n) = trim_whitespace (strncpy l n) := by
  obtain ⟨ws, hws, hall⟩ := trim_whitespace_buf_split l
  unfold strncpy
  conv_rhs => rw [hws]
  rw [List.take_append_eq_append_take]
  exact (trim_whitespace_append_spaces _ _
    (fun c hc => hall c (List.mem_of_mem_take hc))).symm

theorem same_lines_refl (lines : List CStr) : same_lines lines lines :=
  fun _ => ⟨rfl, rfl⟩

theorem same_lines_trans (l1 l2 l3 : List CStr) (h12 : same_lines l1 l2)
    (h23 : same_lines l2 l3) : same_lines l1 l3 :=
  fun j => ⟨(h12 j).1.trans (h23 j).1, (h12 j).2.trans (h23 j).2⟩

/-- Trimming line `i` in place gives a buffer that cannot be told from the old
one. -/
theorem same_lines_set (lines : List CStr) (i : Nat) :
    same_lines (lines.set i (trim_whitespace_buf (lines.getD i []))) lines := by
  intro j
  have hget : (lines.set i (trim_whitespace_buf (lines.getD i []))).getD j []
      = if i = j ∧ i < lines.length then trim_whitespace_buf (lines.getD j [])
        else lines.getD j [] := by
    simp only [List.getD_eq_getElem?_getD, List.getElem?_set]
    by_cases hij : i = j
    · subst hij
      by_cases hlt : i < lines.length
      · simp [hlt]
      · simp [hlt, List.getElem?_eq_none (Nat.le_of_not_lt hlt)]
    · simp [hij]
  unfold clean_line
  rw [hget]
  by_cases hc : i = j ∧ i < lines.length
  · rw [if_pos hc]
    exact ⟨trim_whitespace_buf_trim _, trim_whitespace_buf_copy _ _⟩
  · rw [if_neg hc]
    exact ⟨rfl, rfl⟩

theorem find_matching_end_loop_congr (lines lines2 : List CStr) (lc : Nat)
    (h : same_lines lines lines2) :
    ∀ (fuel i : Nat) (d : Int),
      find_matching_end_loop lines lc fuel i d = find_matching_end_loop lines2 lc fuel i d := by
  intro fuel
  induction fuel with
  | zero => intro i d; rfl
  | succ n ih =>
    intro i d
    simp only [find_matching_end_loop, (h i).1, ih]

theorem find_matching_end_congr (lines lines2 : List CStr) (lc start : Nat)
    (h : same_lines lines lines2) :
    find_matching_end lines lc start = find_matching_end lines2 lc start :=
  find_matching_end_loop_congr lines lines2 lc h _ _ _

/-- The function `find_matching_end` that trims the script buffer in place
returns what the pure `find_matching_end` returns and leaves a buffer that
cannot be told from the old one. -/
theorem find_matching_end_buf_loop_spec (lc : Nat) :
    ∀ (fuel : Nat) (lines : List CStr) (i : Nat) (d : Int),
      (find_matching_end_buf_loop lc fuel lines i d).2 = find_matching_end_loop lines lc fuel i d ∧
      same_lines (find_matching_end_buf_loop lc fuel lines i d).1 lines := by
  intro fuel
  induction fuel with
  | zero => intro lines i d; exact ⟨rfl, same_lines_refl lines⟩
  | succ n ih =>
    intro lines i d
    have hset := same_lines_set lines i
    have hstep : ∀ d2 : Int,
        (find_matching_end_buf_loop lc n
            (lines.set i (trim_whitespace_buf (lines.getD i []))) (i + 1) d2).2
          = find_matching_end_loop lines lc n (i + 1) d2 ∧
        same_lines (find_matching_end_buf_loop lc n
            (lines.set i (trim_whitespace_buf (lines.getD i []))) (i + 1) d2).1 lines := by
      intro d2
      obtain ⟨r1, r2⟩ := ih (lines.set i (trim_whitespace_buf (lines.getD i []))) (i + 1) d2
      exact ⟨r1.trans (find_matching_end_loop_congr _ _ lc hset _ _ _),
        same_lines_trans _ _ _ r2 hset⟩
    simp only [find_matching_end_buf_loop, find_matching_end_loop]
    by_cases hi : i < lc
    · simp only [if_pos hi]
      by_cases hb : is_block_header (trim_whitespace (lines.getD i [])) = true
      · simp only [if_pos hb]
        exact hstep _
      · simp only [if_neg hb]
        by_cases he : is_end (trim_whitespace (lines.getD i [])) = true
        · simp only [if_pos he]
          by_cases hd : d - 1 = 0
          · simp only [if_pos hd]
            exact ⟨trivial, hset⟩
          · simp only [if_neg hd]
            exact hstep _
        · simp only [if_neg he]
          exact hstep _
    · simp only [if_neg hi]
      exact ⟨trivial, same_lines_refl lines⟩

theorem find_matching_end_buf_spec (lines : List CStr) (lc start : Nat) :
    (find_matching_end_buf lines lc start).2 = find_matching_end lines lc start ∧
    same_lines (find_matching_end_buf lines lc start).1 lines :=
  find_matching_end_buf_loop_spec lc _ lines start 1

end Tako

namespace Tako

/-! ## `run_script`: the step budget is enough -/

theorem find_matching_end_bounds (lines : List CStr) (lc start : Nat)
    (h : find_matching_end lines lc start ≠ -1) :
    start ≤ (find_matching_end lines lc start).toNat ∧
    (find_matching_end lines lc start).toNat < lc := by
  rcases find_matching_end_spec lines lc start with ⟨hr, _⟩ | ⟨e, hr, h1, h2, _⟩
  · exact absurd hr h
  · rw [hr]; simp only [Int.toNat_ofNat]; exact ⟨h1, h2⟩

/-- One iteration of `run_script` only calls `self` on later lines: two
versions of `self` that agree on every range with a smaller budget give the
same iteration. -/
theorem run_script_iter_congr (self self2 : World → Nat → Nat → Outcome) (w : World)
    (lines : List CStr) (lc i e : Nat) (hie : i < e)
    (h : ∀ w1 i1 e1, gas_bound lc i1 e1 + 1 ≤ gas_bound lc i e → self w1 i1 e1 = self2 w1 i1 e1) :
    run_script_iter self w lines lc i e = run_script_iter self2 w lines lc i e := by
  have hnext : (fun w1 => self w1 (i + 1) e) = (fun w1 => self2 w1 (i + 1) e) := by
    funext w1
    apply h
    simp only [gas_bound]; omega
  have hblock : find_matching_end lines lc (i + 1) ≠ -1 →
      (fun w1 => self w1 (i + 1) (find_matching_end lines lc (i + 1)).toNat)
        = (fun w1 => self2 w1 (i + 1) (find_matching_end lines lc (i + 1)).toNat) ∧
      (fun w1 => self w1 ((find_matching_end lines lc (i + 1)).toNat + 1) e)
        = (fun w1 => self2 w1 ((find_matching_end lines lc (i + 1)).toNat + 1) e) := by
    intro hne
    obtain ⟨b1, b2⟩ := find_matching_end_bounds lines lc (i + 1) hne
    constructor
    · funext w1
      apply h
      simp only [gas_bound]; omega
    · funext w1
      apply h
      simp only [gas_bound]; omega
  unfold run_script_iter
  simp only []
  by_cases h1 : (clean_line lines i).head? = none ∨ (clean_line lines i).head? = some '#'
  · simp only [if_pos h1]
    exact congrFun hnext w
  simp only [if_neg h1]
  by_cases h2 : strncmp_eq (clean_line lines i) ['l', 'o', 'o', 'p', ' '] 5 = true
  · simp only [if_pos h2]
    generalize resolve_value w.state (List.drop 5 (clean_line lines i)) = rv
    cases rv with
    | error f => rfl
    | ok n =>
      simp only []
      by_cases h5 : find_matching_end lines lc (i + 1) = -1
      · simp only [if_pos h5]
      · simp only [if_neg h5]
        rw [(hblock h5).1, (hblock h5).2]
  simp only [if_neg h2]
  by_cases h3 : strncmp_eq (clean_line lines i) ['i', 'f', ' '] 3 = true
  · simp only [if_pos h3]
    generalize sscanf (clean_line lines i) "if %s %2s %s" = toks
    rcases toks with _ | ⟨a, _ | ⟨b, _ | ⟨c, _ | ⟨d, r⟩⟩⟩⟩
    · rfl
    · rfl
    · rfl
    · simp only []
      generalize resolve_value w.state a = rv1
      cases rv1 with
      | error f => rfl
      | ok l =>
        simp only []
        generalize resolve_value w.state c = rv2
        cases rv2 with
        | error f => rfl
        | ok r =>
          simp only []
          generalize eval_condition b l r = cond
          cases cond with
          | none => rfl
          | some cnd =>
            simp only []
            by_cases h5 : find_matching_end lines lc (i + 1) = -1
            · simp only [if_pos h5]
            · simp only [if_neg h5]
              have hb := congrFun (hblock h5).1 w
              simp only [] at hb
              rw [(hblock h5).2, hb]
    · rfl
  simp only [if_neg h3]
  rw [hnext]

/-- Any budget of at least `gas_bound` gives the same outcome. -/
theorem run_script_gas_irrelevant (lines : List CStr) (lc : Nat) :
    ∀ (g1 g2 : Nat) (w : World) (i e : Nat), gas_bound lc i e ≤ g1 → gas_bound lc i e ≤ g2 →
      run_script_gas lines lc g1 w i e = run_script_gas lines lc g2 w i e := by
  intro g1
  induction g1 with
  | zero =>
    intro g2 w i e h1 _
    simp only [gas_bound] at h1; omega
  | succ n ih =>
    intro g2 w i e h1 h2
    cases g2 with
    | zero => simp only [gas_bound] at h2; omega
    | succ m =>
      simp only [run_script_gas]
      by_cases hie : i < e
      · rw [if_pos hie, if_pos hie]
        apply run_script_iter_congr _ _ w lines lc i e hie
        intro w1 i1 e1 hb
        exact ih m w1 i1 e1 (by omega) (by omega)
      · rw [if_neg hie, if_neg hie]

theorem run_script_iter_same_lines (self : World → Nat → Nat → Outcome) (w : World)
    (lines lines2 : List CStr) (lc i e : Nat) (h : same_lines lines lines2) :
    run_script_iter self w lines lc i e = run_script_iter self w lines2 lc i e := by
  simp only [run_script_iter, (h i).2, find_matching_end_congr lines lines2 lc (i + 1) h]

/-- The script buffer matters to `run_script` only through the trimmed text of
its lines: the in-place trimming that `find_matching_end` does between two
steps leaves every outcome as it is. -/
theorem run_script_same_lines (w : World) (lines lines2 : List CStr) (lc i e : Nat)
    (h : same_lines lines lines2) :
    run_script w lines lc i e = run_script w lines2 lc i e := by
  have hgas : ∀ (g : Nat) (w1 : World) (i1 e1 : Nat),
      run_script_gas lines lc g w1 i1 e1 = run_script_gas lines2 lc g w1 i1 e1 := by
    intro g
    induction g with
    | zero => intro w1 i1 e1; rfl
    | succ n ih =>
      intro w1 i1 e1
      simp only [run_script_gas]
      have hself : (fun w2 i2 e2 => run_script_gas lines lc n w2 i2 e2)
          = (fun w2 i2 e2 => run_script_gas lines2 lc n w2 i2 e2) := by
        funext w2 i2 e2
        exact ih w2 i2 e2
      rw [hself, run_script_iter_same_lines _ w1 lines lines2 lc i1 e1 h]
  exact hgas _ w i e

/-- The `for` loop of `run_script`, one iteration unfolded. -/
theorem run_script_unfold (w : World) (lines : List CStr) (lc i e : Nat) :
    run_script w lines lc i e =
      if i < e then
        run_script_iter (fun w1 i1 e1 => run_script w1 lines lc i1 e1) w lines lc i e
      else .done w := by
  unfold run_script
  have hg : gas_bound lc i e = (max lc e - i) + 1 := rfl
  rw [hg, run_script_gas]
  by_cases hie : i < e
  · rw [if_pos hie, if_pos hie]
    apply run_script_iter_congr _ _ w lines lc i e hie
    intro w1 i1 e1 hb
    exact run_script_gas_irrelevant lines lc _ _ w1 i1 e1 (by rw [hg] at hb; omega) (le_refl _)
  · rw [if_neg hie, if_neg hie]

end Tako

/-! ## Scanning tokens -/

theorem is_token_spec (t : CStr) (h : is_token t = true) :
    t ≠ [] ∧ ∀ c ∈ t, isspace c = false := by
  simp only [is_token, Bool.and_eq_true, Bool.not_eq_true', List.all_eq_true] at h
  refine ⟨?_, fun c hc => by simpa using h.2 c hc⟩
  intro hn
  rw [hn] at h
  simp at h

theorem dropWhile_isspace_token (t r : CStr) (h : is_token t = true) :
    (t ++ r).dropWhile isspace = t ++ r := by
  obtain ⟨hne, hall⟩ := is_token_spec t h
  cases t with
  | nil => exact absurd rfl hne
  | cons c cs =>
    have := hall c (by simp)
    simp [List.dropWhile, this]

theorem takeWhile_token_space (t r : CStr) (h : ∀ c ∈ t, isspace c = false) :
    (t ++ ' ' :: r).takeWhile (fun c => !isspace c) = t := by
  induction t with
  | nil => simp [List.takeWhile, isspace]
  | cons c cs ih =>
    have hc := h c (by simp)
    have ih2 := ih (fun x hx => h x (by simp [hx]))
    simp only [List.cons_append, List.takeWhile, hc, Bool.not_false]
    simp only [List.append_eq] at ih2 ⊢
    rw [ih2]

theorem takeWhile_token_end (t : CStr) (h : ∀ c ∈ t, isspace c = false) :
    t.takeWhile (fun c => !isspace c) = t := by
  induction t with
  | nil => rfl
  | cons c cs ih =>
    have hc := h c (by simp)
    simp only [List.takeWhile, hc, Bool.not_false]
    rw [ih (fun x hx => h x (by simp [hx]))]

/-- The conversion `%s` on a token followed by a space reads the token. -/
theorem scan_token_space (t r : CStr) (h : is_token t = true) :
    scan_token none (t ++ ' ' :: r) = t := by
  simp only [scan_token]
  rw [dropWhile_isspace_token t _ h, takeWhile_token_space t r (is_token_spec t h).2]

/-- The conversion `%s` on a token that ends the input reads the token. -/
theorem scan_token_end (t : CStr) (h : is_token t = true) :
    scan_token none t = t := by
  simp only [scan_token]
  have := dropWhile_isspace_token t [] h
  rw [List.append_nil] at this
  rw [this, takeWhile_token_end t (is_token_spec t h).2]

/-- The conversion `%2s` on a token of at most two characters followed by a
space reads the token. -/
theorem scan_token_width (t r : CStr) (h : is_token t = true) (hlen : t.length ≤ 2) :
    scan_token (some 2) (t ++ ' ' :: r) = t := by
  simp only [scan_token]
  rw [dropWhile_isspace_token t _ h, takeWhile_token_space t r (is_token_spec t h).2]
  exact List.take_of_length_le hlen

theorem operators_are_tokens (op : CStr) (h : op ∈ operators) :
    is_token op = true ∧ op.length ≤ 2 := by
  revert op
  decide

/-- A header `if <a> <op> <b>` scans into its three tokens. -/
theorem sscanf_if_header (a op b : CStr) (ha : is_token a = true) (hb : is_token b = true)
    (hop : op ∈ operators) :
    sscanf (['i', 'f', ' '] ++ a ++ [' '] ++ op ++ [' '] ++ b) "if %s %2s %s" = [a, op, b] := by
  obtain ⟨hopt, hoplen⟩ := operators_are_tokens op hop
  have hfmt : parse_format "if %s %2s %s".toList
      = [.lit 'i', .lit 'f', .space, .str none true, .space, .str (some 2) true, .space,
          .str none true] := by decide
  have ha0 := (is_token_spec a ha).1
  have hb0 := (is_token_spec b hb).1
  have hop0 := (is_token_spec op hopt).1
  have e1 : ['i', 'f', ' '] ++ a ++ [' '] ++ op ++ [' '] ++ b
      = 'i' :: 'f' :: ' ' :: (a ++ ' ' :: (op ++ ' ' :: b)) := by simp
  have d1 : (' ' :: (a ++ ' ' :: (op ++ ' ' :: b))).dropWhile isspace
      = a ++ ' ' :: (op ++ ' ' :: b) := by
    rw [List.dropWhile_cons]
    simp only [show isspace ' ' = true by decide, if_true]
    exact dropWhile_isspace_token a _ ha
  have d2 : (' ' :: (op ++ ' ' :: b)).dropWhile isspace = op ++ ' ' :: b := by
    rw [List.dropWhile_cons]
    simp only [show isspace ' ' = true by decide, if_true]
    exact dropWhile_isspace_token op _ hopt
  have d3 : (' ' :: b).dropWhile isspace = b := by
    rw [List.dropWhile_cons]
    simp only [show isspace ' ' = true by decide, if_true]
    have := dropWhile_isspace_token b [] hb
    rwa [List.append_nil] at this
  unfold sscanf
  rw [hfmt, e1]
  simp only [sscanf_run, if_true, d1]
  rw [scan_token_space a _ ha, dropWhile_isspace_token a _ ha]
  simp only [if_neg ha0, List.drop_left, if_true, d2]
  rw [scan_token_width op _ hopt hoplen, dropWhile_isspace_token op _ hopt]
  simp only [if_neg hop0, List.drop_left, d3]
  rw [scan_token_end b hb]
  simp [hb0]

theorem eval_condition_operator (op : CStr) (l r : Int) (hop : op ∈ operators) :
    Tako.eval_condition op l r = some (decide (op_holds op l r)) := by
  simp only [operators, List.mem_cons, List.mem_singleton, List.not_mem_nil, or_false] at hop
  rcases hop with h | h | h | h | h | h <;> subst h <;>
    simp [Tako.eval_condition, op_holds, strcmp_eq]

namespace Tako

/-! ## Counted loops and conditionals -/

/-- The `for` loop over the body is the body as many times in sequence as the
count says, and what follows it comes last. -/
theorem repeat_body_in_sequence (body next : World → Outcome) :
    ∀ (k : Nat) (w : World),
      (repeat_body body k w).bind next
        = run_in_sequence (List.replicate k body ++ [next]) w := by
  intro k
  induction k with
  | zero =>
    intro w
    simp only [repeat_body, Outcome.bind, List.replicate, List.nil_append, run_in_sequence]
    cases next w <;> rfl
  | succ k ih =>
    intro w
    simp only [repeat_body, List.replicate, List.cons_append, run_in_sequence]
    cases body w with
    | done w1 => exact ih w1
    | exit f w1 => rfl
    | unfinished w1 => rfl

/-- C2: when line `i` is `loop <v>`, `v` resolves to `n` at entry and the
matching `end` is at `e < t`, running `run_script` over `[i, t)` is running in
sequence `max n 0` copies of the body range `[i + 1, e)` and then the range
`[e + 1, t)`: the same variables, the same output, the same fault if any.  The
number of copies is the length of the list, `max n 0`, for the `n` read at
entry, whatever the body does to the variable; `n ≤ 0` runs the body zero
times. -/
theorem loop_runs_body_count_times (w : World) (lines : List CStr) (line_count i t : Nat)
    (v : CStr) (n : Int) (e : Nat)
    (hline : clean_line lines i = ['l', 'o', 'o', 'p', ' '] ++ v)
    (hv : resolve_value w.state v = .ok n)
    (he : find_matching_end lines line_count (i + 1) = (e : Int)) (het : e < t) :
    run_script w lines line_count i t
      = run_in_sequence
          (List.replicate (max n 0).toNat (fun w1 => run_script w1 lines line_count (i + 1) e)
            ++ [fun w1 => run_script w1 lines line_count (e + 1) t]) w ∧
    (n ≤ 0 → run_script w lines line_count i t = run_script w lines line_count (e + 1) t) := by
  have hne : find_matching_end lines line_count (i + 1) ≠ -1 := by rw [he]; omega
  have hie : i < t := by
    have := (find_matching_end_bounds lines line_count (i + 1) hne).1
    rw [he] at this
    simp only [Int.toNat_ofNat] at this
    omega
  have hmax : (max n 0).toNat = n.toNat := by
    rcases le_total n 0 with h | h
    · rw [max_eq_right h]; simp [Int.toNat_of_nonpos h]
    · rw [max_eq_left h]
  have hmain : run_script w lines line_count i t
      = (repeat_body (fun w1 => run_script w1 lines line_count (i + 1) e) n.toNat w).bind
          (fun w1 => run_script w1 lines line_count (e + 1) t) := by
    rw [run_script_unfold, if_pos hie]
    unfold run_script_iter
    simp only [hline]
    have h1 : ¬ ((['l', 'o', 'o', 'p', ' '] ++ v).head? = none ∨
        (['l', 'o', 'o', 'p', ' '] ++ v).head? = some '#') := by
      simp
    have h2 : strncmp_eq (['l', 'o', 'o', 'p', ' '] ++ v) ['l', 'o', 'o', 'p', ' '] 5 = true := by
      simp [strncmp_eq]
    have h3 : List.drop 5 (['l', 'o', 'o', 'p', ' '] ++ v) = v := by simp
    rw [if_neg h1, if_pos h2, h3, hv]
    simp only [he, Int.toNat_ofNat]
    rw [if_neg (by omega)]
  refine ⟨?_, ?_⟩
  · rw [hmax, hmain]
    exact repeat_body_in_sequence _ _ _ _
  · intro hn
    rw [hmain, Int.toNat_of_nonpos hn]
    rfl

theorem loop_runs_body_count_times_witness :
    run_script loop_world loop_script 6 1 6
      = run_in_sequence
          (List.replicate (max (2 : Int) 0).toNat (fun w1 => run_script w1 loop_script 6 (1 + 1) 4)
            ++ [fun w1 => run_script w1 loop_script 6 (4 + 1) 6]) loop_world ∧
    run_script loop_world loop_script 6 1 6
      = .done { state := { vars := [{ name := ['n'], value := 12 }] },
                out := "7\n12\ndone\n".toList, err := [] } ∧
    run_program count_script
      = .done { state := { vars := [{ name := ['n'], value := 0 }] },
                out := "round 3\nround 2\nround 1\nafter 0\n".toList, err := [] } :=
  ⟨(loop_runs_body_count_times loop_world loop_script 6 1 6 ['n'] 2 4
      (by decide) (by decide) (by decide) (by decide)).1, by decide, by decide⟩

/-- C3: when line `i` is `if <a> <op> <b>` with one of the six operators, the
operands resolve to `l` and `r` and the matching `end` is at `e < t`, running
`run_script` over `[i, t)` runs the body range `[i + 1, e)` once if `l op r`
holds on integers and not at all otherwise, and then the range `[e + 1, t)`;
when the comparison is false the outcome is that of `[e + 1, t)` alone. -/
theorem if_runs_body_iff_condition (w : World) (lines : List CStr) (line_count i t : Nat)
    (a op b : CStr) (l r : Int) (e : Nat)
    (hline : clean_line lines i = ['i', 'f', ' '] ++ a ++ [' '] ++ op ++ [' '] ++ b)
    (ha : is_token a = true) (hb : is_token b = true) (hop : op ∈ operators)
    (hl : resolve_value w.state a = .ok l) (hr : resolve_value w.state b = .ok r)
    (he : find_matching_end lines line_count (i + 1) = (e : Int)) (het : e < t) :
    run_script w lines line_count i t
      = (if op_holds op l r then run_script w lines line_count (i + 1) e else .done w).bind
          (fun w1 => run_script w1 lines line_count (e + 1) t) ∧
    (¬ op_holds op l r →
      run_script w lines line_count i t = run_script w lines line_count (e + 1) t) := by
  have hne : find_matching_end lines line_count (i + 1) ≠ -1 := by rw [he]; omega
  have hie : i < t := by
    have := (find_matching_end_bounds lines line_count (i + 1) hne).1
    rw [he] at this
    simp only [Int.toNat_ofNat] at this
    omega
  have hmain : run_script w lines line_count i t
      = (if op_holds op l r then run_script w lines line_count (i + 1) e else .done w).bind
          (fun w1 => run_script w1 lines line_count (e + 1) t) := by
    rw [run_script_unfold, if_pos hie]
    unfold run_script_iter
    simp only [hline]
    have e1 : ['i', 'f', ' '] ++ a ++ [' '] ++ op ++ [' '] ++ b
        = 'i' :: 'f' :: ' ' :: (a ++ ' ' :: (op ++ ' ' :: b)) := by simp
    have h1 : ¬ ((['i', 'f', ' '] ++ a ++ [' '] ++ op ++ [' '] ++ b).head? = none ∨
        (['i', 'f', ' '] ++ a ++ [' '] ++ op ++ [' '] ++ b).head? = some '#') := by
      rw [e1]; simp
    have h2 : ¬ strncmp_eq (['i', 'f', ' '] ++ a ++ [' '] ++ op ++ [' '] ++ b)
        ['l', 'o', 'o', 'p', ' '] 5 = true := by
      rw [e1]; simp [strncmp_eq]
    have h3 : strncmp_eq (['i', 'f', ' '] ++ a ++ [' '] ++ op ++ [' '] ++ b)
        ['i', 'f', ' '] 3 = true := by
      rw [e1]; simp [strncmp_eq]
    rw [if_neg h1, if_neg h2, if_pos h3, sscanf_if_header a op b ha hb hop]
    simp only [hl, hr, eval_condition_operator op l r hop, he, Int.toNat_ofNat]
    rw [if_neg (by omega)]
    by_cases hc : op_holds op l r
    · simp [hc]
    · simp [hc]
  refine ⟨hmain, ?_⟩
  intro hc
  rw [hmain, if_neg hc]
  rfl

theorem if_runs_body_iff_condition_witness :
    (run_script (if_world 10) if_script 4 0 4
      = (if op_holds ['>'] 10 5 then run_script (if_world 10) if_script 4 (0 + 1) 2
          else .done (if_world 10)).bind
          (fun w1 => run_script w1 if_script 4 (2 + 1) 4)) ∧
    run_script (if_world 10) if_script 4 0 4
      = .done { if_world 10 with out := "big\n10\n".toList } ∧
    run_script (if_world 2) if_script 4 0 4 = run_script (if_world 2) if_script 4 (2 + 1) 4 ∧
    run_script (if_world 2) if_script 4 0 4
      = .done { if_world 2 with out := "2\n".toList } :=
  ⟨(if_runs_body_iff_condition (if_world 10) if_script 4 0 4 ['a'] ['>'] ['5'] 10 5 2
      (by decide) (by decide) (by decide) (by decide) (by decide) (by decide) (by decide)
      (by decide)).1,
    by decide,
    (if_runs_body_iff_condition (if_world 2) if_script 4 0 4 ['a'] ['>'] ['5'] 2 5 2
      (by decide) (by decide) (by decide) (by decide) (by decide) (by decide) (by decide)
      (by decide)).2 (by decide),
    by decide⟩

end Tako

namespace Tako

/-! ## `run_script` always finishes -/

theorem bind_finished (o : Outcome) (next : World → Outcome) (ho : o.finished = true)
    (hnext : ∀ w, (next w).finished = true) : (o.bind next).finished = true := by
  cases o with
  | done w => exact hnext w
  | exit f w => rfl
  | unfinished w => cases ho

theorem repeat_body_finished (body : World → Outcome) (hbody : ∀ w, (body w).finished = true) :
    ∀ (n : Nat) (w : World), (repeat_body body n w).finished = true := by
  intro n
  induction n with
  | zero => intro w; rfl
  | succ n ih =>
    intro w
    exact bind_finished _ _ (hbody w) (ih)

theorem execute_line_finished (w : World) (line : CStr) :
    (execute_line w line).finished = true := by
  unfold execute_line
  repeat' split
  all_goals rfl

theorem run_script_iter_finished (self : World → Nat → Nat → Outcome) (w : World)
    (lines : List CStr) (lc i e : Nat) (hie : i < e)
    (h : ∀ w1 i1 e1, gas_bound lc i1 e1 + 1 ≤ gas_bound lc i e →
      (self w1 i1 e1).finished = true) :
    (run_script_iter self w lines lc i e).finished = true := by
  have hnext : ∀ w1, (self w1 (i + 1) e).finished = true := by
    intro w1
    apply h
    simp only [gas_bound]; omega
  have hblock : find_matching_end lines lc (i + 1) ≠ -1 →
      (∀ w1, (self w1 (i + 1) (find_matching_end lines lc (i + 1)).toNat).finished = true) ∧
      (∀ w1, (self w1 ((find_matching_end lines lc (i + 1)).toNat + 1) e).finished = true) := by
    intro hne
    obtain ⟨b1, b2⟩ := find_matching_end_bounds lines lc (i + 1) hne
    constructor
    · intro w1
      apply h
      simp only [gas_bound]; omega
    · intro w1
      apply h
      simp only [gas_bound]; omega
  unfold run_script_iter
  simp only []
  by_cases h1 : (clean_line lines i).head? = none ∨ (clean_line lines i).head? = some '#'
  · simp only [if_pos h1]
    exact hnext w
  simp only [if_neg h1]
  by_cases h2 : strncmp_eq (clean_line lines i) ['l', 'o', 'o', 'p', ' '] 5 = true
  · simp only [if_pos h2]
    generalize resolve_value w.state (List.drop 5 (clean_line lines i)) = rv
    cases rv with
    | error f => rfl
    | ok n =>
      simp only []
      by_cases h5 : find_matching_end lines lc (i + 1) = -1
      · simp only [if_pos h5]; rfl
      · simp only [if_neg h5]
        exact bind_finished _ _ (repeat_body_finished _ (hblock h5).1 _ _) (hblock h5).2
  simp only [if_neg h2]
  by_cases h3 : strncmp_eq (clean_line lines i) ['i', 'f', ' '] 3 = true
  · simp only [if_pos h3]
    generalize sscanf (clean_line lines i) "if %s %2s %s" = toks
    rcases toks with _ | ⟨a, _ | ⟨b, _ | ⟨c, _ | ⟨d, r⟩⟩⟩⟩
    · rfl
    · rfl
    · rfl
    · simp only []
      generalize resolve_value w.state a = rv1
      cases rv1 with
      | error f => rfl
      | ok l =>
        simp only []
        generalize resolve_value w.state c = rv2
        cases rv2 with
        | error f => rfl
        | ok r =>
          simp only []
          generalize eval_condition b l r = cond
          cases cond with
          | none => rfl
          | some cnd =>
            simp only []
            by_cases h5 : find_matching_end lines lc (i + 1) = -1
            · simp only [if_pos h5]; rfl
            · simp only [if_neg h5]
              apply bind_finished _ _ _ (hblock h5).2
              cases cnd with
              | true => exact (hblock h5).1 w
              | false => rfl
    · rfl
  simp only [if_neg h3]
  exact bind_finished _ _ (execute_line_finished w _) hnext

theorem run_script_gas_finished (lines : List CStr) (lc : Nat) :
    ∀ (g : Nat) (w : World) (i e : Nat), gas_bound lc i e ≤ g →
      (run_script_gas lines lc g w i e).finished = true := by
  intro g
  induction g with
  | zero =>
    intro w i e h
    simp only [gas_bound] at h; omega
  | succ n ih =>
    intro w i e h
    simp only [run_script_gas]
    by_cases hie : i < e
    · rw [if_pos hie]
      apply run_script_iter_finished _ w lines lc i e hie
      intro w1 i1 e1 hb
      exact ih w1 i1 e1 (by omega)
    · rw [if_neg hie]; rfl

/-- The step budget of `run_script` never runs out: on every script, from
every state and for every range, the outcome is a return or an `exit`. -/
theorem run_script_finished (w : World) (lines : List CStr) (lc i e : Nat) :
    (run_script w lines lc i e).finished = true :=
  run_script_gas_finished lines lc _ w i e (le_refl _)

end Tako

namespace Tako

/-! ## Invariants of a run -/

theorem bind_invariant (Q : World → Prop) (o : Outcome) (next : World → Outcome)
    (ho : Q o.world) (hnext : ∀ w, Q w → Q (next w).world) : Q (o.bind next).world := by
  cases o with
  | done w => exact hnext w ho
  | exit f w => exact ho
  | unfinished w => exact ho

theorem repeat_body_invariant (Q : World → Prop) (body : World → Outcome)
    (hbody : ∀ w, Q w → Q (body w).world) :
    ∀ (n : Nat) (w : World), Q w → Q (repeat_body body n w).world := by
  intro n
  induction n with
  | zero => intro w hw; exact hw
  | succ n ih =>
    intro w hw
    exact bind_invariant Q _ _ (hbody w hw) ih

theorem run_script_iter_invariant (Q : World → Prop)
    (hexec : ∀ w line, Q w → Q (execute_line w line).world)
    (hdie : ∀ f w, Q w → Q (die f w).world)
    (self : World → Nat → Nat → Outcome) (w : World) (lines : List CStr) (lc i e : Nat)
    (h : ∀ w1 i1 e1, Q w1 → Q (self w1 i1 e1).world) (hw : Q w) :
    Q (run_script_iter self w lines lc i e).world := by
  unfold run_script_iter
  simp only []
  by_cases h1 : (clean_line lines i).head? = none ∨ (clean_line lines i).head? = some '#'
  · simp only [if_pos h1]
    exact h _ _ _ hw
  simp only [if_neg h1]
  by_cases h2 : strncmp_eq (clean_line lines i) ['l', 'o', 'o', 'p', ' '] 5 = true
  · simp only [if_pos h2]
    generalize resolve_value w.state (List.drop 5 (clean_line lines i)) = rv
    cases rv with
    | error f => exact hdie _ _ hw
    | ok n =>
      simp only []
      by_cases h5 : find_matching_end lines lc (i + 1) = -1
      · simp only [if_pos h5]; exact hdie _ _ hw
      · simp only [if_neg h5]
        exact bind_invariant Q _ _
          (repeat_body_invariant Q _ (fun w1 hw1 => h _ _ _ hw1) _ _ hw)
          (fun w1 hw1 => h _ _ _ hw1)
  simp only [if_neg h2]
  by_cases h3 : strncmp_eq (clean_line lines i) ['i', 'f', ' '] 3 = true
  · simp only [if_pos h3]
    generalize sscanf (clean_line lines i) "if %s %2s %s" = toks
    rcases toks with _ | ⟨a, _ | ⟨b, _ | ⟨c, _ | ⟨d, r⟩⟩⟩⟩
    · exact hdie _ _ hw
    · exact hdie _ _ hw
    · exact hdie _ _ hw
    · simp only []
      generalize resolve_value w.state a = rv1
      cases rv1 with
      | error f => exact hdie _ _ hw
      | ok l =>
        simp only []
        generalize resolve_value w.state c = rv2
        cases rv2 with
        | error f => exact hdie _ _ hw
        | ok r =>
          simp only []
          generalize eval_condition b l r = cond
          cases cond with
          | none => exact hdie _ _ hw
          | some cnd =>
            simp only []
            by_cases h5 : find_matching_end lines lc (i + 1) = -1
            · simp only [if_pos h5]; exact hdie _ _ hw
            · simp only [if_neg h5]
              apply bind_invariant Q _ _ _ (fun w1 hw1 => h _ _ _ hw1)
              cases cnd with
              | true => exact h _ _ _ hw
              | false => exact hw
    · exact hdie _ _ hw
  simp only [if_neg h3]
  exact bind_invariant Q _ _ (hexec w _ hw) (fun w1 hw1 => h _ _ _ hw1)

/-- A property of the world that `execute_line` and the fault exits preserve
holds at the end of every run of `run_script` that starts with it. -/
theorem run_script_invariant (Q : World → Prop)
    (hexec : ∀ w line, Q w → Q (execute_line w line).world)
    (hdie : ∀ f w, Q w → Q (die f w).world)
    (w : World) (lines : List CStr) (lc i e : Nat) (hw : Q w) :
    Q (run_script w lines lc i e).world := by
  have hgas : ∀ (g : Nat) (w1 : World) (i1 e1 : Nat), Q w1 →
      Q (run_script_gas lines lc g w1 i1 e1).world := by
    intro g
    induction g with
    | zero => intro w1 i1 e1 h1; exact h1
    | succ n ih =>
      intro w1 i1 e1 h1
      simp only [run_script_gas]
      by_cases hie : i1 < e1
      · rw [if_pos hie]
        exact run_script_iter_invariant Q hexec hdie _ w1 lines lc i1 e1
          (fun w2 i2 e2 h2 => ih w2 i2 e2 h2) h1
      · rw [if_neg hie]; exact h1
  exact hgas _ w i e hw

theorem execute_line_reachable (w : World) (line : CStr) (hw : Reachable w.state) :
    Reachable (execute_line w line).world.state := by
  unfold execute_line
  repeat' split
  all_goals first
    | exact hw
    | exact Reachable.set_var hw (by assumption)

/-- Every state a run of `run_script` ends in, by a return or by `exit`, is
reached from its initial state through calls of `set_var`. -/
theorem run_script_reachable (w : World) (lines : List CStr) (lc i e : Nat)
    (hw : Reachable w.state) : Reachable (run_script w lines lc i e).world.state :=
  run_script_invariant (fun w1 => Reachable w1.state) execute_line_reachable
    (fun _ _ h => h) w lines lc i e hw

end Tako

/-! ## Symbol tables: capacity and keys -/

/-- C8: the capacity of 100 variables is a hard cap.  For a name that is not in
the table, `set_var` fails with the resource-exhausted fault when `var_count`
is 100 and succeeds, with `var_count` one larger, when `var_count < 100`; so
`var_count ≤ 100` in every state reachable from the empty one, in particular
in the state every run of a script ends in.  The same holds for
`get_var_offset` in the code generator. -/
theorem var_capacity_hard_cap (state : Tako.InterpreterState) (cstate : Compiler.CompilerState)
    (name : CStr) (value : Int)
    (hnew : ∀ v ∈ state.vars, v.name ≠ name) (hcnew : ∀ v ∈ cstate.vars, v.name ≠ name) :
    (state.var_count = 100 → Tako.set_var state name value = .error .resource_exhausted) ∧
    (state.var_count < 100 →
      ∃ s1, Tako.set_var state name value = .ok s1 ∧ s1.var_count = state.var_count + 1) ∧
    (∀ s, Tako.Reachable s → s.var_count ≤ 100) ∧
    (∀ lines : List CStr, (Tako.run_program lines).world.state.var_count ≤ 100) ∧
    (cstate.var_count = 100 →
      Compiler.get_var_offset cstate name = .error .too_many_variables) ∧
    (cstate.var_count < 100 →
      ∃ offset s1, Compiler.get_var_offset cstate name = .ok (offset, s1) ∧
        s1.var_count = cstate.var_count + 1) ∧
    (∀ s, Compiler.Reachable s → s.var_count ≤ 100) := by
  refine ⟨?_, ?_, ?_, ?_, ?_, ?_, ?_⟩
  · intro h
    exact (Tako.set_var_new_name state name value hnew).1 (by simp [Tako.MAX_VARS, h])
  · intro h
    exact (Tako.set_var_new_name state name value hnew).2 (by simpa [Tako.MAX_VARS] using h)
  · intro s hs
    simpa [Tako.MAX_VARS] using Tako.reachable_var_count_le s hs
  · intro lines
    have := Tako.reachable_var_count_le _
      (Tako.run_script_reachable ⟨Tako.InterpreterState.empty, [], []⟩ lines lines.length 0
        lines.length Tako.Reachable.empty)
    simpa [Tako.MAX_VARS, Tako.run_program] using this
  · intro h
    exact (Compiler.get_var_offset_new_name cstate name hcnew).1 (by simp [Compiler.MAX_VARS, h])
  · intro h
    exact (Compiler.get_var_offset_new_name cstate name hcnew).2
      (by simpa [Compiler.MAX_VARS] using h)
  · intro s hs
    simpa [Compiler.MAX_VARS] using Compiler.reachable_cvar_count_le s hs

theorem var_capacity_hard_cap_witness :
    (∀ v ∈ full_state.vars, v.name ≠ ['x']) ∧ (∀ v ∈ full_cstate.vars, v.name ≠ ['x']) ∧
    full_state.var_count = 100 ∧ full_cstate.var_count = 100 ∧
    Tako.set_var full_state ['x'] 7 = .error .resource_exhausted ∧
    Compiler.get_var_offset full_cstate ['x'] = .error .too_many_variables :=
  ⟨by decide, by decide, by decide, by decide,
    (var_capacity_hard_cap full_state full_cstate ['x'] 7 (by decide) (by decide)).1 (by decide),
    (var_capacity_hard_cap full_state full_cstate ['x'] 7 (by decide) (by decide)).2.2.2.2.1
      (by decide)⟩

/-- C5 (defect in `set_var`/`find_var`): for a name of 32 characters the name
is not a key.  `set_var` stores the first 31 characters only while `find_var`
compares with all 32, so the second `set_var` of the same name adds a second
entry (`var_count` goes from 1 to 2, both entries carry the same stored name)
and the name still resolves to nothing. -/
theorem set_var_long_name_duplicates :
    ∃ s1 s2, Tako.set_var Tako.InterpreterState.empty long_name 1 = .ok s1 ∧
      Tako.set_var s1 long_name 2 = .ok s2 ∧
      s1.var_count = 1 ∧ s2.var_count = 2 ∧
      s2.vars = [⟨long_name_stored, 1⟩, ⟨long_name_stored, 2⟩] ∧
      Tako.find_var s2 long_name = none ∧
      Tako.resolve_value s2 long_name = .error (.undefined_reference long_name) :=
  ⟨⟨[⟨long_name_stored, 1⟩]⟩, ⟨[⟨long_name_stored, 1⟩, ⟨long_name_stored, 2⟩]⟩,
    by decide, by decide, by decide, by decide, by decide, by decide, by decide⟩

/-- C6 (defect in `get_var_offset`): two successive calls with the same name of
32 characters return the offsets 0 and 8, and the second call takes
`var_count` from 1 to 2: the stored name is cut to 31 characters and never
equals the name looked up. -/
theorem get_var_offset_long_name_not_stable :
    ∃ s1 s2, Compiler.get_var_offset Compiler.CompilerState.empty long_name = .ok (0, s1) ∧
      Compiler.get_var_offset s1 long_name = .ok (8, s2) ∧
      s1.var_count = 1 ∧ s2.var_count = 2 :=
  ⟨{ Compiler.CompilerState.empty with vars := [⟨long_name_stored⟩] },
    { Compiler.CompilerState.empty with vars := [⟨long_name_stored⟩, ⟨long_name_stored⟩] },
    by decide, by decide, by decide, by decide⟩

/-- C7 (defect in `get_var_offset`): from the empty state, the calls with a
name of 32 characters and then with its first 31 characters (two different
names) both return offset 0; and when the 32-character name is looked up
twice, the second call returns 8 although the name is the first distinct name
to appear. -/
theorem get_var_offset_long_name_not_injective :
    long_name ≠ long_name_stored ∧
    (Compiler.get_var_offsets Compiler.CompilerState.empty [long_name, long_name_stored]).map
      Prod.fst = .ok [0, 0] ∧
    (Compiler.get_var_offsets Compiler.CompilerState.empty [long_name, long_name]).map
      Prod.fst = .ok [0, 8] :=
  ⟨by decide, by decide, by decide⟩

/-! ## `sscanf`, directive by directive -/

theorem sscanf_run_lit (c : Char) (ds : List Directive) (rest : CStr) :
    sscanf_run (.lit c :: ds) (c :: rest) = sscanf_run ds rest := by
  simp [sscanf_run]

theorem sscanf_run_lit_ne (c x : Char) (ds : List Directive) (rest : CStr) (h : x ≠ c) :
    sscanf_run (.lit c :: ds) (x :: rest) = [] := by
  simp [sscanf_run, h]

theorem sscanf_run_lit_nil (c : Char) (ds : List Directive) :
    sscanf_run (.lit c :: ds) [] = [] := by
  simp [sscanf_run]

theorem sscanf_run_space_nil (ds : List Directive) :
    sscanf_run (.space :: ds) [] = sscanf_run ds [] := by
  simp [sscanf_run]

theorem sscanf_run_space_blank (ds : List Directive) (rest : CStr) :
    sscanf_run (.space :: ds) (' ' :: rest) = sscanf_run (.space :: ds) rest := by
  simp only [sscanf_run]
  rw [List.dropWhile_cons]
  simp only [show isspace ' ' = true by decide, if_true]

theorem sscanf_run_space_char (ds : List Directive) (c : Char) (rest : CStr)
    (h : isspace c = false) :
    sscanf_run (.space :: ds) (c :: rest) = sscanf_run ds (c :: rest) := by
  simp only [sscanf_run]
  rw [List.dropWhile_cons]
  simp [h]

theorem sscanf_run_space_token (ds : List Directive) (t rest : CStr) (h : is_token t = true) :
    sscanf_run (.space :: ds) (t ++ rest) = sscanf_run ds (t ++ rest) := by
  simp only [sscanf_run]
  rw [dropWhile_isspace_token t rest h]

theorem sscanf_run_str_nil (width : Option Nat) (assign : Bool) (ds : List Directive) :
    sscanf_run (.str width assign :: ds) [] = [] := by
  cases width <;> simp [sscanf_run, scan_token]

theorem sscanf_run_str_space (ds : List Directive) (t rest : CStr) (h : is_token t = true) :
    sscanf_run (.str none true :: ds) (t ++ ' ' :: rest) = t :: sscanf_run ds (' ' :: rest) := by
  simp only [sscanf_run]
  rw [scan_token_space t rest h, dropWhile_isspace_token t _ h]
  simp [(is_token_spec t h).1]

theorem sscanf_run_str_end (ds : List Directive) (t : CStr) (h : is_token t = true) :
    sscanf_run (.str none true :: ds) t = t :: sscanf_run ds [] := by
  have hd : t.dropWhile isspace = t := by
    have := dropWhile_isspace_token t [] h
    rwa [List.append_nil] at this
  simp only [sscanf_run]
  rw [scan_token_end t h, hd]
  simp [(is_token_spec t h).1]

theorem takeWhile_until (c : Char) (text rest : CStr) (h : ∀ x ∈ text, x ≠ c) :
    (text ++ c :: rest).takeWhile (fun x => x != c) = text := by
  induction text with
  | nil => simp [List.takeWhile]
  | cons y ys ih =>
    have hy : (y != c) = true := by simpa using h y (by simp)
    have ih2 := ih (fun x hx => h x (by simp [hx]))
    simp only [List.cons_append, List.takeWhile, hy]
    simp only [List.append_eq] at ih2 ⊢
    rw [ih2]

theorem sscanf_run_not_set (c : Char) (ds : List Directive) (text rest : CStr)
    (hne : text ≠ []) (h : ∀ x ∈ text, x ≠ c) :
    sscanf_run (.not_set c :: ds) (text ++ c :: rest) = text :: sscanf_run ds (c :: rest) := by
  simp only [sscanf_run]
  rw [takeWhile_until c text rest h]
  simp [hne]

theorem sscanf_run_not_set_empty (c : Char) (ds : List Directive) (rest : CStr) :
    sscanf_run (.not_set c :: ds) (c :: rest) = [] := by
  simp [sscanf_run, List.takeWhile]

theorem sscanf_run_space_token_end (ds : List Directive) (t : CStr) (h : is_token t = true) :
    sscanf_run (.space :: ds) t = sscanf_run ds t := by
  have := sscanf_run_space_token ds t [] h
  rwa [List.append_nil] at this

theorem sscanf_run_nil (input : CStr) : sscanf_run [] input = [] := by
  simp [sscanf_run]

/-! ## The formats of `execute_line` -/

theorem format_print_text_value :
    parse_format "print \"%[^\"]\" %s".toList
      = [.lit 'p', .lit 'r', .lit 'i', .lit 'n', .lit 't', .space, .lit '"', .not_set '"',
          .lit '"', .space, .str none true] := by decide

theorem format_print_text :
    parse_format "print \"%[^\"]\"".toList
      = [.lit 'p', .lit 'r', .lit 'i', .lit 'n', .lit 't', .space, .lit '"', .not_set '"',
          .lit '"'] := by decide

theorem format_print_value :
    parse_format "print %s".toList
      = [.lit 'p', .lit 'r', .lit 'i', .lit 'n', .lit 't', .space, .str none true] := by decide

theorem format_set :
    parse_format "set %s = %s".toList
      = [.lit 's', .lit 'e', .lit 't', .space, .str none true, .space, .lit '=', .space,
          .str none true] := by decide

theorem format_add :
    parse_format "add %s %s".toList
      = [.lit 'a', .lit 'd', .lit 'd', .space, .str none true, .space, .str none true] := by
  decide

theorem format_sub :
    parse_format "sub %s %s".toList
      = [.lit 's', .lit 'u', .lit 'b', .space, .str none true, .space, .str none true] := by
  decide

/-- The line `print "<text>" <v>` scans into the text and the token. -/
theorem sscanf_print_text_value (text v : CStr) (hne : text ≠ [])
    (hq : ∀ x ∈ text, x ≠ '"') (hv : is_token v = true) :
    sscanf ('p' :: 'r' :: 'i' :: 'n' :: 't' :: ' ' :: '"' :: (text ++ '"' :: ' ' :: v))
      "print \"%[^\"]\" %s" = [text, v] := by
  unfold sscanf
  rw [format_print_text_value]
  simp only [sscanf_run_lit, sscanf_run_space_blank]
  rw [sscanf_run_space_char _ _ _ (by decide), sscanf_run_lit,
    sscanf_run_not_set '"' _ text _ hne hq, sscanf_run_lit, sscanf_run_space_blank,
    sscanf_run_space_token_end _ v hv, sscanf_run_str_end _ v hv, sscanf_run_nil]

/-- The line `print "<text>"` gives one assignment with the format that
expects a value after the text. -/
theorem sscanf_print_text_first (text : CStr) (hne : text ≠ []) (hq : ∀ x ∈ text, x ≠ '"') :
    sscanf ('p' :: 'r' :: 'i' :: 'n' :: 't' :: ' ' :: '"' :: (text ++ ['"']))
      "print \"%[^\"]\" %s" = [text] := by
  unfold sscanf
  rw [format_print_text_value]
  simp only [sscanf_run_lit, sscanf_run_space_blank]
  rw [sscanf_run_space_char _ _ _ (by decide), sscanf_run_lit,
    sscanf_run_not_set '"' _ text _ hne hq, sscanf_run_lit, sscanf_run_space_nil,
    sscanf_run_str_nil]

/-- The line `print "<text>"` scans into the text. -/
theorem sscanf_print_text (text : CStr) (hne : text ≠ []) (hq : ∀ x ∈ text, x ≠ '"') :
    sscanf ('p' :: 'r' :: 'i' :: 'n' :: 't' :: ' ' :: '"' :: (text ++ ['"']))
      "print \"%[^\"]\"" = [text] := by
  unfold sscanf
  rw [format_print_text]
  simp only [sscanf_run_lit, sscanf_run_space_blank]
  rw [sscanf_run_space_char _ _ _ (by decide), sscanf_run_lit,
    sscanf_run_not_set '"' _ text _ hne hq, sscanf_run_lit, sscanf_run_nil]

namespace Tako

/-! ## Print statements -/

/-- Executing `print "<text>" <v>` with a non-empty text free of double quotes
and a token `v` that resolves to `n` appends `<text> <n>` and a newline to the
standard output and changes nothing else. -/
theorem execute_line_print_text_value (w : World) (text v : CStr) (n : Int)
    (hne : text ≠ []) (hq : ∀ x ∈ text, x ≠ '"') (hv : is_token v = true)
    (hres : resolve_value w.state v = .ok n) :
    execute_line w ('p' :: 'r' :: 'i' :: 'n' :: 't' :: ' ' :: '"' :: (text ++ '"' :: ' ' :: v))
      = .done { w with out := w.out ++ text ++ [' '] ++ fmt_d n ++ ['\n'] } := by
  unfold execute_line
  rw [sscanf_print_text_value text v hne hq hv]
  simp only [hres]

/-- Executing `print "<text>"` with a non-empty text free of double quotes
appends the text and a newline to the standard output and changes nothing
else. -/
theorem execute_line_print_text (w : World) (text : CStr)
    (hne : text ≠ []) (hq : ∀ x ∈ text, x ≠ '"') :
    execute_line w ('p' :: 'r' :: 'i' :: 'n' :: 't' :: ' ' :: '"' :: (text ++ ['"']))
      = .done { w with out := w.out ++ text ++ ['\n'] } := by
  unfold execute_line
  rw [sscanf_print_text_first text hne hq, sscanf_print_text text hne hq]

end Tako

namespace Tako

/-! ## Lines that match no statement -/

/-- A line that none of the six `sscanf` tests of `execute_line` accepts gets a
diagnostic on the error stream, and `execute_line` returns: there is no
`exit` on this path. -/
theorem execute_line_unrecognized (w : World) (line : CStr)
    (h1 : (sscanf line "print \"%[^\"]\" %s").length ≠ 2)
    (h2 : (sscanf line "print \"%[^\"]\"").length ≠ 1)
    (h3 : (sscanf line "print %s").length ≠ 1)
    (h4 : (sscanf line "set %s = %s").length ≠ 2)
    (h5 : (sscanf line "add %s %s").length ≠ 2)
    (h6 : (sscanf line "sub %s %s").length ≠ 2) :
    execute_line w line
      = .done { w with err := w.err ++ "Syntax Error: Unknown command on line: '".toList ++ line
          ++ "'\n".toList } := by
  unfold execute_line
  split
  · rename_i heq; rw [heq] at h1; simp at h1
  split
  · rename_i heq; rw [heq] at h2; simp at h2
  split
  · rename_i heq; rw [heq] at h3; simp at h3
  split
  · rename_i heq; rw [heq] at h4; simp at h4
  split
  · rename_i heq; rw [heq] at h5; simp at h5
  split
  · rename_i heq; rw [heq] at h6; simp at h6
  rfl

/-- The only faults `execute_line` exits with are the undefined reference of
`resolve_value` and the full table of `set_var`. -/
theorem execute_line_exit_faults (w w1 : World) (line : CStr) (fault : Fault)
    (h : execute_line w line = .exit fault w1) :
    (∃ token, fault = .undefined_reference token) ∨ fault = .resource_exhausted := by
  have hres : ∀ (st : InterpreterState) (t : CStr) (f : Fault),
      resolve_value st t = .error f → ∃ token, f = .undefined_reference token := by
    intro st t f hf
    unfold resolve_value at hf
    split at hf
    · cases hf
    · split at hf
      · cases hf
      · simp only [Except.error.injEq] at hf
        exact ⟨t, hf.symm⟩
  have hset : ∀ (st : InterpreterState) (t : CStr) (v : Int) (f : Fault),
      set_var st t v = .error f → f = .resource_exhausted := by
    intro st t v f hf
    unfold set_var at hf
    split at hf
    · cases hf
    · split at hf
      · simp only [Except.error.injEq] at hf
        exact hf.symm
      · cases hf
  unfold execute_line at h
  repeat' split at h
  all_goals first
    | (cases h; done)
    | (cases h
       first
         | exact Or.inl (hres _ _ _ (by assumption))
         | exact Or.inr (hset _ _ _ _ (by assumption)))

end Tako

/-- C14 (defect in `execute_line`): a line that matches no statement does not
abort the run.  On the script `bogus`, `print 1` the interpreter writes the
diagnostic for line 1 to the error stream, goes on and prints `1`: the branch
of `execute_line` for an unknown command has no `exit(1)`, unlike every other
diagnostic of `tako.c`. -/
theorem unknown_command_not_fatal :
    Tako.run_program ["bogus".toList, "print 1".toList]
      = .done { state := { vars := [] }, out := "1\n".toList,
                err := "Syntax Error: Unknown command on line: 'bogus'\n".toList } := by
  decide

theorem sscanf_run_str_width (ds : List Directive) (t rest : CStr) (h : is_token t = true)
    (hlen : t.length ≤ 2) :
    sscanf_run (.str (some 2) true :: ds) (t ++ ' ' :: rest)
      = t :: sscanf_run ds (' ' :: rest) := by
  simp only [sscanf_run]
  rw [scan_token_width t rest h hlen, dropWhile_isspace_token t _ h]
  simp [(is_token_spec t h).1]

/-- A header `if <a> <op> <b>` whose middle token has at most two characters
scans into its three tokens. -/
theorem sscanf_if_tokens (a op b : CStr) (ha : is_token a = true) (hop : is_token op = true)
    (hoplen : op.length ≤ 2) (hb : is_token b = true) :
    sscanf (['i', 'f', ' '] ++ a ++ [' '] ++ op ++ [' '] ++ b) "if %s %2s %s" = [a, op, b] := by
  have hfmt : parse_format "if %s %2s %s".toList
      = [.lit 'i', .lit 'f', .space, .str none true, .space, .str (some 2) true, .space,
          .str none true] := by decide
  have e1 : ['i', 'f', ' '] ++ a ++ [' '] ++ op ++ [' '] ++ b
      = 'i' :: 'f' :: ' ' :: (a ++ ' ' :: (op ++ ' ' :: b)) := by simp
  unfold sscanf
  rw [hfmt, e1]
  simp only [sscanf_run_lit]
  rw [sscanf_run_space_blank, sscanf_run_space_token _ a _ ha, sscanf_run_str_space _ a _ ha,
    sscanf_run_space_blank, sscanf_run_space_token _ op _ hop,
    sscanf_run_str_width _ op _ hop hoplen, sscanf_run_space_blank,
    sscanf_run_space_token_end _ b hb, sscanf_run_str_end _ b hb, sscanf_run_nil]

theorem eval_condition_unknown (op : CStr) (l r : Int) (hop : op ∉ operators) :
    Tako.eval_condition op l r = none := by
  simp only [operators, List.mem_cons, List.mem_singleton, List.not_mem_nil, or_false,
    not_or] at hop
  obtain ⟨h1, h2, h3, h4, h5, h6⟩ := hop
  simp [Tako.eval_condition, strcmp_eq, h1, h2, h3, h4, h5, h6]

namespace Tako

/-! ## Faults of block headers -/

theorem find_matching_end_never_zero (lines : List CStr) (lc start : Nat)
    (hnever : ∀ k, start ≤ k → k < lc → 1 ≤ depth_after lines start k) :
    find_matching_end lines lc start = -1 := by
  rcases find_matching_end_spec lines lc start with ⟨hr, _⟩ | ⟨e, _, h1, h2, _, h4, _⟩
  · exact hr
  · have := hnever e h1 h2
    omega

theorem run_script_loop_header (w : World) (lines : List CStr) (lc i t : Nat) (v : CStr)
    (n : Int) (hit : i < t) (hline : clean_line lines i = ['l', 'o', 'o', 'p', ' '] ++ v)
    (hv : resolve_value w.state v = .ok n) :
    run_script w lines lc i t =
      if find_matching_end lines lc (i + 1) = -1 then
        die (.unterminated_block ['l', 'o', 'o', 'p'] (i + 1)) w
      else
        (repeat_body (fun w1 => run_script w1 lines lc (i + 1)
            (find_matching_end lines lc (i + 1)).toNat) n.toNat w).bind
          (fun w1 => run_script w1 lines lc ((find_matching_end lines lc (i + 1)).toNat + 1) t) := by
  rw [run_script_unfold, if_pos hit]
  unfold run_script_iter
  simp only [hline]
  have h1 : ¬ ((['l', 'o', 'o', 'p', ' '] ++ v).head? = none ∨
      (['l', 'o', 'o', 'p', ' '] ++ v).head? = some '#') := by
    simp
  have h2 : strncmp_eq (['l', 'o', 'o', 'p', ' '] ++ v) ['l', 'o', 'o', 'p', ' '] 5 = true := by
    simp [strncmp_eq]
  have h3 : List.drop 5 (['l', 'o', 'o', 'p', ' '] ++ v) = v := by simp
  rw [if_neg h1, if_pos h2, h3, hv]

theorem run_script_if_header (w : World) (lines : List CStr) (lc i t : Nat) (a op b : CStr)
    (l r : Int) (hit : i < t)
    (hline : clean_line lines i = ['i', 'f', ' '] ++ a ++ [' '] ++ op ++ [' '] ++ b)
    (ha : is_token a = true) (hop : is_token op = true) (hoplen : op.length ≤ 2)
    (hb : is_token b = true)
    (hl : resolve_value w.state a = .ok l) (hr : resolve_value w.state b = .ok r) :
    run_script w lines lc i t =
      match eval_condition op l r with
      | none => die (.unknown_operator op (i + 1)) w
      | some condition =>
        if find_matching_end lines lc (i + 1) = -1 then
          die (.unterminated_block ['i', 'f'] (i + 1)) w
        else
          (if condition then run_script w lines lc (i + 1)
              (find_matching_end lines lc (i + 1)).toNat else .done w).bind
            (fun w1 => run_script w1 lines lc ((find_matching_end lines lc (i + 1)).toNat + 1) t) := by
  rw [run_script_unfold, if_pos hit]
  unfold run_script_iter
  simp only [hline]
  have e1 : ['i', 'f', ' '] ++ a ++ [' '] ++ op ++ [' '] ++ b
      = 'i' :: 'f' :: ' ' :: (a ++ ' ' :: (op ++ ' ' :: b)) := by simp
  have h1 : ¬ ((['i', 'f', ' '] ++ a ++ [' '] ++ op ++ [' '] ++ b).head? = none ∨
      (['i', 'f', ' '] ++ a ++ [' '] ++ op ++ [' '] ++ b).head? = some '#') := by
    rw [e1]; simp
  have h2 : ¬ strncmp_eq (['i', 'f', ' '] ++ a ++ [' '] ++ op ++ [' '] ++ b)
      ['l', 'o', 'o', 'p', ' '] 5 = true := by
    rw [e1]; simp [strncmp_eq]
  have h3 : strncmp_eq (['i', 'f', ' '] ++ a ++ [' '] ++ op ++ [' '] ++ b)
      ['i', 'f', ' '] 3 = true := by
    rw [e1]; simp [strncmp_eq]
  rw [if_neg h1, if_neg h2, if_pos h3, sscanf_if_tokens a op b ha hop hoplen hb]
  simp only [hl, hr]

/-- C15: when the depth count started after a header on line `i` never returns
to 0 before the end of the script, `find_matching_end` returns `-1` and
`run_script` exits with the unterminated-block fault for the 1-based line
`i + 1`, for a `loop` header whose count resolves and for an `if` header whose
operands resolve and whose operator is one of the six, whatever the count and
the condition are.  The state and the standard output are those at the header:
no line of the body has run. -/
theorem unterminated_block_reported (w : World) (lines : List CStr) (line_count i t : Nat)
    (hit : i < t)
    (hnever : ∀ k, i + 1 ≤ k → k < line_count → 1 ≤ depth_after lines (i + 1) k) :
    find_matching_end lines line_count (i + 1) = -1 ∧
    (∀ (v : CStr) (n : Int), clean_line lines i = ['l', 'o', 'o', 'p', ' '] ++ v →
      resolve_value w.state v = .ok n →
      run_script w lines line_count i t
        = .exit (.unterminated_block ['l', 'o', 'o', 'p'] (i + 1))
            { w with err := w.err
                ++ (Fault.unterminated_block ['l', 'o', 'o', 'p'] (i + 1)).message }) ∧
    (∀ (a op b : CStr) (l r : Int),
      clean_line lines i = ['i', 'f', ' '] ++ a ++ [' '] ++ op ++ [' '] ++ b →
      is_token a = true → is_token b = true → op ∈ operators →
      resolve_value w.state a = .ok l → resolve_value w.state b = .ok r →
      run_script w lines line_count i t
        = .exit (.unterminated_block ['i', 'f'] (i + 1))
            { w with err := w.err ++ (Fault.unterminated_block ['i', 'f'] (i + 1)).message }) := by
  have hfme := find_matching_end_never_zero lines line_count (i + 1) hnever
  refine ⟨hfme, ?_, ?_⟩
  · intro v n hline hv
    rw [run_script_loop_header w lines line_count i t v n hit hline hv, if_pos hfme]
    rfl
  · intro a op b l r hline ha hb hop hl hr
    obtain ⟨hopt, hoplen⟩ := operators_are_tokens op hop
    rw [run_script_if_header w lines line_count i t a op b l r hit hline ha hopt hoplen hb hl hr,
      eval_condition_operator op l r hop]
    simp only [if_pos hfme]
    rfl

/-- A header `if <a> <op> <b>` whose operator token has at most two characters
and is none of the six makes `run_script` exit with the unknown-operator fault
for that token and the 1-based line number; the body does not run. -/
theorem unknown_operator_reported (w : World) (lines : List CStr) (lc i t : Nat)
    (a op b : CStr) (l r : Int) (hit : i < t)
    (hline : clean_line lines i = ['i', 'f', ' '] ++ a ++ [' '] ++ op ++ [' '] ++ b)
    (ha : is_token a = true) (hop : is_token op = true) (hoplen : op.length ≤ 2)
    (hb : is_token b = true) (hunknown : op ∉ operators)
    (hl : resolve_value w.state a = .ok l) (hr : resolve_value w.state b = .ok r) :
    run_script w lines lc i t = die (.unknown_operator op (i + 1)) w := by
  rw [run_script_if_header w lines lc i t a op b l r hit hline ha hop hoplen hb hl hr,
    eval_condition_unknown op l r hunknown]

end Tako

theorem unterminated_block_reported_witness :
    Tako.find_matching_end open_loop_script 4 (0 + 1) = -1 ∧
    Tako.run_script fresh_world open_loop_script 4 0 4
      = .exit (.unterminated_block ['l', 'o', 'o', 'p'] (0 + 1))
          { fresh_world with err := fresh_world.err
              ++ (Tako.Fault.unterminated_block ['l', 'o', 'o', 'p'] (0 + 1)).message } :=
  ⟨(Tako.unterminated_block_reported fresh_world open_loop_script 4 0 4 (by decide)
      (by decide)).1,
    (Tako.unterminated_block_reported fresh_world open_loop_script 4 0 4 (by decide)
      (by decide)).2.1 ['3'] 3 (by decide) (by decide)⟩

/-- C16 (defect in `run_script`): an operator token of more than two
characters is not rejected.  `sscanf` reads the operator with `%2s`, so in
`if 5 >=3 7` it reads `>=` and takes `3` as the right operand: the body runs
and nothing is reported.  In `if 1 === 1` it reads `==` and takes `=` as the
right operand: the run stops with the undefined-reference fault for `=`, not
with the unknown-operator fault for `===`.  A token of two characters that is
none of the six, such as `=<`, is reported as the specification says. -/
theorem long_operator_token_accepted :
    Tako.run_program ["if 5 >=3 7".toList, "print \"body\"".toList, "end".toList]
      = .done { state := { vars := [] }, out := "body\n".toList, err := [] } ∧
    Tako.run_program ["if 1 === 1".toList, "print \"body\"".toList, "end".toList]
      = Tako.die (.undefined_reference ['=']) fresh_world ∧
    Tako.run_program ["if 1 =< 1".toList, "print \"body\"".toList, "end".toList]
      = Tako.die (.unknown_operator ['=', '<'] 1) fresh_world := by
  refine ⟨by decide, by decide, by decide⟩

/-! ## Increment and decrement -/

/-- The line `add <x> <v>` scans into its two tokens. -/
theorem sscanf_add_line (x v : CStr) (hx : is_token x = true) (hv : is_token v = true) :
    sscanf ('a' :: 'd' :: 'd' :: ' ' :: (x ++ ' ' :: v)) "add %s %s" = [x, v] := by
  unfold sscanf
  rw [format_add]
  simp only [sscanf_run_lit]
  rw [sscanf_run_space_blank, sscanf_run_space_token _ x _ hx, sscanf_run_str_space _ x _ hx,
    sscanf_run_space_blank, sscanf_run_space_token_end _ v hv, sscanf_run_str_end _ v hv,
    sscanf_run_nil]

/-- The line `sub <x> <v>` scans into its two tokens. -/
theorem sscanf_sub_line (x v : CStr) (hx : is_token x = true) (hv : is_token v = true) :
    sscanf ('s' :: 'u' :: 'b' :: ' ' :: (x ++ ' ' :: v)) "sub %s %s" = [x, v] := by
  unfold sscanf
  rw [format_sub]
  simp only [sscanf_run_lit]
  rw [sscanf_run_space_blank, sscanf_run_space_token _ x _ hx, sscanf_run_str_space _ x _ hx,
    sscanf_run_space_blank, sscanf_run_space_token_end _ v hv, sscanf_run_str_end _ v hv,
    sscanf_run_nil]

/-- A line that does not start with `p` matches none of the `print` formats. -/
theorem sscanf_print_mismatch (c : Char) (rest : CStr) (h : c ≠ 'p') :
    sscanf (c :: rest) "print \"%[^\"]\" %s" = [] ∧
    sscanf (c :: rest) "print \"%[^\"]\"" = [] ∧
    sscanf (c :: rest) "print %s" = [] := by
  unfold sscanf
  rw [format_print_text_value, format_print_text, format_print_value]
  exact ⟨sscanf_run_lit_ne _ _ _ _ h, sscanf_run_lit_ne _ _ _ _ h, sscanf_run_lit_ne _ _ _ _ h⟩

theorem sscanf_set_mismatch_add (rest : CStr) :
    sscanf ('a' :: rest) "set %s = %s" = [] := by
  unfold sscanf
  rw [format_set]
  exact sscanf_run_lit_ne _ _ _ _ (by decide)

theorem sscanf_set_mismatch_sub (rest : CStr) :
    sscanf ('s' :: 'u' :: rest) "set %s = %s" = [] := by
  unfold sscanf
  rw [format_set, sscanf_run_lit]
  exact sscanf_run_lit_ne _ _ _ _ (by decide)

theorem sscanf_add_mismatch_sub (rest : CStr) :
    sscanf ('s' :: rest) "add %s %s" = [] := by
  unfold sscanf
  rw [format_add]
  exact sscanf_run_lit_ne _ _ _ _ (by decide)

namespace Tako

theorem find_var_loop_some_name (name : CStr) (vars : List Variable) (k j : Nat)
    (h : find_var_loop name vars k = some j) :
    (vars.getD (j - k) ⟨[], 0⟩).name = name := by
  induction vars generalizing k with
  | nil => simp [find_var_loop] at h
  | cons v vs ih =>
    by_cases hv : v.name = name
    · simp [find_var_loop, strcmp_eq, hv] at h
      subst h
      simpa using hv
    · simp only [find_var_loop, strcmp_eq, beq_iff_eq, hv, if_false] at h
      have hb := find_var_loop_some_bounds name vs (k + 1) j h
      have := ih (k + 1) h
      have e : j - k = (j - (k + 1)) + 1 := by omega
      rw [e]
      simpa using this

theorem store_value_read_other (value : Int) (vars : List Variable) (i j : Nat) (h : j ≠ i) :
    (store_value value vars i).getD j ⟨[], 0⟩ = vars.getD j ⟨[], 0⟩ := by
  induction vars generalizing i j with
  | nil => simp [store_value]
  | cons v vs ih =>
    cases i with
    | zero =>
      cases j with
      | zero => exact absurd rfl h
      | succ j => simp [store_value]
    | succ i =>
      cases j with
      | zero => simp [store_value]
      | succ j =>
        have := ih i j (by omega)
        simpa [store_value] using this

/-- Overwriting the value of the variable `x` leaves what every other name
resolves to as it was. -/
theorem resolve_value_store_other (state : InterpreterState) (x y : CStr) (i : Nat)
    (value : Int) (hfind : find_var state x = some i) (hy : y ≠ x) :
    resolve_value { vars := store_value value state.vars i } y = resolve_value state y := by
  have hf : find_var { vars := store_value value state.vars i } y = find_var state y := by
    unfold find_var
    exact find_var_loop_congr y _ state.vars 0 (store_value_names value state.vars i)
  unfold resolve_value
  rw [hf]
  by_cases hn : looks_numeric y = true
  · simp [hn]
  · simp only [hn]
    cases hfy : find_var state y with
    | none => rfl
    | some j =>
      have hj : j ≠ i := by
        intro hji
        subst hji
        have h1 := find_var_loop_some_name x state.vars 0 j hfind
        have h2 := find_var_loop_some_name y state.vars 0 j hfy
        exact hy (h2.symm.trans h1)
      simp only []
      rw [store_value_read_other value state.vars i j hj]

/-- What `add` and `sub` do to a variable that `find_var` finds: the value at
its index is overwritten with the wrapped result. -/
theorem execute_line_add_sub (w : World) (x v : CStr) (i : Nat) (b : Int)
    (hx : is_token x = true) (hname : looks_numeric x = false) (hv : is_token v = true)
    (hfind : find_var w.state x = some i) (hres : resolve_value w.state v = .ok b) :
    execute_line w ('a' :: 'd' :: 'd' :: ' ' :: (x ++ ' ' :: v))
      = .done { w with state :=
          ⟨store_value (wrap32 ((w.state.vars.getD i ⟨[], 0⟩).value + b)) w.state.vars i⟩ } ∧
    execute_line w ('s' :: 'u' :: 'b' :: ' ' :: (x ++ ' ' :: v))
      = .done { w with state :=
          ⟨store_value (wrap32 ((w.state.vars.getD i ⟨[], 0⟩).value - b)) w.state.vars i⟩ } := by
  have hrx : resolve_value w.state x = .ok (w.state.vars.getD i ⟨[], 0⟩).value := by
    unfold resolve_value
    simp only [hname, hfind]
    rfl
  constructor
  · obtain ⟨p1, p2, p3⟩ := sscanf_print_mismatch 'a' ('d' :: 'd' :: ' ' :: (x ++ ' ' :: v))
      (by decide)
    unfold execute_line
    rw [p1, p2, p3, sscanf_set_mismatch_add, sscanf_add_line x v hx hv]
    simp only [hrx, hres, (set_var_existing w.state x _ i hfind).1]
  · obtain ⟨p1, p2, p3⟩ := sscanf_print_mismatch 's' ('u' :: 'b' :: ' ' :: (x ++ ' ' :: v))
      (by decide)
    unfold execute_line
    rw [p1, p2, p3, sscanf_set_mismatch_sub, sscanf_add_mismatch_sub, sscanf_sub_line x v hx hv]
    simp only [hrx, hres, (set_var_existing w.state x _ i hfind).1]

end Tako

namespace Tako

theorem wrap32_of_fits (z : Int) (h1 : -2147483648 ≤ z) (h2 : z ≤ 2147483647) :
    wrap32 z = z := by
  unfold wrap32
  omega

/-- In a state where `find_var` finds the variable `x` with value `a`, and
with a token `v` that resolves to `b`, executing `add x v` leaves `x` set to
`a + b` and executing `sub x v` leaves it set to `a - b` when the result fits
a 32-bit `int`; every other name resolves as before, the names in the table
and `var_count` are unchanged and nothing is written.  The script `set x = 5`,
`add x 3`, `print "x is" x` prints `x is 8`.  Here `x` is a name: a token that
`resolve_value` does not read as a number. -/
theorem add_sub_update (w : World) (x v : CStr) (i : Nat) (a b : Int)
    (hx : is_token x = true) (hname : looks_numeric x = false) (hv : is_token v = true)
    (hfind : find_var w.state x = some i)
    (hval : (w.state.vars.getD i ⟨[], 0⟩).value = a)
    (hres : resolve_value w.state v = .ok b) :
    (-2147483648 ≤ a + b → a + b ≤ 2147483647 →
      ∃ w1, execute_line w ('a' :: 'd' :: 'd' :: ' ' :: (x ++ ' ' :: v)) = .done w1 ∧
        resolve_value w1.state x = .ok (a + b) ∧
        (∀ y, y ≠ x → resolve_value w1.state y = resolve_value w.state y) ∧
        w1.state.vars.map Variable.name = w.state.vars.map Variable.name ∧
        w1.state.var_count = w.state.var_count ∧ w1.out = w.out ∧ w1.err = w.err) ∧
    (-2147483648 ≤ a - b → a - b ≤ 2147483647 →
      ∃ w1, execute_line w ('s' :: 'u' :: 'b' :: ' ' :: (x ++ ' ' :: v)) = .done w1 ∧
        resolve_value w1.state x = .ok (a - b) ∧
        (∀ y, y ≠ x → resolve_value w1.state y = resolve_value w.state y) ∧
        w1.state.vars.map Variable.name = w.state.vars.map Variable.name ∧
        w1.state.var_count = w.state.var_count ∧ w1.out = w.out ∧ w1.err = w.err) ∧
    run_program ["set x = 5".toList, "add x 3".toList, "print \"x is\" x".toList]
      = .done { state := { vars := [{ name := ['x'], value := 8 }] },
                out := "x is 8\n".toList, err := [] } := by
  obtain ⟨hadd, hsub⟩ := execute_line_add_sub w x v i b hx hname hv hfind hres
  rw [hval] at hadd hsub
  have hstore : ∀ z : Int,
      resolve_value { vars := store_value z w.state.vars i } x = .ok z ∧
      (∀ y, y ≠ x → resolve_value { vars := store_value z w.state.vars i } y
        = resolve_value w.state y) ∧
      (store_value z w.state.vars i).map Variable.name = w.state.vars.map Variable.name ∧
      (store_value z w.state.vars i).length = w.state.vars.length := by
    intro z
    refine ⟨?_, ?_, store_value_names z _ i, store_value_length z _ i⟩
    · rw [(set_var_existing w.state x z i hfind).2.2, hname]
      rfl
    · intro y hy
      exact resolve_value_store_other w.state x y i z hfind hy
  refine ⟨?_, ?_, by decide⟩
  · intro h1 h2
    rw [wrap32_of_fits _ h1 h2] at hadd
    obtain ⟨g1, g2, g3, g4⟩ := hstore (a + b)
    exact ⟨_, hadd, g1, g2, g3, g4, rfl, rfl⟩
  · intro h1 h2
    rw [wrap32_of_fits _ h1 h2] at hsub
    obtain ⟨g1, g2, g3, g4⟩ := hstore (a - b)
    exact ⟨_, hsub, g1, g2, g3, g4, rfl, rfl⟩

theorem add_sub_update_witness :
    ∃ w1, execute_line (if_world 5) ('a' :: 'd' :: 'd' :: ' ' :: (['a'] ++ ' ' :: ['3']))
        = .done w1 ∧
      resolve_value w1.state ['a'] = .ok (5 + 3) ∧
      (∀ y, y ≠ ['a'] → resolve_value w1.state y = resolve_value (if_world 5).state y) ∧
      w1.state.vars.map Variable.name = (if_world 5).state.vars.map Variable.name ∧
      w1.state.var_count = (if_world 5).state.var_count ∧
      w1.out = (if_world 5).out ∧ w1.err = (if_world 5).err :=
  (add_sub_update (if_world 5) ['a'] ['3'] 0 5 3 (by decide) (by decide) (by decide)
    (by decide) (by decide) (by decide)).1 (by decide) (by decide)

/-! ## Variables are never removed -/

theorem set_var_keeps_names (state s1 : InterpreterState) (name : CStr) (value : Int)
    (h : set_var state name value = .ok s1) :
    ∃ extra, s1.vars.map Variable.name = state.vars.map Variable.name ++ extra := by
  unfold set_var at h
  split at h
  · simp only [Except.ok.injEq] at h
    subst h
    exact ⟨[], by simp [store_value_names]⟩
  · split at h
    · cases h
    · simp only [Except.ok.injEq] at h
      subst h
      exact ⟨[strncpy name (MAX_VAR_NAME - 1)], by simp⟩

/-- No line removes or renames a variable: after `execute_line` the table
starts with the names it had, in their order. -/
theorem execute_line_keeps_names (w : World) (line : CStr) :
    ∃ extra, (execute_line w line).world.state.vars.map Variable.name
      = w.state.vars.map Variable.name ++ extra := by
  unfold execute_line
  repeat' split
  all_goals first
    | exact set_var_keeps_names _ _ _ _ (by assumption)
    | exact ⟨[], by simp [Outcome.world, die]⟩

end Tako

/-- C17 (defect in `execute_line`): an empty text is not recognised.  The
conversion `%[^"]` needs at least one character, so `print ""` and
`print "" 5` fail the two formats with a quoted text and are handled as the
plain `print <value>` form with the token `""`: in a fresh state they stop the
run with the undefined-reference fault instead of printing an empty line, and
after `set "" = 7` the line `print "" 5` prints `7`. -/
theorem print_empty_text_misparsed :
    Tako.execute_line fresh_world "print \"\"".toList
      = Tako.die (.undefined_reference ['"', '"']) fresh_world ∧
    Tako.execute_line fresh_world "print \"\" 5".toList
      = Tako.die (.undefined_reference ['"', '"']) fresh_world ∧
    Tako.run_program ["set \"\" = 7".toList, "print \"\" 5".toList]
      = .done { state := { vars := [{ name := ['"', '"'], value := 7 }] },
                out := "7\n".toList, err := [] } := by
  refine ⟨by decide, by decide, by decide⟩

/-- C20 (defect in `execute_line`): `add` and `sub` can create a variable.
Their first operand goes through `resolve_value`, which accepts a number, and
then through `set_var`, which creates what it does not find: in a fresh state
`add 5 3` and `sub 5 3` do not fault and leave a new variable named `5`. -/
theorem add_creates_variable :
    Tako.execute_line fresh_world "add 5 3".toList
      = .done { fresh_world with state := { vars := [{ name := ['5'], value := 8 }] } } ∧
    Tako.execute_line fresh_world "sub 5 3".toList
      = .done { fresh_world with state := { vars := [{ name := ['5'], value := 2 }] } } ∧
    fresh_world.state.var_count = 0 := by
  refine ⟨by decide, by decide, by decide⟩

/-! ## The two block matchers -/

theorem Compiler.cfind_matching_end_loop_bounds (lines : List CStr) (lc : Nat) :
    ∀ (fuel i : Nat) (d : Int),
      Compiler.find_matching_end_loop lines lc fuel i d = -1 ∨
      ((i : Int) ≤ Compiler.find_matching_end_loop lines lc fuel i d ∧
        Compiler.find_matching_end_loop lines lc fuel i d < (lc : Int)) := by
  intro fuel
  induction fuel with
  | zero => intro i d; exact Or.inl rfl
  | succ n ih =>
    intro i d
    have hstep : ∀ d2 : Int,
        Compiler.find_matching_end_loop lines lc n (i + 1) d2 = -1 ∨
        ((i : Int) ≤ Compiler.find_matching_end_loop lines lc n (i + 1) d2 ∧
          Compiler.find_matching_end_loop lines lc n (i + 1) d2 < (lc : Int)) := by
      intro d2
      rcases ih (i + 1) d2 with h | ⟨h1, h2⟩
      · exact Or.inl h
      · exact Or.inr ⟨by omega, h2⟩
    simp only [Compiler.find_matching_end_loop]
    by_cases hi : i < lc
    · simp only [if_pos hi]
      split_ifs
      · exact hstep _
      · exact Or.inr ⟨le_refl _, by omega⟩
      · exact hstep _
      · exact hstep _
    · simp only [if_neg hi]
      exact Or.inl trivial

theorem Compiler.cfind_matching_end_bounds (lines : List CStr) (lc start : Nat)
    (h : Compiler.find_matching_end lines lc start ≠ -1) :
    start ≤ (Compiler.find_matching_end lines lc start).toNat ∧
    (Compiler.find_matching_end lines lc start).toNat < lc := by
  rcases Compiler.cfind_matching_end_loop_bounds lines lc (lc - start) start 1 with h1 | ⟨h1, h2⟩
  · exact absurd h1 h
  · unfold Compiler.find_matching_end
    omega

/-- On a script whose lines carry no trailing white space (the two
normalizations give the same text) the two block matchers agree. -/
theorem find_matching_end_agree (lines : List CStr) (lc start : Nat)
    (h : ∀ j, Tako.trim_whitespace (lines.getD j [])
      = Compiler.trim_leading (strncpy (lines.getD j []) Compiler.MAX_LINE_LEN)) :
    Tako.find_matching_end lines lc start = Compiler.find_matching_end lines lc start := by
  have hloop : ∀ (fuel i : Nat) (d : Int),
      Tako.find_matching_end_loop lines lc fuel i d
        = Compiler.find_matching_end_loop lines lc fuel i d := by
    intro fuel
    induction fuel with
    | zero => intro i d; rfl
    | succ n ih =>
      intro i d
      simp only [Tako.find_matching_end_loop, Compiler.find_matching_end_loop, h i, ih,
        Tako.is_block_header, Compiler.is_block_header, Tako.is_end, Compiler.is_end]
  exact hloop _ _ _

/-- C18 (defect in the code generator's `find_matching_end`): the two block
matchers disagree on lines with trailing white space.  The interpreter trims
both ends of a line, the code generator only skips the leading white space:
for the one-line script `end ` (a space after `end`) and start index 0 the
interpreter returns 0 and the code generator returns -1; for the script
`if `, `end`, `end` (a space after `if`) the interpreter returns 1 and the code
generator returns 2. -/
theorem block_matchers_disagree :
    Tako.find_matching_end [['e', 'n', 'd', ' ']] 1 0 = 0 ∧
    Compiler.find_matching_end [['e', 'n', 'd', ' ']] 1 0 = -1 ∧
    Tako.find_matching_end [['i', 'f', ' '], ['e', 'n', 'd'], ['e', 'n', 'd']] 3 0 = 1 ∧
    Compiler.find_matching_end [['i', 'f', ' '], ['e', 'n', 'd'], ['e', 'n', 'd']] 3 0 = 2 := by
  refine ⟨by decide, by decide, by decide, by decide⟩

/-! ## Decimal text of a number -/

theorem digitChar_value : ∀ k, k < 10 → (Nat.digitChar k).toNat - 48 = k := by
  decide

theorem toDigitsCore_value (fuel : Nat) :
    ∀ (n : Nat) (ds : CStr), n < fuel →
      (Nat.toDigitsCore 10 fuel n ds).foldl (fun acc c => acc * 10 + (c.toNat - 48)) 0
        = ds.foldl (fun acc c => acc * 10 + (c.toNat - 48)) n := by
  induction fuel with
  | zero => intro n ds h; omega
  | succ fuel ih =>
    intro n ds h
    have hd := digitChar_value (n % 10) (Nat.mod_lt _ (by decide))
    simp only [Nat.toDigitsCore]
    by_cases h0 : n / 10 = 0
    · simp only [h0, if_true, List.foldl_cons, hd]
      have : n % 10 = n := Nat.mod_eq_of_lt (by omega)
      rw [this]; simp
    · simp only [h0, if_false]
      rw [ih (n / 10) _ (by omega)]
      simp only [List.foldl_cons, hd]
      have : n / 10 * 10 + n % 10 = n := by omega
      rw [this]

/-- The decimal text of a number reads back as the number. -/
theorem fmt_nat_value (n : Nat) : digits_value (Tako.fmt_nat n) = n := by
  unfold digits_value Tako.fmt_nat Nat.toDigits
  rw [toDigitsCore_value (n + 1) n [] (by omega)]
  rfl

theorem fmt_nat_injective (m n : Nat) (h : Tako.fmt_nat m = Tako.fmt_nat n) : m = n := by
  have := congrArg digits_value h
  rwa [fmt_nat_value, fmt_nat_value] at this

/-! ## String literal interning -/

theorem string_label_injective (m n : Nat) (h : string_label m = string_label n) : m = n := by
  unfold string_label at h
  exact fmt_nat_injective m n (List.append_cancel_left h)

namespace Compiler

/-- The search loop of `get_string_label` returns the label of the first entry
with the text: in a table with labels in order, the label of its position. -/
theorem get_string_label_loop_eq (str : CStr) (strings : List StringSymbol) (k0 : Nat)
    (hwf : labels_in_order k0 strings) :
    get_string_label_loop str strings =
      if str ∈ strings.map StringSymbol.value then
        some (string_label (k0 + position str (strings.map StringSymbol.value)))
      else none := by
  induction strings generalizing k0 with
  | nil => simp [get_string_label_loop]
  | cons sym syms ih =>
    unfold labels_in_order at hwf
    simp only [List.map_cons, List.length_cons, List.range'_succ, List.cons.injEq] at hwf
    obtain ⟨h1, h2⟩ := hwf
    by_cases hv : sym.value = str
    · simp [get_string_label_loop, strcmp_eq, hv, position, h1]
    · have hne : ¬ str = sym.value := fun h => hv h.symm
      simp only [get_string_label_loop, strcmp_eq, beq_iff_eq, hv, if_false, List.map_cons,
        List.mem_cons, hne, false_or, position]
      rw [ih (k0 + 1) h2]
      by_cases hm : str ∈ syms.map StringSymbol.value
      · rw [if_pos hm, if_pos hm]
        congr 2
        omega
      · rw [if_neg hm, if_neg hm]

/-- A call of `get_string_label` with a text that is in the table returns the
state as it is. -/
theorem get_string_label_present (state s1 : CompilerState) (str label : CStr)
    (hin : ∃ sym ∈ state.strings, sym.value = str)
    (h : get_string_label state str = .ok (label, s1)) :
    s1 = state := by
  have hsome : ∃ l, get_string_label_loop str state.strings = some l := by
    obtain ⟨sym, hmem, hval⟩ := hin
    generalize state.strings = strings at hmem
    induction strings with
    | nil => cases hmem
    | cons x xs ih =>
      by_cases hx : x.value = str
      · exact ⟨x.label, by simp [get_string_label_loop, strcmp_eq, hx]⟩
      · rcases List.mem_cons.1 hmem with e | e
        · exact absurd (e ▸ hval) hx
        · obtain ⟨l, hl⟩ := ih e
          exact ⟨l, by simp [get_string_label_loop, strcmp_eq, hx, hl]⟩
  obtain ⟨l, hl⟩ := hsome
  unfold get_string_label at h
  rw [hl] at h
  simp only [Except.ok.injEq, Prod.mk.injEq] at h
  exact h.2.symm

/-- One call of `get_string_label` with a text shorter than `MAX_ARG_LEN` on a
table with labels in order. -/
theorem get_string_label_short (state s1 : CompilerState) (str label : CStr)
    (hlen : str.length < MAX_ARG_LEN) (hwf : labels_in_order 0 state.strings)
    (h : get_string_label state str = .ok (label, s1)) :
    s1.strings.map StringSymbol.value
        = (if str ∈ state.strings.map StringSymbol.value then
            state.strings.map StringSymbol.value
          else state.strings.map StringSymbol.value ++ [str]) ∧
    labels_in_order 0 s1.strings ∧
    label = string_label (position str (s1.strings.map StringSymbol.value)) := by
  have hkeep : strncpy str (MAX_ARG_LEN - 1) = str := by
    unfold strncpy
    apply List.take_of_length_le
    simp only [MAX_ARG_LEN] at hlen ⊢
    omega
  unfold get_string_label at h
  rw [get_string_label_loop_eq str state.strings 0 hwf] at h
  by_cases hm : str ∈ state.strings.map StringSymbol.value
  · rw [if_pos hm] at h
    simp only [Except.ok.injEq, Prod.mk.injEq, Nat.zero_add] at h
    rw [← h.2, if_pos hm]
    exact ⟨rfl, hwf, h.1.symm⟩
  · rw [if_neg hm] at h
    by_cases hc : state.string_count ≥ MAX_STRINGS
    · simp [hc] at h
    · simp only [if_neg hc, Except.ok.injEq, Prod.mk.injEq, hkeep] at h
      rw [← h.2, if_neg hm]
      have hmap : List.map StringSymbol.value
          (state.strings ++ [⟨['s', 't', 'r'] ++ Tako.fmt_nat state.string_count, str⟩])
          = List.map StringSymbol.value state.strings ++ [str] := by simp
      refine ⟨hmap, ?_, ?_⟩
      · unfold labels_in_order at hwf ⊢
        simp only [List.map_append, List.map_cons, List.map_nil, List.length_append,
          List.length_singleton, List.range'_1_concat, hwf, Nat.zero_add]
        rfl
      · rw [hmap, position_append_new str _ hm, ← h.1]
        simp only [CompilerState.string_count, List.length_map]
        rfl

/-- In a sequence of calls of `get_string_label` with texts shorter than
`MAX_ARG_LEN`, every text gets the label of its position among the distinct
texts in order of first appearance. -/
theorem get_string_labels_short (texts : List CStr) :
    ∀ (state s : CompilerState) (labels : List CStr),
      (∀ t ∈ texts, t.length < MAX_ARG_LEN) → labels_in_order 0 state.strings →
      get_string_labels state texts = .ok (labels, s) →
      s.strings.map StringSymbol.value
        = first_seen (state.strings.map StringSymbol.value) texts ∧
      labels = texts.map (fun t => string_label
        (position t (first_seen (state.strings.map StringSymbol.value) texts))) := by
  induction texts with
  | nil =>
    intro state s labels _ _ h
    simp only [get_string_labels, Except.ok.injEq, Prod.mk.injEq] at h
    rw [← h.1, ← h.2]
    exact ⟨rfl, rfl⟩
  | cons t ts ih =>
    intro state s labels hshort hwf h
    simp only [get_string_labels] at h
    cases h1 : get_string_label state t with
    | error f => rw [h1] at h; cases h
    | ok r1 =>
      obtain ⟨l, s1⟩ := r1
      rw [h1] at h
      simp only [] at h
      cases h2 : get_string_labels s1 ts with
      | error f => rw [h2] at h; cases h
      | ok r2 =>
        obtain ⟨ls, s2⟩ := r2
        rw [h2] at h
        simp only [Except.ok.injEq, Prod.mk.injEq] at h
        obtain ⟨g1, gwf, g2⟩ := get_string_label_short state s1 t l (hshort t (by simp)) hwf h1
        obtain ⟨k1, k2⟩ := ih s1 s2 ls (fun n hn => hshort n (by simp [hn])) gwf h2
        have hfs : first_seen (state.strings.map StringSymbol.value) (t :: ts)
            = first_seen (s1.strings.map StringSymbol.value) ts := by
          rw [g1]
          by_cases hm : t ∈ state.strings.map StringSymbol.value
          · simp only [first_seen, if_pos hm]
          · simp only [first_seen, if_neg hm]
        have hmem : t ∈ s1.strings.map StringSymbol.value := by
          rw [g1]
          by_cases hm0 : t ∈ state.strings.map StringSymbol.value
          · rw [if_pos hm0]; exact hm0
          · rw [if_neg hm0]; simp
        rw [hfs, ← h.2, ← h.1]
        refine ⟨k1, ?_⟩
        simp only [List.map_cons]
        rw [← k2]
        congr 1
        obtain ⟨tl, ht⟩ := first_seen_extends ts (s1.strings.map StringSymbol.value)
        rw [g2, ht, position_append_of_mem t _ tl hmem]

end Compiler

/-- C11: starting from the empty string table, in every sequence of
`get_string_label` calls that succeeds (stays within the capacity) with texts
shorter than 128 characters, the call for a text returns the label `str<k>`
where `k` is the position of the text among the distinct texts in order of
first appearance; two calls return the same label if and only if their texts
are equal; and a call with a text that is already in the table does not
change `string_count`. -/
theorem string_interning (texts labels : List CStr) (s : Compiler.CompilerState)
    (hshort : ∀ t ∈ texts, t.length < 128)
    (h : Compiler.get_string_labels Compiler.CompilerState.empty texts = .ok (labels, s)) :
    labels = texts.map (fun t => ['s', 't', 'r']
      ++ Tako.fmt_nat (position t (first_seen [] texts))) ∧
    (first_seen [] texts).Nodup ∧ (∀ t ∈ texts, t ∈ first_seen [] texts) ∧
    (∀ t1 ∈ texts, ∀ t2 ∈ texts,
      (['s', 't', 'r'] ++ Tako.fmt_nat (position t1 (first_seen [] texts))
        = ['s', 't', 'r'] ++ Tako.fmt_nat (position t2 (first_seen [] texts))) ↔ t1 = t2) ∧
    (∀ (state s1 : Compiler.CompilerState) (t label : CStr),
      (∃ sym ∈ state.strings, sym.value = t) →
      Compiler.get_string_label state t = .ok (label, s1) →
      s1.string_count = state.string_count) := by
  obtain ⟨_, k2⟩ := Compiler.get_string_labels_short texts Compiler.CompilerState.empty s labels
    hshort (by simp [labels_in_order, Compiler.CompilerState.empty]) h
  refine ⟨k2, Compiler.first_seen_nodup texts [] List.nodup_nil,
    Compiler.first_seen_covers texts [], ?_, ?_⟩
  · intro t1 h1 t2 h2
    constructor
    · intro he
      have := string_label_injective _ _ he
      exact Compiler.position_inj t1 t2 _ (Compiler.first_seen_covers texts [] t1 h1)
        (Compiler.first_seen_covers texts [] t2 h2) this
    · intro he
      rw [he]
  · intro state s1 t label hin hcall
    rw [Compiler.get_string_label_present state s1 t label hin hcall]

theorem string_interning_witness :
    Compiler.get_string_labels Compiler.CompilerState.empty
        ["hi".toList, "x is".toList, "hi".toList]
      = .ok ([string_label 0, string_label 1, string_label 0],
          { Compiler.CompilerState.empty with
            strings := [⟨string_label 0, "hi".toList⟩, ⟨string_label 1, "x is".toList⟩] }) ∧
    [string_label 0, string_label 1, string_label 0]
      = ["hi".toList, "x is".toList, "hi".toList].map (fun t => ['s', 't', 'r']
          ++ Tako.fmt_nat (position t (first_seen [] ["hi".toList, "x is".toList, "hi".toList]))) :=
  ⟨by decide,
    (string_interning ["hi".toList, "x is".toList, "hi".toList]
      [string_label 0, string_label 1, string_label 0]
      { Compiler.CompilerState.empty with
        strings := [⟨string_label 0, "hi".toList⟩, ⟨string_label 1, "x is".toList⟩] }
      (by decide) (by decide)).1⟩

namespace Compiler

/-! ## What a step of the code generator writes -/

theorem label_defs_append (a b : List Asm) : label_defs (a ++ b) = label_defs a ++ label_defs b := by
  simp [label_defs, List.filterMap_append]

theorem headers_compiled_append (kw : CStr) (a b : List Asm) :
    headers_compiled kw (a ++ b) = headers_compiled kw a + headers_compiled kw b := by
  simp [headers_compiled, List.countP_append]

theorem get_var_offset_output (state s1 : CompilerState) (name : CStr) (offset : Nat)
    (h : get_var_offset state name = .ok (offset, s1)) :
    s1.outfile = state.outfile ∧ s1.label_count = state.label_count ∧
    s1.strings = state.strings := by
  unfold get_var_offset at h
  split at h
  · simp only [Except.ok.injEq, Prod.mk.injEq] at h
    rw [← h.2]; exact ⟨rfl, rfl, rfl⟩
  · split at h
    · cases h
    · simp only [Except.ok.injEq, Prod.mk.injEq] at h
      rw [← h.2]; exact ⟨rfl, rfl, rfl⟩

theorem get_string_label_output (state s1 : CompilerState) (str label : CStr)
    (h : get_string_label state str = .ok (label, s1)) :
    s1.outfile = state.outfile ∧ s1.label_count = state.label_count ∧ s1.vars = state.vars := by
  unfold get_string_label at h
  split at h
  · simp only [Except.ok.injEq, Prod.mk.injEq] at h
    rw [← h.2]; exact ⟨rfl, rfl, rfl⟩
  · split at h
    · cases h
    · simp only [Except.ok.injEq, Prod.mk.injEq] at h
      rw [← h.2]; exact ⟨rfl, rfl, rfl⟩

/-- The function `emit_load_value` writes one line of plain text and takes no
label. -/
theorem emit_load_value_output (state s1 : CompilerState) (v : CStr)
    (h : emit_load_value state v = .ok s1) :
    s1.label_count = state.label_count ∧ s1.strings = state.strings ∧
    ∃ t, s1.outfile = state.outfile ++ [.text t] := by
  unfold emit_load_value at h
  split at h
  · simp only [Except.ok.injEq] at h
    rw [← h]; exact ⟨rfl, rfl, _, rfl⟩
  · split at h
    · cases h
    · rename_i offset state1 heq
      simp only [Except.ok.injEq] at h
      obtain ⟨g1, g2, g3⟩ := get_var_offset_output _ _ _ _ heq
      rw [← h]
      refine ⟨g2, g3,
        "    mov rax, [vars + ".toList ++ Tako.fmt_nat offset ++ "]\n".toList, ?_⟩
      simp only [emit, g1]

end Compiler

theorem sscanf_run_lit_head (c : Char) (ds : List Directive) (input : CStr)
    (h : sscanf_run (.lit c :: ds) input ≠ []) : ∃ rest, input = c :: rest := by
  cases input with
  | nil => simp [sscanf_run] at h
  | cons x rest =>
    by_cases hx : x = c
    · exact ⟨rest, by rw [hx]⟩
    · simp [sscanf_run, hx] at h

namespace Compiler

theorem plain_text_defs (added : List Asm) (h : plain_text added) :
    label_defs added = [] ∧ ∀ kw, headers_compiled kw added = 0 := by
  induction added with
  | nil => exact ⟨rfl, fun _ => rfl⟩
  | cons a rest ih =>
    obtain ⟨t, ht⟩ := h a (by simp)
    obtain ⟨i1, i2⟩ := ih (fun x hx => h x (by simp [hx]))
    subst ht
    constructor
    · simpa [label_defs] using i1
    · intro kw
      have := i2 kw
      simpa [headers_compiled] using this

theorem plain_text_append (a b : List Asm) (ha : plain_text a) (hb : plain_text b) :
    plain_text (a ++ b) := by
  intro x hx
  rcases List.mem_append.1 hx with h | h
  · exact ha x h
  · exact hb x h

theorem plain_text_singleton (t : CStr) : plain_text [Asm.text t] := by
  intro x hx
  simp only [List.mem_singleton] at hx
  exact ⟨t, hx⟩

theorem labels_fresh_plain (lc : Nat) (added : List Asm) (h : plain_text added) :
    labels_fresh lc added lc := by
  obtain ⟨h1, h2⟩ := plain_text_defs added h
  refine ⟨by simp [h2], ?_, ?_⟩
  · rw [h1]; intro n hn; cases hn
  · rw [h1]; exact List.nodup_nil

/-- Two pieces written one after the other. -/
theorem labels_fresh_append (lc lc1 lc2 : Nat) (a b : List Asm)
    (ha : labels_fresh lc a lc1) (hb : labels_fresh lc1 b lc2) :
    labels_fresh lc (a ++ b) lc2 := by
  obtain ⟨a1, a2, a3⟩ := ha
  obtain ⟨b1, b2, b3⟩ := hb
  refine ⟨?_, ?_, ?_⟩
  · rw [headers_compiled_append, headers_compiled_append, b1, a1]; ring
  · intro n hn
    rw [label_defs_append] at hn
    rcases List.mem_append.1 hn with h | h
    · have := a2 n h; omega
    · have := b2 n h; omega
  · rw [label_defs_append, List.nodup_append]
    refine ⟨a3, b3, ?_⟩
    intro n h1 h2
    have := a2 n h1
    have := b2 n h2
    omega

theorem compile_update_output (state s1 : CompilerState) (mn arg1 arg2 : CStr)
    (h : compile_update state mn arg1 arg2 = .ok s1) :
    s1.label_count = state.label_count ∧
    ∃ added, s1.outfile = state.outfile ++ added ∧ plain_text added := by
  unfold compile_update at h
  split at h
  · cases h
  · rename_i offset state1 heq
    split at h
    · cases h
    · rename_i state2 heq2
      simp only [Except.ok.injEq] at h
      obtain ⟨g1, g2, _⟩ := get_var_offset_output _ _ _ _ heq
      obtain ⟨k1, _, t, k3⟩ := emit_load_value_output _ _ _ heq2
      rw [← h]
      refine ⟨by simp only [emit]; rw [k1, g2], ?_⟩
      refine ⟨[.text t] ++ [.text ("    ".toList ++ mn ++ " [vars + ".toList
        ++ Tako.fmt_nat offset ++ "], rax\n".toList)], ?_, ?_⟩
      · simp only [emit, k3, g1, List.append_assoc]
      · exact plain_text_append _ _ (plain_text_singleton _) (plain_text_singleton _)

/-- A statement without a block writes plain text and takes no label. -/
theorem compile_simple_output (state s1 : CompilerState) (line : CStr)
    (h : compile_simple state line = some (.ok s1)) :
    s1.label_count = state.label_count ∧
    ∃ added, s1.outfile = state.outfile ++ added ∧ plain_text added := by
  unfold compile_simple at h
  split at h
  · simp only [Option.some.injEq] at h
    exact compile_update_output _ _ _ _ _ h
  split at h
  · simp only [Option.some.injEq] at h
    exact compile_update_output _ _ _ _ _ h
  split at h
  · simp only [Option.some.injEq] at h
    exact compile_update_output _ _ _ _ _ h
  split at h
  · simp only [Option.some.injEq] at h
    split at h
    · cases h
    · rename_i str_label state1 heq
      split at h
      · cases h
      · rename_i state2 heq2
        simp only [Except.ok.injEq] at h
        obtain ⟨g1, g2, _⟩ := get_string_label_output _ _ _ _ heq
        obtain ⟨k1, _, t, k3⟩ := emit_load_value_output _ _ _ heq2
        rw [← h]
        refine ⟨by simp only [emit] at k1 ⊢; rw [k1, g2], ?_⟩
        refine ⟨[.text ("    mov rdi, ".toList ++ str_label
            ++ "\n    call print_string\n    mov rdi, ' '\n    call print_char\n".toList)]
          ++ ([.text t]
          ++ [.text "    mov rdi, rax\n    call print_int\n    call print_newline\n".toList]),
          ?_, ?_⟩
        · simp only [emit] at k3 ⊢
          rw [k3, g1]
          simp only [List.append_assoc]
        · exact plain_text_append _ _ (plain_text_singleton _)
            (plain_text_append _ _ (plain_text_singleton _) (plain_text_singleton _))
  split at h
  · simp only [Option.some.injEq] at h
    split at h
    · cases h
    · rename_i str_label state1 heq
      simp only [Except.ok.injEq] at h
      obtain ⟨g1, g2, _⟩ := get_string_label_output _ _ _ _ heq
      rw [← h]
      exact ⟨g2, [.text ("    mov rdi, ".toList ++ str_label
        ++ "\n    call print_string\n    call print_newline\n".toList)],
        by simp only [emit, g1], plain_text_singleton _⟩
  split at h
  · simp only [Option.some.injEq] at h
    split at h
    · cases h
    · rename_i state1 heq
      simp only [Except.ok.injEq] at h
      obtain ⟨k1, _, t, k3⟩ := emit_load_value_output _ _ _ heq
      rw [← h]
      refine ⟨k1, [.text t]
        ++ [.text "    mov rdi, rax\n    call print_int\n    call print_newline\n".toList],
        ?_, ?_⟩
      · simp only [emit, k3, List.append_assoc]
      · exact plain_text_append _ _ (plain_text_singleton _) (plain_text_singleton _)
  · cases h

/-- A line compiled as a statement without a block begins with `s`, `a` or
`p`: it is not a block header. -/
theorem compile_simple_head (state : CompilerState) (line : CStr)
    (r : Except Fault CompilerState) (h : compile_simple state line = some r) :
    ∃ c rest, line = c :: rest ∧ (c = 's' ∨ c = 'a' ∨ c = 'p') := by
  have key : ∀ (fmt : String) (c : Char) (ds : List Directive),
      parse_format fmt.toList = .lit c :: ds → sscanf line fmt ≠ [] →
      ∃ rest, line = c :: rest := by
    intro fmt c ds hf hne
    unfold sscanf at hne
    rw [hf] at hne
    exact sscanf_run_lit_head c ds line hne
  unfold compile_simple at h
  split at h
  · rename_i heq
    obtain ⟨rest, hr⟩ := key _ _ _ format_set (by rw [heq]; simp)
    exact ⟨_, rest, hr, Or.inl rfl⟩
  split at h
  · rename_i heq
    obtain ⟨rest, hr⟩ := key _ _ _ format_add (by rw [heq]; simp)
    exact ⟨_, rest, hr, Or.inr (Or.inl rfl)⟩
  split at h
  · rename_i heq
    obtain ⟨rest, hr⟩ := key _ _ _ format_sub (by rw [heq]; simp)
    exact ⟨_, rest, hr, Or.inl rfl⟩
  split at h
  · rename_i heq
    obtain ⟨rest, hr⟩ := key _ _ _ format_print_text_value (by rw [heq]; simp)
    exact ⟨_, rest, hr, Or.inr (Or.inr rfl)⟩
  split at h
  · rename_i heq
    obtain ⟨rest, hr⟩ := key _ _ _ format_print_text (by rw [heq]; simp)
    exact ⟨_, rest, hr, Or.inr (Or.inr rfl)⟩
  split at h
  · rename_i heq
    obtain ⟨rest, hr⟩ := key _ _ _ format_print_value (by rw [heq]; simp)
    exact ⟨_, rest, hr, Or.inr (Or.inr rfl)⟩
  · cases h

end Compiler

namespace Compiler

/-! ## Jump labels are fresh -/

theorem loop_header_not_if (line : CStr)
    (h : strncmp_eq line ['l', 'o', 'o', 'p', ' '] 5 = true) :
    strncmp_eq line ['i', 'f', ' '] 3 = false := by
  simp only [strncmp_eq, beq_iff_eq] at h
  have h3 : line.take 3 = ['l', 'o', 'o'] := by
    have := congrArg (List.take 3) h
    simpa [List.take_take] using this
  simp [strncmp_eq, h3]

theorem headers_comment (k : Nat) (line : CStr) :
    headers_compiled ['i', 'f'] [Asm.line_comment k line]
      = (if strncmp_eq line ['i', 'f', ' '] 3 = true then 1 else 0) ∧
    headers_compiled ['l', 'o', 'o', 'p'] [Asm.line_comment k line]
      = (if strncmp_eq line ['l', 'o', 'o', 'p', ' '] 5 = true then 1 else 0) := by
  constructor
  · by_cases h : strncmp_eq line ['i', 'f', ' '] 3 = true
    · simp [headers_compiled, h]
    · simp [headers_compiled, h]
  · by_cases h : strncmp_eq line ['l', 'o', 'o', 'p', ' '] 5 = true
    · simp [headers_compiled, h]
    · simp [headers_compiled, h]

/-- The comment of a line that is no block header. -/
theorem labels_fresh_comment (lc k : Nat) (line : CStr)
    (h1 : strncmp_eq line ['i', 'f', ' '] 3 = false)
    (h2 : strncmp_eq line ['l', 'o', 'o', 'p', ' '] 5 = false) :
    labels_fresh lc [Asm.line_comment k line] lc := by
  obtain ⟨c1, c2⟩ := headers_comment k line
  refine ⟨by rw [c1, c2, h1, h2]; simp, ?_, ?_⟩
  · intro n hn; simp [label_defs] at hn
  · simp [label_defs]

theorem label_defs_text (t : CStr) (r : List Asm) :
    label_defs (Asm.text t :: r) = label_defs r := by
  simp [label_defs]

theorem label_defs_comment (k : Nat) (src : CStr) (r : List Asm) :
    label_defs (Asm.line_comment k src :: r) = label_defs r := by
  simp [label_defs]

theorem label_defs_jump (mn : CStr) (n : Nat) (r : List Asm) :
    label_defs (Asm.jump mn n :: r) = label_defs r := by
  simp [label_defs]

theorem label_defs_def (n : Nat) (r : List Asm) :
    label_defs (Asm.label_def n :: r) = n :: label_defs r := by
  simp [label_defs]

theorem label_defs_nil : label_defs [] = [] := rfl

theorem headers_text (kw t : CStr) (r : List Asm) :
    headers_compiled kw (Asm.text t :: r) = headers_compiled kw r := by
  simp [headers_compiled]

theorem headers_jump (kw mn : CStr) (n : Nat) (r : List Asm) :
    headers_compiled kw (Asm.jump mn n :: r) = headers_compiled kw r := by
  simp [headers_compiled]

theorem headers_def (kw : CStr) (n : Nat) (r : List Asm) :
    headers_compiled kw (Asm.label_def n :: r) = headers_compiled kw r := by
  simp [headers_compiled]

theorem headers_nil (kw : CStr) : headers_compiled kw [] = 0 := rfl

/-- The output of a `loop` block: the comment of the header, the load of the
count, the loop top, the body, the loop end. -/
theorem labels_fresh_loop (lc lc5 k : Nat) (line t : CStr) (body : List Asm)
    (hloop : strncmp_eq line ['l', 'o', 'o', 'p', ' '] 5 = true)
    (hbody : labels_fresh (lc + 1 + 1) body lc5) :
    labels_fresh lc
      ([Asm.line_comment k line] ++ [Asm.text t]
        ++ [.text "    mov rcx, rax\n".toList, .label_def lc, .text "    cmp rcx, 0\n".toList,
            .jump ['j', 'l', 'e'] (lc + 1)]
        ++ body
        ++ [.text "    dec rcx\n".toList, .jump ['j', 'm', 'p'] lc, .label_def (lc + 1)]) lc5 := by
  obtain ⟨b1, b2, b3⟩ := hbody
  obtain ⟨c1, c2⟩ := headers_comment k line
  rw [loop_header_not_if line hloop] at c1
  rw [hloop] at c2
  simp only [if_true, Bool.false_eq_true, if_false] at c1 c2
  have hd : label_defs ([Asm.line_comment k line] ++ [Asm.text t]
        ++ [.text "    mov rcx, rax\n".toList, .label_def lc, .text "    cmp rcx, 0\n".toList,
            .jump ['j', 'l', 'e'] (lc + 1)]
        ++ body
        ++ [.text "    dec rcx\n".toList, .jump ['j', 'm', 'p'] lc, .label_def (lc + 1)])
      = lc :: (label_defs body ++ [lc + 1]) := by
    simp only [label_defs_append, label_defs_text, label_defs_comment, label_defs_jump,
      label_defs_def, label_defs_nil, List.nil_append, List.cons_append, List.append_assoc]
  have hi : ∀ kw, headers_compiled kw ([Asm.line_comment k line] ++ [Asm.text t]
        ++ [.text "    mov rcx, rax\n".toList, .label_def lc, .text "    cmp rcx, 0\n".toList,
            .jump ['j', 'l', 'e'] (lc + 1)]
        ++ body
        ++ [.text "    dec rcx\n".toList, .jump ['j', 'm', 'p'] lc, .label_def (lc + 1)])
      = headers_compiled kw [Asm.line_comment k line] + headers_compiled kw body := by
    intro kw
    simp only [headers_compiled_append, headers_text, headers_jump, headers_def, headers_nil,
      Nat.add_zero]
  refine ⟨?_, ?_, ?_⟩
  · rw [hi, hi, c1, c2]; omega
  · intro n hn
    rw [hd] at hn
    have hle : lc + 1 + 1 ≤ lc5 := by omega
    rcases List.mem_cons.1 hn with h | h
    · omega
    · rcases List.mem_append.1 h with h | h
      · have := b2 n h; omega
      · simp only [List.mem_singleton] at h; omega
  · rw [hd, List.nodup_cons]
    constructor
    · intro h
      rcases List.mem_append.1 h with h | h
      · have := b2 lc h; omega
      · simp only [List.mem_singleton] at h; omega
    · rw [List.nodup_append]
      refine ⟨b3, List.nodup_singleton _, ?_⟩
      intro a ha hb
      simp only [List.mem_singleton] at hb
      have := b2 a ha
      omega

/-- The output of an `if` block: the comment of the header, the two loads, the
comparison, the jump, the body, the end label. -/
theorem labels_fresh_if (lc lc5 k : Nat) (line t1 t2 mn : CStr) (body : List Asm)
    (hloop : strncmp_eq line ['l', 'o', 'o', 'p', ' '] 5 = false)
    (hif : strncmp_eq line ['i', 'f', ' '] 3 = true)
    (hbody : labels_fresh (lc + 1) body lc5) :
    labels_fresh lc
      ([Asm.line_comment k line] ++ [Asm.text t1] ++ [.text "    push rax\n".toList]
        ++ [Asm.text t2] ++ [.text "    pop rbx\n    cmp rbx, rax\n".toList]
        ++ [.jump mn lc] ++ body ++ [.label_def lc]) lc5 := by
  obtain ⟨b1, b2, b3⟩ := hbody
  obtain ⟨c1, c2⟩ := headers_comment k line
  rw [hif] at c1
  rw [hloop] at c2
  simp only [if_true, Bool.false_eq_true, if_false] at c1 c2
  have hd : label_defs ([Asm.line_comment k line] ++ [Asm.text t1]
        ++ [.text "    push rax\n".toList]
        ++ [Asm.text t2] ++ [.text "    pop rbx\n    cmp rbx, rax\n".toList]
        ++ [.jump mn lc] ++ body ++ [.label_def lc])
      = label_defs body ++ [lc] := by
    simp only [label_defs_append, label_defs_text, label_defs_comment, label_defs_jump,
      label_defs_def, label_defs_nil, List.nil_append, List.cons_append, List.append_assoc]
  have hi : ∀ kw, headers_compiled kw ([Asm.line_comment k line] ++ [Asm.text t1]
        ++ [.text "    push rax\n".toList]
        ++ [Asm.text t2] ++ [.text "    pop rbx\n    cmp rbx, rax\n".toList]
        ++ [.jump mn lc] ++ body ++ [.label_def lc])
      = headers_compiled kw [Asm.line_comment k line] + headers_compiled kw body := by
    intro kw
    simp only [headers_compiled_append, headers_text, headers_jump, headers_def, headers_nil,
      Nat.add_zero]
  refine ⟨?_, ?_, ?_⟩
  · rw [hi, hi, c1, c2]; omega
  · intro n hn
    rw [hd] at hn
    have hle : lc + 1 ≤ lc5 := by omega
    rcases List.mem_append.1 hn with h | h
    · have := b2 n h; omega
    · simp only [List.mem_singleton] at h; omega
  · rw [hd, List.nodup_append]
    refine ⟨b3, List.nodup_singleton _, ?_⟩
    intro a ha hb
    simp only [List.mem_singleton] at hb
    have := b2 a ha
    omega

end Compiler

namespace Compiler

theorem compile_loop_labels (self : CompilerState → Nat → Nat → Outcome)
    (hself : ∀ s i e s1, self s i e = .done s1 → appends_fresh s s1)
    (s0 s1 : CompilerState) (lines : List CStr) (lc i e : Nat) (line : CStr)
    (hloop : strncmp_eq line ['l', 'o', 'o', 'p', ' '] 5 = true)
    (h : compile_loop self (emit s0 [.line_comment (i + 1) line]) lines lc i e line
      = .done s1) :
    appends_fresh s0 s1 := by
  unfold compile_loop at h
  simp only [new_label] at h
  cases hel : emit_load_value
      { emit s0 [.line_comment (i + 1) line] with
        label_count := (emit s0 [.line_comment (i + 1) line]).label_count + 1 + 1 }
      (line.drop 5) with
  | error f =>
    simp only [hel] at h
    cases h
  | ok s3 =>
    simp only [hel] at h
    obtain ⟨k1, _, t, k3⟩ := emit_load_value_output _ _ _ hel
    by_cases hb : find_matching_end lines lc (i + 1) = -1
    · simp only [if_pos hb] at h
      cases h
    · simp only [if_neg hb] at h
      cases hbody : self (emit s3
          [.text "    mov rcx, rax\n".toList, .label_def s0.label_count,
           .text "    cmp rcx, 0\n".toList, .jump ['j', 'l', 'e'] (s0.label_count + 1)])
          (i + 1) (find_matching_end lines lc (i + 1)).toNat with
      | exit f =>
        simp only [emit] at hbody h
        rw [hbody] at h
        cases h
      | unfinished =>
        simp only [emit] at hbody h
        rw [hbody] at h
        cases h
      | done s5 =>
        simp only [emit] at hbody h
        rw [hbody] at h
        simp only [Outcome.bind] at h
        obtain ⟨body, hb1, hb2⟩ := hself _ _ _ _ hbody
        obtain ⟨rest, hr1, hr2⟩ := hself _ _ _ _ h
        simp only [emit] at k1 k3 hb1 hb2 hr1 hr2
        rw [k1] at hb2
        refine ⟨([Asm.line_comment (i + 1) line] ++ [Asm.text t]
          ++ [.text "    mov rcx, rax\n".toList, .label_def s0.label_count,
              .text "    cmp rcx, 0\n".toList, .jump ['j', 'l', 'e'] (s0.label_count + 1)]
          ++ body
          ++ [.text "    dec rcx\n".toList, .jump ['j', 'm', 'p'] s0.label_count,
              .label_def (s0.label_count + 1)]) ++ rest, ?_, ?_⟩
        · rw [hr1, hb1, k3]
          simp only [List.append_assoc]
        · exact labels_fresh_append _ _ _ _ _
            (labels_fresh_loop s0.label_count s5.label_count (i + 1) line t body hloop hb2) hr2

theorem compile_if_labels (self : CompilerState → Nat → Nat → Outcome)
    (hself : ∀ s i e s1, self s i e = .done s1 → appends_fresh s s1)
    (s0 s1 : CompilerState) (lines : List CStr) (lc i e : Nat) (line : CStr)
    (hloop : strncmp_eq line ['l', 'o', 'o', 'p', ' '] 5 = false)
    (hif : strncmp_eq line ['i', 'f', ' '] 3 = true)
    (h : compile_if self (emit s0 [.line_comment (i + 1) line]) lines lc i e line
      = .done s1) :
    appends_fresh s0 s1 := by
  unfold compile_if at h
  split at h
  swap
  · cases h
  rename_i arg1 op arg2 _
  simp only [new_label] at h
  cases hl1 : emit_load_value
      { emit s0 [.line_comment (i + 1) line] with
        label_count := (emit s0 [.line_comment (i + 1) line]).label_count + 1 } arg1 with
  | error f =>
    simp only [hl1] at h
    cases h
  | ok s2 =>
    simp only [hl1] at h
    obtain ⟨k1, _, t1, k3⟩ := emit_load_value_output _ _ _ hl1
    cases hl2 : emit_load_value (emit s2 [.text "    push rax\n".toList]) arg2 with
    | error f =>
      simp only [hl2] at h
      cases h
    | ok s3 =>
      simp only [hl2] at h
      obtain ⟨m1, _, t2, m3⟩ := emit_load_value_output _ _ _ hl2
      cases hj : jump_for op with
      | none =>
        simp only [hj] at h
        cases h
      | some mn =>
        simp only [hj] at h
        by_cases hb : find_matching_end lines lc (i + 1) = -1
        · simp only [if_pos hb] at h
          cases h
        · simp only [if_neg hb] at h
          cases hbody : self (emit (emit s3 [.text "    pop rbx\n    cmp rbx, rax\n".toList])
              [.jump mn s0.label_count]) (i + 1)
              (find_matching_end lines lc (i + 1)).toNat with
          | exit f =>
            simp only [emit] at hbody h
            rw [hbody] at h
            cases h
          | unfinished =>
            simp only [emit] at hbody h
            rw [hbody] at h
            cases h
          | done s5 =>
            simp only [emit] at hbody h
            rw [hbody] at h
            simp only [Outcome.bind] at h
            obtain ⟨body, hb1, hb2⟩ := hself _ _ _ _ hbody
            obtain ⟨rest, hr1, hr2⟩ := hself _ _ _ _ h
            simp only [emit] at k1 k3 m1 m3 hb1 hb2 hr1 hr2
            rw [m1, k1] at hb2
            refine ⟨([Asm.line_comment (i + 1) line] ++ [Asm.text t1]
              ++ [.text "    push rax\n".toList] ++ [Asm.text t2]
              ++ [.text "    pop rbx\n    cmp rbx, rax\n".toList]
              ++ [.jump mn s0.label_count] ++ body ++ [.label_def s0.label_count]) ++ rest,
              ?_, ?_⟩
            · rw [hr1, hb1, m3, k3]
              simp only [List.append_assoc]
            · exact labels_fresh_append _ _ _ _ _
                (labels_fresh_if s0.label_count s5.label_count (i + 1) line t1 t2 mn body
                  hloop hif hb2) hr2

end Compiler

namespace Compiler

theorem appends_fresh_refl (s : CompilerState) : appends_fresh s s :=
  ⟨[], by simp, labels_fresh_plain _ [] (fun a ha => by cases ha)⟩

theorem compile_script_iter_labels (self : CompilerState → Nat → Nat → Outcome)
    (hself : ∀ s i e s1, self s i e = .done s1 → appends_fresh s s1)
    (s0 s1 : CompilerState) (lines : List CStr) (lc i e : Nat)
    (h : compile_script_iter self s0 lines lc i e = .done s1) :
    appends_fresh s0 s1 := by
  unfold compile_script_iter at h
  simp only [] at h
  by_cases h1 : (clean_line lines i).head? = none ∨ (clean_line lines i).head? = some '#'
  · simp only [if_pos h1] at h
    exact hself _ _ _ _ h
  simp only [if_neg h1] at h
  cases hcs : compile_simple (emit s0 [.line_comment (i + 1) (clean_line lines i)])
      (clean_line lines i) with
  | some r =>
    obtain ⟨c, rest, hline, hc⟩ := compile_simple_head _ _ r hcs
    have hnotif : strncmp_eq (clean_line lines i) ['i', 'f', ' '] 3 = false := by
      rw [hline]
      rcases hc with hc | hc | hc <;> subst hc <;> simp [strncmp_eq]
    have hnotloop : strncmp_eq (clean_line lines i) ['l', 'o', 'o', 'p', ' '] 5 = false := by
      rw [hline]
      rcases hc with hc | hc | hc <;> subst hc <;> simp [strncmp_eq]
    cases r with
    | error f =>
      rw [hcs] at h
      cases h
    | ok s2 =>
      rw [hcs] at h
      simp only [] at h
      obtain ⟨g1, added, g2, g3⟩ := compile_simple_output _ _ _ hcs
      obtain ⟨rest2, r1, r2⟩ := hself _ _ _ _ h
      simp only [emit] at g1 g2
      rw [g1] at r2
      refine ⟨([Asm.line_comment (i + 1) (clean_line lines i)] ++ added) ++ rest2, ?_, ?_⟩
      · rw [r1, g2]
        simp only [List.append_assoc]
      · exact labels_fresh_append _ _ _ _ _
          (labels_fresh_append _ _ _ _ _
            (labels_fresh_comment _ _ _ hnotif hnotloop) (labels_fresh_plain _ _ g3)) r2
  | none =>
    rw [hcs] at h
    simp only [] at h
    by_cases h2 : strncmp_eq (clean_line lines i) ['l', 'o', 'o', 'p', ' '] 5 = true
    · simp only [if_pos h2] at h
      exact compile_loop_labels self hself s0 s1 lines lc i e _ h2 h
    simp only [if_neg h2] at h
    have h2f : strncmp_eq (clean_line lines i) ['l', 'o', 'o', 'p', ' '] 5 = false := by
      simpa using h2
    by_cases h3 : strncmp_eq (clean_line lines i) ['i', 'f', ' '] 3 = true
    · simp only [if_pos h3] at h
      exact compile_if_labels self hself s0 s1 lines lc i e _ h2f h3 h
    simp only [if_neg h3] at h
    have h3f : strncmp_eq (clean_line lines i) ['i', 'f', ' '] 3 = false := by
      simpa using h3
    by_cases h4 : strcmp_eq (clean_line lines i) ['e', 'n', 'd'] = true
    · simp only [if_pos h4] at h
      obtain ⟨rest2, r1, r2⟩ := hself _ _ _ _ h
      simp only [emit] at r1 r2
      refine ⟨[Asm.line_comment (i + 1) (clean_line lines i)] ++ rest2, ?_, ?_⟩
      · rw [r1]
        simp only [List.append_assoc]
      · exact labels_fresh_append _ _ _ _ _ (labels_fresh_comment _ _ _ h3f h2f) r2
    · simp only [if_neg h4] at h
      cases h

/-- Every successful run of `compile_script` appends to the output, and over
what it appends the labels are fresh. -/
theorem compile_script_labels (s0 s1 : CompilerState) (lines : List CStr) (lc i e : Nat)
    (h : compile_script s0 lines lc i e = .done s1) :
    appends_fresh s0 s1 := by
  have hgas : ∀ (g : Nat) (s s2 : CompilerState) (i1 e1 : Nat),
      compile_script_gas lines lc g s i1 e1 = .done s2 → appends_fresh s s2 := by
    intro g
    induction g with
    | zero =>
      intro s s2 i1 e1 hg
      simp only [compile_script_gas] at hg
      cases hg
    | succ n ih =>
      intro s s2 i1 e1 hg
      simp only [compile_script_gas] at hg
      by_cases hie : i1 < e1
      · rw [if_pos hie] at hg
        exact compile_script_iter_labels _ (fun s i e s1 hs => ih s s1 i e hs) s s2 lines lc
          i1 e1 hg
      · rw [if_neg hie] at hg
        simp only [Outcome.done.injEq] at hg
        rw [← hg]
        exact appends_fresh_refl s
  exact hgas _ s0 s1 i e h

end Compiler

/-- C12: when `compile_script` translates a range of a script without a fault,
starting with `label_count = 0` and an output without label definitions and
compiled lines, then no label number is defined twice in the output, every
label defined is below the final `label_count`, and the final `label_count` is
the number of `if` headers compiled plus twice the number of `loop` headers
compiled, whatever the nesting. -/
theorem jump_labels_unique (s0 s1 : Compiler.CompilerState) (lines : List CStr)
    (line_count start_line end_line : Nat)
    (hcount : s0.label_count = 0) (hout : plain_text s0.outfile)
    (h : Compiler.compile_script s0 lines line_count start_line end_line = .done s1) :
    (Compiler.label_defs s1.outfile).Nodup ∧
    (∀ n ∈ Compiler.label_defs s1.outfile, n < s1.label_count) ∧
    s1.label_count = Compiler.headers_compiled ['i', 'f'] s1.outfile
      + 2 * Compiler.headers_compiled ['l', 'o', 'o', 'p'] s1.outfile := by
  obtain ⟨added, h1, h2, h3, h4⟩ := Compiler.compile_script_labels s0 s1 lines line_count
    start_line end_line h
  obtain ⟨p1, p2⟩ := Compiler.plain_text_defs s0.outfile hout
  rw [h1, Compiler.label_defs_append, Compiler.headers_compiled_append,
    Compiler.headers_compiled_append, p1, p2, p2, hcount] at *
  simp only [List.nil_append, Nat.zero_add] at *
  refine ⟨h4, fun n hn => (h3 n hn).2, ?_⟩
  omega

theorem jump_labels_unique_witness :
    Compiler.compile_script label_start label_script 11 0 11 = .done label_result ∧
    ((Compiler.label_defs label_result.outfile).Nodup ∧
      (∀ n ∈ Compiler.label_defs label_result.outfile, n < label_result.label_count) ∧
      label_result.label_count = Compiler.headers_compiled ['i', 'f'] label_result.outfile
        + 2 * Compiler.headers_compiled ['l', 'o', 'o', 'p'] label_result.outfile) ∧
    Compiler.label_defs label_result.outfile = [1, 3, 2, 0, 4, 5] ∧
    label_result.label_count = 6 :=
  ⟨by decide,
    jump_labels_unique label_start label_result label_script 11 0 11 (by decide)
      (by intro a ha; cases ha) (by decide),
    by decide, by decide⟩

/-! ## The jump of a conditional -/

theorem sscanf_lit_mismatch (fmt : String) (c x : Char) (ds : List Directive) (rest : CStr)
    (hf : parse_format fmt.toList = .lit c :: ds) (hx : x ≠ c) :
    sscanf (x :: rest) fmt = [] := by
  unfold sscanf
  rw [hf]
  exact sscanf_run_lit_ne c x ds rest hx

/-- A header `if <a> <op> <b>` scans into its three tokens with the code
generator's format. -/
theorem sscanf_if_plain (a op b : CStr) (ha : is_token a = true) (hop : is_token op = true)
    (hb : is_token b = true) :
    sscanf (['i', 'f', ' '] ++ a ++ [' '] ++ op ++ [' '] ++ b) "if %s %s %s" = [a, op, b] := by
  have hfmt : parse_format "if %s %s %s".toList
      = [.lit 'i', .lit 'f', .space, .str none true, .space, .str none true, .space,
          .str none true] := by decide
  have e1 : ['i', 'f', ' '] ++ a ++ [' '] ++ op ++ [' '] ++ b
      = 'i' :: 'f' :: ' ' :: (a ++ ' ' :: (op ++ ' ' :: b)) := by simp
  unfold sscanf
  rw [hfmt, e1]
  simp only [sscanf_run_lit]
  rw [sscanf_run_space_blank, sscanf_run_space_token _ a _ ha, sscanf_run_str_space _ a _ ha,
    sscanf_run_space_blank, sscanf_run_space_token _ op _ hop,
    sscanf_run_str_space _ op _ hop, sscanf_run_space_blank,
    sscanf_run_space_token_end _ b hb, sscanf_run_str_end _ b hb, sscanf_run_nil]

/-- The jump chosen for each of the six operators is the one of the table, and
it is taken exactly when the comparison of the source is false. -/
theorem jump_for_operator (op : CStr) (hop : op ∈ operators) :
    ∃ mn, Compiler.jump_for op = some mn ∧ (op, mn) ∈ inverted_jump_table ∧
      ∀ l r : Int, jump_taken mn l r ↔ ¬ op_holds op l r := by
  simp only [operators, List.mem_cons, List.mem_singleton, List.not_mem_nil, or_false] at hop
  rcases hop with h | h | h | h | h | h <;> subst h
  · refine ⟨['j', 'n', 'e'], by decide, by decide, ?_⟩
    intro l r
    simp [jump_taken, op_holds]
  · refine ⟨['j', 'e'], by decide, by decide, ?_⟩
    intro l r
    simp [jump_taken, op_holds]
  · refine ⟨['j', 'l', 'e'], by decide, by decide, ?_⟩
    intro l r
    simp [jump_taken, op_holds]
  · refine ⟨['j', 'g', 'e'], by decide, by decide, ?_⟩
    intro l r
    simp [jump_taken, op_holds]
  · refine ⟨['j', 'l'], by decide, by decide, ?_⟩
    intro l r
    simp [jump_taken, op_holds]
  · refine ⟨['j', 'g'], by decide, by decide, ?_⟩
    intro l r
    simp [jump_taken, op_holds]

namespace Compiler

/-- A line that begins with `i` is none of the statements without a block. -/
theorem compile_simple_if_line (state : CompilerState) (rest : CStr) :
    compile_simple state ('i' :: rest) = none := by
  unfold compile_simple
  rw [sscanf_lit_mismatch _ _ 'i' _ rest format_set (by decide),
    sscanf_lit_mismatch _ _ 'i' _ rest format_add (by decide),
    sscanf_lit_mismatch _ _ 'i' _ rest format_sub (by decide),
    sscanf_lit_mismatch _ _ 'i' _ rest format_print_text_value (by decide),
    sscanf_lit_mismatch _ _ 'i' _ rest format_print_text (by decide),
    sscanf_lit_mismatch _ _ 'i' _ rest format_print_value (by decide)]

theorem compile_script_gas_labels (lines : List CStr) (lc : Nat) :
    ∀ (g : Nat) (s s2 : CompilerState) (i1 e1 : Nat),
      compile_script_gas lines lc g s i1 e1 = .done s2 → appends_fresh s s2 := by
  intro g
  induction g with
  | zero =>
    intro s s2 i1 e1 hg
    simp only [compile_script_gas] at hg
    cases hg
  | succ n ih =>
    intro s s2 i1 e1 hg
    simp only [compile_script_gas] at hg
    by_cases hie : i1 < e1
    · rw [if_pos hie] at hg
      exact compile_script_iter_labels _ (fun s i e s1 hs => ih s s1 i e hs) s s2 lines lc
        i1 e1 hg
    · rw [if_neg hie] at hg
      simp only [Outcome.done.injEq] at hg
      rw [← hg]
      exact appends_fresh_refl s

end Compiler

namespace Compiler

/-! ## `compile_script` always finishes -/

theorem cbind_finished (o : Outcome) (next : CompilerState → Outcome)
    (ho : o.finished = true) (hnext : ∀ s, (next s).finished = true) :
    (o.bind next).finished = true := by
  cases o with
  | done s => exact hnext s
  | exit f => rfl
  | unfinished => cases ho

theorem compile_script_iter_finished (self : CompilerState → Nat → Nat → Outcome)
    (s0 : CompilerState) (lines : List CStr) (lc i e : Nat) (hie : i < e)
    (h : ∀ s1 i1 e1, Tako.gas_bound lc i1 e1 + 1 ≤ Tako.gas_bound lc i e →
      (self s1 i1 e1).finished = true) :
    (compile_script_iter self s0 lines lc i e).finished = true := by
  have hnext : ∀ s1, (self s1 (i + 1) e).finished = true := by
    intro s1
    apply h
    simp only [Tako.gas_bound]; omega
  have hblock : find_matching_end lines lc (i + 1) ≠ -1 →
      (∀ s1, (self s1 (i + 1) (find_matching_end lines lc (i + 1)).toNat).finished = true) ∧
      (∀ s1, (self s1 ((find_matching_end lines lc (i + 1)).toNat + 1) e).finished = true) := by
    intro hne
    obtain ⟨b1, b2⟩ := cfind_matching_end_bounds lines lc (i + 1) hne
    constructor
    · intro s1
      apply h
      simp only [Tako.gas_bound]; omega
    · intro s1
      apply h
      simp only [Tako.gas_bound]; omega
  unfold compile_script_iter
  simp only []
  by_cases h1 : (clean_line lines i).head? = none ∨ (clean_line lines i).head? = some '#'
  · simp only [if_pos h1]
    exact hnext s0
  simp only [if_neg h1]
  generalize compile_simple (emit s0 [.line_comment (i + 1) (clean_line lines i)])
    (clean_line lines i) = r
  rcases r with _ | (f | s2)
  · simp only []
    by_cases h2 : strncmp_eq (clean_line lines i) ['l', 'o', 'o', 'p', ' '] 5 = true
    · simp only [if_pos h2]
      unfold compile_loop
      simp only [new_label]
      generalize emit_load_value _ _ = r2
      cases r2 with
      | error f => rfl
      | ok s3 =>
        simp only []
        by_cases h5 : find_matching_end lines lc (i + 1) = -1
        · simp only [if_pos h5]; rfl
        · simp only [if_neg h5]
          exact cbind_finished _ _ ((hblock h5).1 _) (fun s => (hblock h5).2 _)
    simp only [if_neg h2]
    by_cases h3 : strncmp_eq (clean_line lines i) ['i', 'f', ' '] 3 = true
    · simp only [if_pos h3]
      unfold compile_if
      split
      · simp only [new_label]
        split
        · rfl
        · split
          · rfl
          · split
            · rfl
            · by_cases h5 : find_matching_end lines lc (i + 1) = -1
              · simp only [if_pos h5]; rfl
              · simp only [if_neg h5]
                exact cbind_finished _ _ ((hblock h5).1 _) (fun s => (hblock h5).2 _)
      · rfl
    simp only [if_neg h3]
    by_cases h4 : strcmp_eq (clean_line lines i) ['e', 'n', 'd'] = true
    · simp only [if_pos h4]
      exact hnext _
    · simp only [if_neg h4]; rfl
  · rfl
  · exact hnext s2

/-- The step budget of `compile_script` never runs out. -/
theorem compile_script_finished (s0 : CompilerState) (lines : List CStr) (lc i e : Nat) :
    (compile_script s0 lines lc i e).finished = true := by
  have hgas : ∀ (g : Nat) (s : CompilerState) (i1 e1 : Nat), Tako.gas_bound lc i1 e1 ≤ g →
      (compile_script_gas lines lc g s i1 e1).finished = true := by
    intro g
    induction g with
    | zero =>
      intro s i1 e1 hb
      simp only [Tako.gas_bound] at hb; omega
    | succ n ih =>
      intro s i1 e1 hb
      simp only [compile_script_gas]
      by_cases hie : i1 < e1
      · rw [if_pos hie]
        apply compile_script_iter_finished _ s lines lc i1 e1 hie
        intro s1 i2 e2 hb2
        exact ih s1 i2 e2 (by omega)
      · rw [if_neg hie]; rfl
  exact hgas _ s0 i e (le_refl _)

end Compiler

/-! ## The pre-pass over the print texts -/

theorem digitChar_isdigit : ∀ k, k < 10 → isdigit (Nat.digitChar k) = true := by
  decide

theorem toDigitsCore_isdigit (fuel : Nat) :
    ∀ (n : Nat) (ds : CStr), (∀ c ∈ ds, isdigit c = true) →
      ∀ c ∈ Nat.toDigitsCore 10 fuel n ds, isdigit c = true := by
  induction fuel with
  | zero => intro n ds h c hc; exact h c (by simpa [Nat.toDigitsCore] using hc)
  | succ fuel ih =>
    intro n ds h c hc
    have hd := digitChar_isdigit (n % 10) (Nat.mod_lt _ (by decide))
    have hds : ∀ x ∈ Nat.digitChar (n % 10) :: ds, isdigit x = true := by
      intro x hx
      rcases List.mem_cons.1 hx with e | e
      · rw [e]; exact hd
      · exact h x e
    simp only [Nat.toDigitsCore] at hc
    by_cases h0 : n / 10 = 0
    · simp only [h0, if_true] at hc
      exact hds c hc
    · simp only [h0, if_false] at hc
      exact ih (n / 10) _ hds c hc

/-- The decimal text of a number consists of digits. -/
theorem fmt_nat_isdigit (n : Nat) : ∀ c ∈ Tako.fmt_nat n, isdigit c = true := by
  unfold Tako.fmt_nat Nat.toDigits
  exact toDigitsCore_isdigit _ n [] (fun c hc => by cases hc)

/-- A label `str<k>` has neither a blank nor a newline in it and begins with
`s`. -/
theorem string_label_chars (k : Nat) :
    (∀ c ∈ string_label k, c ≠ ' ' ∧ c ≠ '\n') ∧ ∃ rest, string_label k = 's' :: rest := by
  refine ⟨?_, _, rfl⟩
  intro c hc
  unfold string_label at hc
  rcases List.mem_append.1 hc with h | h
  · simp only [List.mem_cons, List.mem_singleton, List.not_mem_nil, or_false] at h
    rcases h with h | h | h <;> subst h <;> decide
  · have hd := fmt_nat_isdigit k c h
    constructor
    · intro e; subst e; revert hd; decide
    · intro e; subst e; revert hd; decide

/-- In a table with labels in order, every label is a `str<k>`. -/
theorem labels_in_order_mem (k0 : Nat) (strings : List Compiler.StringSymbol)
    (h : labels_in_order k0 strings) :
    ∀ l ∈ strings.map Compiler.StringSymbol.label, ∃ k, l = string_label k := by
  intro l hl
  rw [h] at hl
  obtain ⟨k, _, hk⟩ := List.mem_map.1 hl
  exact ⟨k, hk.symm⟩

namespace Compiler

theorem isPrefixOf_append (p s : CStr) : p.isPrefixOf (p ++ s) = true := by
  induction p with
  | nil => simp [List.isPrefixOf]
  | cons c cs ih => simp [List.isPrefixOf, ih]

/-- The operand of a text that is written as `pre`, an operand without the
`stop` character, and a `post` that begins with it. -/
theorem operand_between_eq (pre post operand rest : CStr) (stop : Char)
    (hop : ∀ c ∈ operand, c ≠ stop) :
    operand_between pre stop (stop :: post) (pre ++ operand ++ stop :: post ++ rest)
      = some operand := by
  have h1 : pre.isPrefixOf (pre ++ operand ++ stop :: post ++ rest) = true := by
    have := isPrefixOf_append pre (operand ++ stop :: post ++ rest)
    simpa only [List.append_assoc] using this
  have h2 : (pre ++ operand ++ stop :: post ++ rest).drop pre.length
      = operand ++ stop :: (post ++ rest) := by
    simp
  have h3 := takeWhile_until stop operand (post ++ rest) hop
  have h4 : (stop :: post).isPrefixOf
      ((operand ++ stop :: (post ++ rest)).drop operand.length) = true := by
    rw [List.drop_left]
    exact isPrefixOf_append (stop :: post) rest
  unfold operand_between
  simp only [h1, if_true, h2, h3, h4]

end Compiler

namespace Compiler

theorem refs_in_append (labels : List CStr) (a b : List Asm) (ha : refs_in labels a)
    (hb : refs_in labels b) : refs_in labels (a ++ b) := by
  intro x hx l hl
  rcases List.mem_append.1 hx with h | h
  · exact ha x h l hl
  · exact hb x h l hl

theorem refs_in_none (labels : List CStr) (out : List Asm)
    (h : ∀ a ∈ out, string_ref a = none) : refs_in labels out := by
  intro a ha l hl
  rw [h a ha] at hl
  cases hl

theorem keeps_table_emit (table : List StringSymbol) (s : CompilerState) (pieces : List Asm)
    (hs : keeps_table table s) (hp : refs_in (table.map StringSymbol.label) pieces) :
    keeps_table table (emit s pieces) :=
  ⟨hs.1, refs_in_append _ _ _ hs.2 hp⟩

theorem keeps_table_of_eq (table : List StringSymbol) (s s1 : CompilerState)
    (hs : keeps_table table s) (h1 : s1.outfile = s.outfile) (h2 : s1.strings = s.strings) :
    keeps_table table s1 := by
  unfold keeps_table
  rw [h1, h2]
  exact hs

theorem holds_bind (Q : CompilerState → Prop) (F : Fault → Prop) (o : Outcome)
    (next : CompilerState → Outcome) (ho : o.holds Q F)
    (hnext : ∀ s, Q s → (next s).holds Q F) : (o.bind next).holds Q F := by
  cases o with
  | done s => exact hnext s ho
  | exit f => exact ho
  | unfinished => trivial

theorem get_var_offset_fault (state : CompilerState) (name : CStr) (f : Fault)
    (h : get_var_offset state name = .error f) : no_string_fault f := by
  unfold get_var_offset at h
  split at h
  · cases h
  · split at h
    · simp only [Except.error.injEq] at h
      rw [← h]
      intro hc
      cases hc
    · cases h

/-- The function `emit_load_value` keeps the string table and writes no
reference to a string. -/
theorem emit_load_value_keeps (table : List StringSymbol) (state : CompilerState) (v : CStr)
    (hs : keeps_table table state) :
    (Outcome.of_except (emit_load_value state v)).holds (keeps_table table) no_string_fault := by
  unfold emit_load_value
  split
  · exact keeps_table_emit _ _ _ hs (refs_in_none _ _ (fun a ha => by
      simp only [List.mem_singleton] at ha
      rw [ha]; rfl))
  · split
    · rename_i f heq
      exact get_var_offset_fault _ _ _ heq
    · rename_i offset state1 heq
      obtain ⟨g1, _, g3⟩ := get_var_offset_output _ _ _ _ heq
      exact keeps_table_emit _ _ _ (keeps_table_of_eq _ _ _ hs g1 g3)
        (refs_in_none _ _ (fun a ha => by
          simp only [List.mem_singleton] at ha
          rw [ha]; rfl))

theorem compile_update_keeps (table : List StringSymbol) (state : CompilerState)
    (mn arg1 arg2 : CStr) (hs : keeps_table table state)
    (hmn : ∀ t, string_ref (.text ("    ".toList ++ mn ++ " [vars + ".toList ++ t)) = none) :
    (Outcome.of_except (compile_update state mn arg1 arg2)).holds (keeps_table table)
      no_string_fault := by
  unfold compile_update
  split
  · rename_i f heq
    exact get_var_offset_fault _ _ _ heq
  · rename_i offset state1 heq
    obtain ⟨g1, _, g3⟩ := get_var_offset_output _ _ _ _ heq
    have h1 := emit_load_value_keeps table state1 arg2 (keeps_table_of_eq _ _ _ hs g1 g3)
    split
    · rename_i f heq2
      rw [heq2] at h1
      exact h1
    · rename_i state2 heq2
      rw [heq2] at h1
      refine keeps_table_emit _ _ _ h1 (refs_in_none _ _ (fun a ha => ?_))
      simp only [List.mem_singleton] at ha
      rw [ha]
      have := hmn (Tako.fmt_nat offset ++ "], rax\n".toList)
      simpa only [List.append_assoc] using this

end Compiler

/-! ## The two formats of a print text -/

/-- Running the directives `ds` and then `tail`: the strings `ds` assigns, and
the run of `tail` on the rest of the input if `ds` has matched to its end. -/
theorem sscanf_run_append (ds : List Directive) :
    ∀ input : CStr, ∃ (assigned : List CStr) (r : Option CStr), ∀ tail,
      sscanf_run (ds ++ tail) input
        = assigned ++ (match r with
          | none => []
          | some rest => sscanf_run tail rest) := by
  induction ds with
  | nil =>
    intro input
    exact ⟨[], some input, fun tail => by simp⟩
  | cons d ds ih =>
    intro input
    cases d with
    | lit c =>
      cases input with
      | nil => exact ⟨[], none, fun tail => by simp [sscanf_run]⟩
      | cons x rest =>
        by_cases hx : x = c
        · obtain ⟨as, r, h⟩ := ih rest
          exact ⟨as, r, fun tail => by simp [sscanf_run, hx, h tail]⟩
        · exact ⟨[], none, fun tail => by simp [sscanf_run, hx]⟩
    | space =>
      obtain ⟨as, r, h⟩ := ih (input.dropWhile isspace)
      exact ⟨as, r, fun tail => by simp only [List.cons_append, sscanf_run, List.append_eq, h tail]⟩
    | str width assign =>
      by_cases ht : scan_token width input = []
      · exact ⟨[], none, fun tail => by simp [sscanf_run, ht]⟩
      · obtain ⟨as, r, h⟩ := ih ((input.dropWhile isspace).drop (scan_token width input).length)
        exact ⟨(if assign then [scan_token width input] else []) ++ as, r, fun tail => by
          simp only [List.cons_append, sscanf_run, List.append_eq, ht, if_false, h tail,
            List.append_assoc]⟩
    | not_set c =>
      by_cases ht : input.takeWhile (fun x => x != c) = []
      · exact ⟨[], none, fun tail => by simp [sscanf_run, ht]⟩
      · obtain ⟨as, r, h⟩ := ih (input.drop (input.takeWhile (fun x => x != c)).length)
        exact ⟨input.takeWhile (fun x => x != c) :: as, r, fun tail => by
          simp only [List.cons_append, sscanf_run, List.append_eq, ht, if_false, h tail,
            List.cons_append]⟩

theorem format_print_text_skip :
    parse_format "print \"%[^\"]\" %*s".toList
      = [.lit 'p', .lit 'r', .lit 'i', .lit 'n', .lit 't', .space, .lit '"', .not_set '"',
          .lit '"', .space, .str none false] := by decide

theorem sscanf_run_quote (input : CStr) : sscanf_run [.lit '"'] input = [] := by
  cases input with
  | nil => rfl
  | cons x rest =>
    by_cases hx : x = '"'
    · simp [sscanf_run, hx]
    · simp [sscanf_run, hx]

theorem sscanf_run_quote_skip (input : CStr) :
    sscanf_run [.lit '"', .space, .str none false] input = [] := by
  cases input with
  | nil => rfl
  | cons x rest =>
    by_cases hx : x = '"'
    · simp [sscanf_run, hx]
    · simp [sscanf_run, hx]

theorem sscanf_run_quote_value (input : CStr) :
    (sscanf_run [.lit '"', .space, .str none true] input).length ≤ 1 := by
  cases input with
  | nil => simp [sscanf_run]
  | cons x rest =>
    by_cases hx : x = '"'
    · simp only [sscanf_run, hx, if_true]
      split <;> simp
    · simp [sscanf_run, hx]

/-- The three formats that read a print text assign the same text: what the
format without a value assigns is the first assignment of the format with a
value, and the format that skips a value assigns what the format without a
value does. -/
theorem sscanf_print_text_formats (line : CStr) :
    (sscanf line "print \"%[^\"]\" %*s" = sscanf line "print \"%[^\"]\"") ∧
    (sscanf line "print \"%[^\"]\"").length ≤ 1 ∧
    (∀ a b, sscanf line "print \"%[^\"]\" %s" = [a, b] → sscanf line "print \"%[^\"]\"" = [a]) := by
  obtain ⟨as, r, h⟩ := sscanf_run_append
    [.lit 'p', .lit 'r', .lit 'i', .lit 'n', .lit 't', .space, .lit '"', .not_set '"'] line
  have h5 : sscanf line "print \"%[^\"]\"" = as := by
    unfold sscanf
    rw [format_print_text]
    have := h [.lit '"']
    simp only [List.cons_append, List.nil_append] at this
    rw [this]
    cases r <;> simp [sscanf_run_quote]
  have hs : sscanf line "print \"%[^\"]\" %*s" = as := by
    unfold sscanf
    rw [format_print_text_skip]
    have := h [.lit '"', .space, .str none false]
    simp only [List.cons_append, List.nil_append] at this
    rw [this]
    cases r <;> simp [sscanf_run_quote_skip]
  have h4 : ∃ x : List CStr, x.length ≤ 1 ∧ sscanf line "print \"%[^\"]\" %s" = as ++ x := by
    unfold sscanf
    rw [format_print_text_value]
    have := h [.lit '"', .space, .str none true]
    simp only [List.cons_append, List.nil_append] at this
    rw [this]
    cases r with
    | none => exact ⟨[], by simp, rfl⟩
    | some rest => exact ⟨_, sscanf_run_quote_value rest, rfl⟩
  have hlen : as.length ≤ 1 := by
    -- the directives up to the text have one conversion
    have h0 := h []
    simp only [List.append_nil] at h0
    have hcut : (sscanf_run [.lit 'p', .lit 'r', .lit 'i', .lit 'n', .lit 't', .space, .lit '"',
        .not_set '"'] line).length ≤ 1 := by
      generalize line = input
      have step : ∀ (c : Char) (ds : List Directive) (inp : CStr),
          (∀ i2, (sscanf_run ds i2).length ≤ 1) → (sscanf_run (.lit c :: ds) inp).length ≤ 1 := by
        intro c ds inp hds
        cases inp with
        | nil => simp [sscanf_run]
        | cons x rest =>
          by_cases hx : x = c
          · simp only [sscanf_run, hx, if_true]; exact hds rest
          · simp [sscanf_run, hx]
      have hset : ∀ i2, (sscanf_run [.not_set '"'] i2).length ≤ 1 := by
        intro i2
        simp only [sscanf_run]
        split <;> simp
      have hq : ∀ i2, (sscanf_run [.lit '"', .not_set '"'] i2).length ≤ 1 :=
        fun i2 => step _ _ i2 hset
      have hsp : ∀ i2, (sscanf_run [.space, .lit '"', .not_set '"'] i2).length ≤ 1 := by
        intro i2
        simp only [sscanf_run]
        exact hq _
      exact step _ _ _ (fun i2 => step _ _ _ (fun i3 => step _ _ _ (fun i4 => step _ _ _
        (fun i5 => step _ _ _ hsp))))
    rw [h0] at hcut
    simp only [List.length_append] at hcut
    omega
  refine ⟨by rw [hs, h5], by rw [h5]; exact hlen, ?_⟩
  intro a b hab
  obtain ⟨x, hx, hxe⟩ := h4
  rw [hxe] at hab
  rw [h5]
  rcases as with _ | ⟨a1, _ | ⟨a2, as⟩⟩
  · simp only [List.nil_append] at hab
    rw [hab] at hx
    simp at hx
  · simp only [List.cons_append, List.nil_append, List.cons.injEq] at hab
    rw [hab.1]
  · simp at hlen

namespace Compiler

/-- The search loop of `get_string_label` finds every text of the table, with
a label of the table. -/
theorem get_string_label_loop_found (str : CStr) (strings : List StringSymbol)
    (h : str ∈ strings.map StringSymbol.value) :
    ∃ label, get_string_label_loop str strings = some label ∧
      label ∈ strings.map StringSymbol.label := by
  induction strings with
  | nil => cases h
  | cons x xs ih =>
    by_cases hx : x.value = str
    · exact ⟨x.label, by simp [get_string_label_loop, strcmp_eq, hx], by simp⟩
    · have hm : str ∈ xs.map StringSymbol.value := by
        simp only [List.map_cons, List.mem_cons] at h
        rcases h with h | h
        · exact absurd h.symm hx
        · exact h
      obtain ⟨l, h1, h2⟩ := ih hm
      exact ⟨l, by simp [get_string_label_loop, strcmp_eq, hx, h1],
        by simp only [List.map_cons, List.mem_cons]; exact Or.inr h2⟩

/-- A call of `get_string_label` with a text of the table returns a label of
the table and leaves the state as it is. -/
theorem get_string_label_found (state : CompilerState) (str : CStr)
    (h : str ∈ state.strings.map StringSymbol.value) :
    ∃ label, get_string_label state str = .ok (label, state) ∧
      label ∈ state.strings.map StringSymbol.label := by
  obtain ⟨l, h1, h2⟩ := get_string_label_loop_found str state.strings h
  exact ⟨l, by unfold get_string_label; rw [h1], h2⟩

/-- The text that `compile_script` writes for a print text refers to the label
it loads. -/
theorem string_ref_print (label rest : CStr) (hl : ∀ c ∈ label, c ≠ '\n') :
    string_ref (.text ("    mov rdi, ".toList ++ label
      ++ ('\n' :: "    call print_string\n".toList ++ rest))) = some label := by
  have := operand_between_eq "    mov rdi, ".toList "    call print_string\n".toList label rest
    '\n' hl
  unfold string_ref
  rw [← this]
  simp only [List.append_assoc]
  rfl

/-- A statement without a block keeps the string table when the text of the
line is in it, and refers to labels of the table only. -/
theorem compile_simple_keeps (table : List StringSymbol) (state : CompilerState) (line : CStr)
    (r : Except Fault CompilerState)
    (hlabels : ∀ l ∈ table.map StringSymbol.label, ∃ k, l = string_label k)
    (htext : ∀ t, sscanf line "print \"%[^\"]\"" = [t] → t ∈ table.map StringSymbol.value)
    (hs : keeps_table table state) (h : compile_simple state line = some r) :
    (Outcome.of_except r).holds (keeps_table table) no_string_fault := by
  have hfound : ∀ t, sscanf line "print \"%[^\"]\"" = [t] →
      ∃ label, get_string_label state t = .ok (label, state) ∧
        label ∈ table.map StringSymbol.label ∧ ∀ c ∈ label, c ≠ '\n' := by
    intro t ht
    have hm := htext t ht
    rw [← hs.1] at hm
    obtain ⟨l, h1, h2⟩ := get_string_label_found state t hm
    rw [hs.1] at h2
    obtain ⟨k, hk⟩ := hlabels l h2
    exact ⟨l, h1, h2, fun c hc => ((string_label_chars k).1 c (hk ▸ hc)).2⟩
  unfold compile_simple at h
  split at h
  · simp only [Option.some.injEq] at h
    rw [← h]
    exact compile_update_keeps _ _ _ _ _ hs (fun t => rfl)
  split at h
  · simp only [Option.some.injEq] at h
    rw [← h]
    exact compile_update_keeps _ _ _ _ _ hs (fun t => rfl)
  split at h
  · simp only [Option.some.injEq] at h
    rw [← h]
    exact compile_update_keeps _ _ _ _ _ hs (fun t => rfl)
  split at h
  · rename_i arg1 arg2 heq
    obtain ⟨label, g1, g2, g3⟩ :=
      hfound arg1 ((sscanf_print_text_formats line).2.2 arg1 arg2 heq)
    simp only [Option.some.injEq, g1] at h
    have hk1 : keeps_table table (emit state [.text ("    mov rdi, ".toList ++ label
        ++ "\n    call print_string\n    mov rdi, ' '\n    call print_char\n".toList)]) := by
      refine keeps_table_emit _ _ _ hs ?_
      intro a ha l hl
      simp only [List.mem_singleton] at ha
      rw [ha] at hl
      have := string_ref_print label "    mov rdi, ' '\n    call print_char\n".toList g3
      have e : ("    mov rdi, ".toList ++ label
          ++ "\n    call print_string\n    mov rdi, ' '\n    call print_char\n".toList)
          = ("    mov rdi, ".toList ++ label ++ ('\n' :: "    call print_string\n".toList
              ++ "    mov rdi, ' '\n    call print_char\n".toList)) := rfl
      rw [e, this] at hl
      simp only [Option.some.injEq] at hl
      rw [← hl]
      exact g2
    have h2 := emit_load_value_keeps table _ arg2 hk1
    rw [← h]
    split
    · rename_i f heq2
      rw [heq2] at h2
      exact h2
    · rename_i state2 heq2
      rw [heq2] at h2
      exact keeps_table_emit _ _ _ h2 (refs_in_none _ _ (fun a ha => by
        simp only [List.mem_singleton] at ha
        rw [ha]; rfl))
  split at h
  · rename_i arg1 heq
    obtain ⟨label, g1, g2, g3⟩ := hfound arg1 heq
    simp only [Option.some.injEq, g1] at h
    rw [← h]
    refine keeps_table_emit _ _ _ hs ?_
    intro a ha l hl
    simp only [List.mem_singleton] at ha
    rw [ha] at hl
    have := string_ref_print label "    call print_newline\n".toList g3
    have e : ("    mov rdi, ".toList ++ label
        ++ "\n    call print_string\n    call print_newline\n".toList)
        = ("    mov rdi, ".toList ++ label ++ ('\n' :: "    call print_string\n".toList
            ++ "    call print_newline\n".toList)) := rfl
    rw [e, this] at hl
    simp only [Option.some.injEq] at hl
    rw [← hl]
    exact g2
  split at h
  · rename_i arg1 heq
    simp only [Option.some.injEq] at h
    have h2 := emit_load_value_keeps table state arg1 hs
    rw [← h]
    split
    · rename_i f heq2
      rw [heq2] at h2
      exact h2
    · rename_i state2 heq2
      rw [heq2] at h2
      exact keeps_table_emit _ _ _ h2 (refs_in_none _ _ (fun a ha => by
        simp only [List.mem_singleton] at ha
        rw [ha]; rfl))
  · cases h

end Compiler

namespace Compiler

theorem new_label_keeps (table : List StringSymbol) (state : CompilerState)
    (hs : keeps_table table state) (n : Nat) :
    keeps_table table { state with label_count := n } :=
  hs

theorem compile_loop_keeps (table : List StringSymbol)
    (self : CompilerState → Nat → Nat → Outcome)
    (hself : ∀ s i e, keeps_table table s →
      (self s i e).holds (keeps_table table) no_string_fault)
    (state : CompilerState) (lines : List CStr) (lc i e : Nat) (line : CStr)
    (hs : keeps_table table state) :
    (compile_loop self state lines lc i e line).holds (keeps_table table) no_string_fault := by
  unfold compile_loop
  simp only [new_label]
  have h1 := emit_load_value_keeps table
    { state with label_count := state.label_count + 1 + 1 } (line.drop 5)
    (new_label_keeps table state hs _)
  split
  · rename_i f heq
    rw [heq] at h1
    exact h1
  · rename_i state3 heq
    rw [heq] at h1
    by_cases hb : find_matching_end lines lc (i + 1) = -1
    · simp only [if_pos hb]
      intro hc
      cases hc
    · simp only [if_neg hb]
      apply holds_bind
      · exact hself _ _ _ (keeps_table_emit _ _ _ h1 (refs_in_none _ _ (fun a ha => by
          simp only [List.mem_cons, List.mem_singleton, List.not_mem_nil, or_false] at ha
          rcases ha with ha | ha | ha | ha <;> rw [ha] <;> rfl)))
      · intro s5 h5
        exact hself _ _ _ (keeps_table_emit _ _ _ h5 (refs_in_none _ _ (fun a ha => by
          simp only [List.mem_cons, List.mem_singleton, List.not_mem_nil, or_false] at ha
          rcases ha with ha | ha | ha <;> rw [ha] <;> rfl)))

theorem compile_if_keeps (table : List StringSymbol)
    (self : CompilerState → Nat → Nat → Outcome)
    (hself : ∀ s i e, keeps_table table s →
      (self s i e).holds (keeps_table table) no_string_fault)
    (state : CompilerState) (lines : List CStr) (lc i e : Nat) (line : CStr)
    (hs : keeps_table table state) :
    (compile_if self state lines lc i e line).holds (keeps_table table) no_string_fault := by
  unfold compile_if
  split
  swap
  · intro hc
    cases hc
  rename_i arg1 op arg2 _
  simp only [new_label]
  have h1 := emit_load_value_keeps table
    { state with label_count := state.label_count + 1 } arg1 (new_label_keeps table state hs _)
  split
  · rename_i f heq
    rw [heq] at h1
    exact h1
  · rename_i state2 heq
    rw [heq] at h1
    have h2 := emit_load_value_keeps table (emit state2 [.text "    push rax\n".toList]) arg2
      (keeps_table_emit _ _ _ h1 (refs_in_none _ _ (fun a ha => by
        simp only [List.mem_singleton] at ha
        rw [ha]; rfl)))
    split
    · rename_i f heq2
      rw [heq2] at h2
      exact h2
    · rename_i state3 heq2
      rw [heq2] at h2
      have h3 : keeps_table table
          (emit state3 [.text "    pop rbx\n    cmp rbx, rax\n".toList]) :=
        keeps_table_emit _ _ _ h2 (refs_in_none _ _ (fun a ha => by
          simp only [List.mem_singleton] at ha
          rw [ha]; rfl))
      split
      · intro hc
        cases hc
      · rename_i mn _
        by_cases hb : find_matching_end lines lc (i + 1) = -1
        · simp only [if_pos hb]
          intro hc
          cases hc
        · simp only [if_neg hb]
          apply holds_bind
          · exact hself _ _ _ (keeps_table_emit _ _ _ h3 (refs_in_none _ _ (fun a ha => by
              simp only [List.mem_singleton] at ha
              rw [ha]; rfl)))
          · intro s6 h6
            exact hself _ _ _ (keeps_table_emit _ _ _ h6 (refs_in_none _ _ (fun a ha => by
              simp only [List.mem_singleton] at ha
              rw [ha]; rfl)))

theorem compile_script_iter_keeps (table : List StringSymbol)
    (self : CompilerState → Nat → Nat → Outcome)
    (hself : ∀ s i e, keeps_table table s →
      (self s i e).holds (keeps_table table) no_string_fault)
    (state : CompilerState) (lines : List CStr) (lc i e : Nat)
    (hlabels : ∀ l ∈ table.map StringSymbol.label, ∃ k, l = string_label k)
    (htext : ∀ j t, sscanf (clean_line lines j) "print \"%[^\"]\"" = [t] →
      t ∈ table.map StringSymbol.value)
    (hs : keeps_table table state) :
    (compile_script_iter self state lines lc i e).holds (keeps_table table)
      no_string_fault := by
  unfold compile_script_iter
  simp only []
  by_cases h1 : (clean_line lines i).head? = none ∨ (clean_line lines i).head? = some '#'
  · simp only [if_pos h1]
    exact hself _ _ _ hs
  simp only [if_neg h1]
  have hs1 : keeps_table table (emit state [.line_comment (i + 1) (clean_line lines i)]) :=
    keeps_table_emit _ _ _ hs (refs_in_none _ _ (fun a ha => by
      simp only [List.mem_singleton] at ha
      rw [ha]; rfl))
  cases hcs : compile_simple (emit state [.line_comment (i + 1) (clean_line lines i)])
      (clean_line lines i) with
  | some r =>
    have hr := compile_simple_keeps table _ _ r hlabels (htext i) hs1 hcs
    cases r with
    | error f => exact hr
    | ok s2 => exact hself _ _ _ hr
  | none =>
    simp only []
    by_cases h2 : strncmp_eq (clean_line lines i) ['l', 'o', 'o', 'p', ' '] 5 = true
    · simp only [if_pos h2]
      exact compile_loop_keeps table self hself _ lines lc i e _ hs1
    simp only [if_neg h2]
    by_cases h3 : strncmp_eq (clean_line lines i) ['i', 'f', ' '] 3 = true
    · simp only [if_pos h3]
      exact compile_if_keeps table self hself _ lines lc i e _ hs1
    simp only [if_neg h3]
    by_cases h4 : strcmp_eq (clean_line lines i) ['e', 'n', 'd'] = true
    · simp only [if_pos h4]
      exact hself _ _ _ hs1
    · simp only [if_neg h4]
      intro hc
      cases hc

/-- When every print text of the script is in the string table, a run of
`compile_script` keeps the table as it is, refers to labels of the table only
and never stops for a full string table. -/
theorem compile_script_keeps (table : List StringSymbol) (state : CompilerState)
    (lines : List CStr) (lc i e : Nat)
    (hlabels : ∀ l ∈ table.map StringSymbol.label, ∃ k, l = string_label k)
    (htext : ∀ j t, sscanf (clean_line lines j) "print \"%[^\"]\"" = [t] →
      t ∈ table.map StringSymbol.value)
    (hs : keeps_table table state) :
    (compile_script state lines lc i e).holds (keeps_table table) no_string_fault := by
  have hgas : ∀ (g : Nat) (s : CompilerState) (i1 e1 : Nat), keeps_table table s →
      (compile_script_gas lines lc g s i1 e1).holds (keeps_table table) no_string_fault := by
    intro g
    induction g with
    | zero => intro s i1 e1 _; trivial
    | succ n ih =>
      intro s i1 e1 h1
      simp only [compile_script_gas]
      by_cases hie : i1 < e1
      · rw [if_pos hie]
        exact compile_script_iter_keeps table _ (fun s2 i2 e2 h2 => ih s2 i2 e2 h2) s lines lc
          i1 e1 hlabels htext h1
      · rw [if_neg hie]
        exact h1
  exact hgas _ state i e hs

end Compiler

namespace Compiler

/-- Loop invariant of the pre-pass: the labels of the table stay in order, and
the text of every line visited is in the table. -/
theorem prepass_loop_spec (lines : List CStr) (lc : Nat)
    (hshort : ∀ j t, sscanf (prepass_line lines j) "print \"%[^\"]\"" = [t] →
      t.length < MAX_ARG_LEN) :
    ∀ (fuel i : Nat) (s s0 : CompilerState), fuel = lc - i →
      labels_in_order 0 s.strings →
      (∀ j t, j < i → sscanf (prepass_line lines j) "print \"%[^\"]\"" = [t] →
        t ∈ s.strings.map StringSymbol.value) →
      prepass_loop lines lc fuel i s = .ok s0 →
      labels_in_order 0 s0.strings ∧
      ∀ j t, j < lc → sscanf (prepass_line lines j) "print \"%[^\"]\"" = [t] →
        t ∈ s0.strings.map StringSymbol.value := by
  intro fuel
  induction fuel with
  | zero =>
    intro i s s0 hf hwf hcov h
    simp only [prepass_loop, Except.ok.injEq] at h
    rw [← h]
    exact ⟨hwf, fun j t hj => hcov j t (by omega)⟩
  | succ fuel ih =>
    intro i s s0 hf hwf hcov h
    have hi : i < lc := by omega
    have hf2 : fuel = lc - (i + 1) := by omega
    rw [prepass_loop, if_pos hi] at h
    simp only [(sscanf_print_text_formats (prepass_line lines i)).1] at h
    have hlen := (sscanf_print_text_formats (prepass_line lines i)).2.1
    have hcall : ∀ t, sscanf (prepass_line lines i) "print \"%[^\"]\"" = [t] →
        (match get_string_label s t with
          | .error f => Except.error f
          | .ok (_, state1) => prepass_loop lines lc fuel (i + 1) state1) = Except.ok s0 →
        labels_in_order 0 s0.strings ∧
        ∀ j t, j < lc → sscanf (prepass_line lines j) "print \"%[^\"]\"" = [t] →
          t ∈ s0.strings.map StringSymbol.value := by
      intro t ht hrun
      cases hg : get_string_label s t with
      | error f => rw [hg] at hrun; cases hrun
      | ok r =>
        obtain ⟨l, s1⟩ := r
        rw [hg] at hrun
        simp only [] at hrun
        obtain ⟨g1, g2, _⟩ := get_string_label_short s s1 t l (hshort i t ht) hwf hg
        refine ih (i + 1) s1 s0 hf2 g2 ?_ hrun
        intro j t2 hj ht2
        rw [g1]
        by_cases hji : j = i
        · subst hji
          rw [ht] at ht2
          simp only [List.cons.injEq, and_true] at ht2
          subst ht2
          by_cases hm : t ∈ s.strings.map StringSymbol.value
          · rw [if_pos hm]; exact hm
          · rw [if_neg hm]; simp
        · have := hcov j t2 (by omega) ht2
          by_cases hm : t ∈ s.strings.map StringSymbol.value
          · rw [if_pos hm]; exact this
          · rw [if_neg hm]; exact List.mem_append_left _ this
    cases hsc : sscanf (prepass_line lines i) "print \"%[^\"]\"" with
    | nil =>
      rw [hsc] at h
      simp only [] at h
      refine ih (i + 1) s s0 hf2 hwf ?_ h
      intro j t2 hj ht2
      by_cases hji : j = i
      · subst hji
        rw [hsc] at ht2
        cases ht2
      · exact hcov j t2 (by omega) ht2
    | cons t rest =>
      cases rest with
      | nil =>
        rw [hsc] at h
        simp only [] at h
        exact hcall t hsc h
      | cons t2 rest2 =>
        rw [hsc] at hlen
        simp at hlen

/-- After the pre-pass of `main` over a script whose print texts are shorter
than `MAX_ARG_LEN`, the labels of the string table are `str0`, `str1`, ... and
the text of every line is in the table. -/
theorem prepass_spec (lines : List CStr) (s0 : CompilerState)
    (hshort : ∀ j t, sscanf (prepass_line lines j) "print \"%[^\"]\"" = [t] →
      t.length < MAX_ARG_LEN)
    (h : prepass CompilerState.empty lines lines.length = .ok s0) :
    labels_in_order 0 s0.strings ∧
    ∀ j t, sscanf (prepass_line lines j) "print \"%[^\"]\"" = [t] →
      t ∈ s0.strings.map StringSymbol.value := by
  obtain ⟨h1, h2⟩ := prepass_loop_spec lines lines.length hshort lines.length 0
    CompilerState.empty s0 (by omega)
    (by simp [labels_in_order, CompilerState.empty]) (fun j t hj => by omega) h
  refine ⟨h1, ?_⟩
  intro j t ht
  by_cases hj : j < lines.length
  · exact h2 j t hj ht
  · have hline : prepass_line lines j = [] := by
      unfold prepass_line
      rw [List.getD_eq_default lines [] (by omega)]
      rfl
    rw [hline] at ht
    have hnil : sscanf [] "print \"%[^\"]\"" = [] := by decide
    rw [hnil] at ht
    cases ht

/-- A line that fits its buffer is the same line for the pre-pass and for
`compile_script`. -/
theorem prepass_line_short (lines : List CStr) (hlines : ∀ l ∈ lines, l.length < MAX_LINE_LEN)
    (i : Nat) :
    prepass_line lines i = trim_leading (lines.getD i []) ∧
    clean_line lines i = trim_leading (lines.getD i []) := by
  have hlen : (lines.getD i []).length ≤ MAX_LINE_LEN - 1 := by
    by_cases h : i < lines.length
    · have hm : lines.getD i [] ∈ lines := by
        rw [List.getD_eq_getElem lines [] h]
        exact List.getElem_mem h
      have := hlines _ hm
      omega
    · rw [List.getD_eq_default lines [] (by omega)]
      simp
  unfold prepass_line clean_line strncpy
  rw [List.take_of_length_le hlen, List.take_of_length_le (by omega)]
  exact ⟨rfl, rfl⟩

end Compiler

namespace Compiler

theorem prepass_loop_output (lines : List CStr) (lc : Nat) :
    ∀ (fuel i : Nat) (s s0 : CompilerState), prepass_loop lines lc fuel i s = .ok s0 →
      s0.outfile = s.outfile := by
  intro fuel
  induction fuel with
  | zero =>
    intro i s s0 h
    simp only [prepass_loop, Except.ok.injEq] at h
    rw [h]
  | succ fuel ih =>
    intro i s s0 h
    rw [prepass_loop] at h
    have hcall : ∀ t,
        (match get_string_label s t with
          | .error f => Except.error f
          | .ok (_, state1) => prepass_loop lines lc fuel (i + 1) state1) = Except.ok s0 →
        s0.outfile = s.outfile := by
      intro t hrun
      cases hg : get_string_label s t with
      | error f => rw [hg] at hrun; cases hrun
      | ok r =>
        obtain ⟨l, s1⟩ := r
        rw [hg] at hrun
        simp only [] at hrun
        rw [ih _ _ _ hrun, (get_string_label_output _ _ _ _ hg).1]
    split at h
    · simp only [] at h
      split at h
      · exact hcall _ h
      · split at h
        · exact hcall _ h
        · exact ih _ _ _ h
    · simp only [Except.ok.injEq] at h
      rw [h]

/-- The data line of an entry with a label `str<k>` defines that label and
refers to no string. -/
theorem data_line_label (sym : StringSymbol) (k : Nat) (hk : sym.label = string_label k) :
    string_def (data_line sym) = some sym.label ∧ string_ref (data_line sym) = none := by
  constructor
  · have := operand_between_eq "    ".toList "db \"".toList sym.label
      (sym.value ++ "\", 0\n".toList) ' '
      (fun c hc => ((string_label_chars k).1 c (hk ▸ hc)).1)
    unfold string_def data_line
    rw [← this]
    simp only [List.append_assoc]
    rfl
  · obtain ⟨rest, hr⟩ := (string_label_chars k).2
    unfold data_line
    rw [hk, hr]
    rfl

/-- The data section of `emit_prologue` defines the labels of the string
table, in the order of the table. -/
theorem string_defs_prologue (state : CompilerState)
    (hlabels : ∀ l ∈ state.strings.map StringSymbol.label, ∃ k, l = string_label k) :
    string_defs (emit_prologue state).outfile
      = string_defs state.outfile ++ state.strings.map StringSymbol.label := by
  have hmid : ∀ strings : List StringSymbol,
      (∀ l ∈ strings.map StringSymbol.label, ∃ k, l = string_label k) →
      List.filterMap string_def (strings.map data_line) = strings.map StringSymbol.label := by
    intro strings
    induction strings with
    | nil => intro _; rfl
    | cons x xs ih =>
      intro hl
      obtain ⟨k, hk⟩ := hl x.label (by simp)
      simp only [List.map_cons, List.filterMap_cons, (data_line_label x k hk).1]
      rw [ih (fun l h => hl l (by simp only [List.map_cons, List.mem_cons]; exact Or.inr h))]
  have h1 : List.filterMap string_def
      [Asm.text "section .data\n    minus_sign db '-', 0\n    newline db 10\n".toList] = [] := by
    rfl
  have h2 : List.filterMap string_def prologue_code = [] := by decide
  unfold emit_prologue emit string_defs
  simp only [List.filterMap_append, hmid state.strings hlabels, h1, h2, List.nil_append,
    List.append_nil]

/-- The prologue refers to no string of the table. -/
theorem emit_prologue_keeps (state : CompilerState)
    (hlabels : ∀ l ∈ state.strings.map StringSymbol.label, ∃ k, l = string_label k)
    (hout : state.outfile = []) :
    keeps_table state.strings (emit_prologue state) := by
  refine ⟨rfl, ?_⟩
  unfold emit_prologue emit
  simp only [hout, List.nil_append]
  refine refs_in_none _ _ ?_
  intro a ha
  rcases List.mem_append.1 ha with h | h
  · rcases List.mem_append.1 h with h | h
    · simp only [List.mem_singleton] at h
      rw [h]; rfl
    · obtain ⟨sym, hs, hsym⟩ := List.mem_map.1 h
      obtain ⟨k, hk⟩ := hlabels sym.label (List.mem_map.2 ⟨sym, hs, rfl⟩)
      rw [← hsym]
      exact (data_line_label sym k hk).2
  · have hall : ∀ x ∈ prologue_code, string_ref x = none := by decide
    exact hall a h

end Compiler

/-- C21: the pre-pass of `main` is complete.  For a script whose lines fit
their buffers and whose print texts are shorter than 128 characters, let `s0`
be the state after the pre-pass has run over all lines.  Then every call of
`get_string_label` that `compile_script` can make for a line, with the text of
either print form, finds the text and returns the state as it is; the run of
`compile_script` over the whole script from the state after `emit_prologue`
never runs out of steps, never stops for a full string table, and when it
returns, `strings` and `string_count` are those of `s0` and every string label
that the output refers to is defined in the data section written by
`emit_prologue`, which defines the labels of the table of `s0`; the same holds
for the assembly file that `main` leaves. -/
theorem prepass_complete (lines : List CStr) (s0 : Compiler.CompilerState)
    (hlines : ∀ l ∈ lines, l.length < Compiler.MAX_LINE_LEN)
    (htexts : ∀ l ∈ lines, ∀ t ∈ sscanf (Compiler.trim_leading l) "print \"%[^\"]\"",
      t.length < 128)
    (hpre : Compiler.prepass Compiler.CompilerState.empty lines lines.length = .ok s0) :
    (∀ (s : Compiler.CompilerState) (i : Nat) (t : CStr), s.strings = s0.strings →
      ((∃ v, sscanf (Compiler.clean_line lines i) "print \"%[^\"]\" %s" = [t, v]) ∨
        sscanf (Compiler.clean_line lines i) "print \"%[^\"]\"" = [t]) →
      ∃ label, Compiler.get_string_label s t = .ok (label, s) ∧
        label ∈ s0.strings.map Compiler.StringSymbol.label) ∧
    (match Compiler.compile_script (Compiler.emit_prologue s0) lines lines.length 0
        lines.length with
      | .done s2 =>
        s2.strings = s0.strings ∧ s2.string_count = s0.string_count ∧
        ∀ a ∈ s2.outfile, ∀ l, Compiler.string_ref a = some l →
          l ∈ Compiler.string_defs (Compiler.emit_prologue s0).outfile
      | .exit f => f ≠ .too_many_strings
      | .unfinished => False) ∧
    Compiler.string_defs (Compiler.emit_prologue s0).outfile
      = s0.strings.map Compiler.StringSymbol.label ∧
    (∀ s, Compiler.main lines = .done s →
      s.strings = s0.strings ∧
      ∀ a ∈ s.outfile, ∀ l, Compiler.string_ref a = some l →
        l ∈ Compiler.string_defs s.outfile) := by
  -- the texts the pre-pass reads are short
  have hshort : ∀ j t, sscanf (Compiler.prepass_line lines j) "print \"%[^\"]\"" = [t] →
      t.length < Compiler.MAX_ARG_LEN := by
    intro j t ht
    rw [(Compiler.prepass_line_short lines hlines j).1] at ht
    by_cases hj : j < lines.length
    · have hm : lines.getD j [] ∈ lines := by
        rw [List.getD_eq_getElem lines [] hj]
        exact List.getElem_mem hj
      exact htexts _ hm t (by rw [ht]; simp)
    · rw [List.getD_eq_default lines [] (by omega)] at ht
      have hnil : sscanf (Compiler.trim_leading []) "print \"%[^\"]\"" = [] := by decide
      rw [hnil] at ht
      cases ht
  obtain ⟨hwf, hcov⟩ := Compiler.prepass_spec lines s0 hshort hpre
  have hlabels := labels_in_order_mem 0 s0.strings hwf
  have hout : s0.outfile = [] := by
    have := Compiler.prepass_loop_output lines lines.length lines.length 0
      Compiler.CompilerState.empty s0 hpre
    rw [this]; rfl
  have htext : ∀ j t, sscanf (Compiler.clean_line lines j) "print \"%[^\"]\"" = [t] →
      t ∈ s0.strings.map Compiler.StringSymbol.value := by
    intro j t ht
    rw [(Compiler.prepass_line_short lines hlines j).2,
      ← (Compiler.prepass_line_short lines hlines j).1] at ht
    exact hcov j t ht
  have hdefs := Compiler.string_defs_prologue s0 hlabels
  rw [hout] at hdefs
  have hdefs2 : Compiler.string_defs (Compiler.emit_prologue s0).outfile
      = s0.strings.map Compiler.StringSymbol.label := by
    rw [hdefs]; rfl
  have hrun := Compiler.compile_script_keeps s0.strings (Compiler.emit_prologue s0) lines
    lines.length 0 lines.length hlabels htext (Compiler.emit_prologue_keeps s0 hlabels hout)
  have hfin := Compiler.compile_script_finished (Compiler.emit_prologue s0) lines
    lines.length 0 lines.length
  refine ⟨?_, ?_, hdefs2, ?_⟩
  · intro s i t hs ht
    have h5 : sscanf (Compiler.clean_line lines i) "print \"%[^\"]\"" = [t] := by
      rcases ht with ⟨v, hv⟩ | ht
      · exact (sscanf_print_text_formats _).2.2 t v hv
      · exact ht
    have hm := htext i t h5
    rw [← hs] at hm
    obtain ⟨label, g1, g2⟩ := Compiler.get_string_label_found s t hm
    exact ⟨label, g1, by rw [← hs]; exact g2⟩
  · cases hc : Compiler.compile_script (Compiler.emit_prologue s0) lines lines.length 0
        lines.length with
    | done s2 =>
      rw [hc] at hrun
      simp only []
      refine ⟨hrun.1, by simp only [Compiler.CompilerState.string_count, hrun.1], ?_⟩
      intro a ha l hl
      rw [hdefs2]
      exact hrun.2 a ha l hl
    | exit f =>
      rw [hc] at hrun
      exact hrun
    | unfinished =>
      rw [hc] at hfin
      cases hfin
  · intro s hs
    unfold Compiler.main at hs
    rw [hpre] at hs
    simp only [] at hs
    cases hc : Compiler.compile_script (Compiler.emit_prologue s0) lines lines.length 0
        lines.length with
    | done s2 =>
      rw [hc] at hs hrun
      simp only [Compiler.Outcome.bind, Compiler.Outcome.done.injEq] at hs
      obtain ⟨added, happ, _⟩ := Compiler.compile_script_labels _ _ _ _ _ _ hc
      rw [← hs]
      refine ⟨hrun.1, ?_⟩
      intro a ha l hl
      have hsub : ∀ x ∈ Compiler.string_defs (Compiler.emit_prologue s0).outfile,
          x ∈ Compiler.string_defs (Compiler.emit_epilogue s2).outfile := by
        intro x hx
        unfold Compiler.emit_epilogue Compiler.emit
        simp only [happ, Compiler.string_defs, List.filterMap_append, List.mem_append]
        exact Or.inl (Or.inl hx)
      apply hsub
      rw [hdefs2]
      simp only [Compiler.emit_epilogue, Compiler.emit, List.mem_append,
        List.mem_singleton] at ha
      rcases ha with ha | ha
      · exact hrun.2 a ha l hl
      · rw [ha] at hl
        cases hl
    | exit f =>
      rw [hc] at hs
      cases hs
    | unfinished =>
      rw [hc] at hs
      cases hs

theorem prepass_complete_witness :
    (∀ l ∈ Compiler.print_script, l.length < Compiler.MAX_LINE_LEN) ∧
    (∀ l ∈ Compiler.print_script,
      ∀ t ∈ sscanf (Compiler.trim_leading l) "print \"%[^\"]\"", t.length < 128) ∧
    Compiler.prepass Compiler.CompilerState.empty Compiler.print_script
        Compiler.print_script.length
      = .ok { Compiler.CompilerState.empty with
          strings := [⟨string_label 0, "x is".toList⟩, ⟨string_label 1, "done".toList⟩] } ∧
    Compiler.string_defs (Compiler.emit_prologue { Compiler.CompilerState.empty with
          strings := [⟨string_label 0, "x is".toList⟩, ⟨string_label 1, "done".toList⟩] }).outfile
      = List.map Compiler.StringSymbol.label
          [⟨string_label 0, "x is".toList⟩, ⟨string_label 1, "done".toList⟩] ∧
    (match Compiler.main Compiler.print_script with
      | .done s => (s.outfile.filterMap Compiler.string_ref, s.strings)
      | _ => ([], []))
      = ([string_label 0, string_label 1, string_label 0],
          [⟨string_label 0, "x is".toList⟩, ⟨string_label 1, "done".toList⟩]) :=
  ⟨by decide, by decide, by decide,
    (prepass_complete Compiler.print_script
      { Compiler.CompilerState.empty with
          strings := [⟨string_label 0, "x is".toList⟩, ⟨string_label 1, "done".toList⟩] }
      (by decide) (by decide) (by decide)).2.2.1,
    by decide⟩

namespace Tako

/-! ## The call tree of `run_script` -/

/-- A line that fits its buffer is not cut by the copy into `line_buffer`. -/
theorem clean_line_short (lines : List CStr) (hlines : ∀ l ∈ lines, l.length < MAX_LINE_LEN)
    (i : Nat) : clean_line lines i = trim_whitespace (lines.getD i []) := by
  have hlen : (lines.getD i []).length ≤ MAX_LINE_LEN - 1 := by
    by_cases h : i < lines.length
    · have hm : lines.getD i [] ∈ lines := by
        rw [List.getD_eq_getElem lines [] h]
        exact List.getElem_mem h
      have := hlines _ hm
      omega
    · rw [List.getD_eq_default lines [] (by omega)]
      simp
  unfold clean_line strncpy
  rw [List.take_of_length_le hlen]

/-- With a depth that is `d` higher, the search does not stop at the `end` that
closes the block: it goes on behind it with the depth `d`. -/
theorem find_matching_end_loop_shift (lines : List CStr) (lc : Nat) (b : Nat) :
    ∀ (fuel i : Nat) (d0 d : Int), fuel = lc - i → 1 ≤ d0 → 1 ≤ d →
      find_matching_end_loop lines lc fuel i d0 = (b : Int) →
      find_matching_end_loop lines lc fuel i (d0 + d)
        = find_matching_end_loop lines lc (lc - (b + 1)) (b + 1) d := by
  intro fuel
  induction fuel with
  | zero =>
    intro i d0 d _ _ _ h
    simp only [find_matching_end_loop] at h
    omega
  | succ fuel ih =>
    intro i d0 d hf hd0 hd h
    have hi : i < lc := by omega
    have hf2 : fuel = lc - (i + 1) := by omega
    rw [find_matching_end_loop, if_pos hi] at h ⊢
    by_cases hb : is_block_header (trim_whitespace (lines.getD i [])) = true
    · simp only [hb, if_true] at h ⊢
      have := ih (i + 1) (d0 + 1) d hf2 (by omega) hd h
      rw [← this]
      congr 1
      ring
    · have hb2 : is_block_header (trim_whitespace (lines.getD i [])) = false := by
        simpa using hb
      by_cases he : is_end (trim_whitespace (lines.getD i [])) = true
      · simp only [hb2, he, Bool.false_eq_true, if_true, if_false] at h ⊢
        by_cases hd1 : d0 - 1 = 0
        · rw [if_pos hd1] at h
          have hbi : b = i := by omega
          subst hbi
          have hd2 : d0 + d - 1 = d := by omega
          rw [if_neg (by omega), hd2, hf2]
        · rw [if_neg hd1] at h
          rw [if_neg (by omega)]
          have := ih (i + 1) (d0 - 1) d hf2 (by omega) hd h
          rw [← this]
          congr 1
          ring
      · have he2 : is_end (trim_whitespace (lines.getD i [])) = false := by
          simpa using he
        simp only [hb2, he2, Bool.false_eq_true, if_false] at h ⊢
        exact ih (i + 1) d0 d hf2 hd0 hd h

/-- The search from a block header finds what the search from behind the
block of that header finds. -/
theorem find_matching_end_past_block (lines : List CStr) (lc i : Nat)
    (hhdr : is_block_header (trim_whitespace (lines.getD i [])) = true)
    (hne : find_matching_end lines lc (i + 1) ≠ -1) :
    find_matching_end lines lc i
      = find_matching_end lines lc ((find_matching_end lines lc (i + 1)).toNat + 1) := by
  rcases find_matching_end_spec lines lc (i + 1) with ⟨hr, _⟩ | ⟨b, hr, h1, h2, _⟩
  · exact absurd hr hne
  · rw [hr]
    simp only [Int.toNat_ofNat]
    have hi : i < lc := by omega
    have hf : lc - i = (lc - (i + 1)) + 1 := by omega
    unfold find_matching_end at hr ⊢
    rw [hf, find_matching_end_loop, if_pos hi]
    simp only [hhdr, if_true]
    exact find_matching_end_loop_shift lines lc b (lc - (i + 1)) (i + 1) 1 1 rfl (le_refl _)
      (le_refl _) hr

/-- The search from a line that is no header and lies before the `end` found
finds the same `end` from the next line. -/
theorem find_matching_end_next (lines : List CStr) (lc i e : Nat)
    (h : find_matching_end lines lc i = (e : Int)) (hie : i < e)
    (hhdr : is_block_header (trim_whitespace (lines.getD i [])) = false) :
    find_matching_end lines lc (i + 1) = (e : Int) := by
  have hne : find_matching_end lines lc i ≠ -1 := by rw [h]; omega
  have hb := find_matching_end_bounds lines lc i hne
  rw [h] at hb
  simp only [Int.toNat_ofNat] at hb
  have hi : i < lc := by omega
  have hf : lc - i = (lc - (i + 1)) + 1 := by omega
  unfold find_matching_end at h ⊢
  rw [hf, find_matching_end_loop, if_pos hi] at h
  simp only [hhdr, Bool.false_eq_true, if_false] at h
  by_cases he : is_end (trim_whitespace (lines.getD i [])) = true
  · simp only [he, if_true] at h
    rw [if_pos (by omega)] at h
    omega
  · have he2 : is_end (trim_whitespace (lines.getD i [])) = false := by
      simpa using he
    simp only [he2, Bool.false_eq_true, if_false] at h
    exact h

/-- What holds at every position of the call tree: the index is in the range,
and the range of a nested invocation ends at the `end` that the search from the
index finds. -/
theorem loopAt_invariant (lines : List CStr) (lc : Nat)
    (hlines : ∀ l ∈ lines, l.length < MAX_LINE_LEN) (s i e : Nat)
    (h : LoopAt lines lc s i e) :
    s ≤ i ∧ (e = lc ∨ find_matching_end lines lc i = (e : Int)) := by
  induction h with
  | entry => exact ⟨le_refl _, Or.inl rfl⟩
  | next hp hie hhdr ih =>
    rename_i s i e
    refine ⟨by omega, ?_⟩
    rcases ih.2 with h1 | h1
    · exact Or.inl h1
    · right
      rw [clean_line_short lines hlines] at hhdr
      exact find_matching_end_next lines lc i e h1 hie hhdr
  | body hp hie hhdr hne ih =>
    rename_i s i e
    refine ⟨le_refl _, Or.inr ?_⟩
    rcases find_matching_end_spec lines lc (i + 1) with ⟨hr, _⟩ | ⟨b, hr, _⟩
    · exact absurd hr hne
    · rw [hr]; simp
  | past hp hie hhdr hne ih =>
    rename_i s i e
    have hb := find_matching_end_bounds lines lc (i + 1) hne
    refine ⟨by omega, ?_⟩
    rcases ih.2 with h1 | h1
    · exact Or.inl h1
    · right
      rw [clean_line_short lines hlines] at hhdr
      rw [← find_matching_end_past_block lines lc i hhdr hne]
      exact h1

/-- The body of a block header in the call tree lies strictly inside the range
of the invocation that reaches the header. -/
theorem loopAt_body_inside (lines : List CStr) (lc : Nat)
    (hlines : ∀ l ∈ lines, l.length < MAX_LINE_LEN) (s i e : Nat)
    (h : LoopAt lines lc s i e)
    (hhdr : is_block_header (clean_line lines i) = true)
    (hne : find_matching_end lines lc (i + 1) ≠ -1) :
    s ≤ i ∧ i < (find_matching_end lines lc (i + 1)).toNat ∧
      (find_matching_end lines lc (i + 1)).toNat < e := by
  obtain ⟨h1, h2⟩ := loopAt_invariant lines lc hlines s i e h
  have hb := find_matching_end_bounds lines lc (i + 1) hne
  refine ⟨h1, by omega, ?_⟩
  rcases h2 with h2 | h2
  · omega
  · rw [clean_line_short lines hlines] at hhdr
    rw [find_matching_end_past_block lines lc i hhdr hne] at h2
    have hne2 : find_matching_end lines lc
        ((find_matching_end lines lc (i + 1)).toNat + 1) ≠ -1 := by rw [h2]; omega
    have hb2 := find_matching_end_bounds lines lc _ hne2
    rw [h2] at hb2
    simp only [Int.toNat_ofNat] at hb2
    omega

/-- A line that the loop of `run_script` skips is no block header. -/
theorem skipped_line_not_header (line : CStr)
    (h : line.head? = none ∨ line.head? = some '#') : is_block_header line = false := by
  cases line with
  | nil => simp [is_block_header, strncmp_eq]
  | cons c t =>
    rcases h with h | h
    · simp at h
    · simp only [List.head?_cons, Option.some.injEq] at h
      subst h
      simp [is_block_header, strncmp_eq]

/-- The positions of `LoopAt` are the calls of the model: an iteration at a
position of the call tree uses `run_script` only at positions of the call
tree. -/
theorem run_script_iter_calls (self self2 : World → Nat → Nat → Outcome) (w : World)
    (lines : List CStr) (lc s i e : Nat) (hpos : LoopAt lines lc s i e) (hie : i < e)
    (h : ∀ w1 s1 i1 e1, LoopAt lines lc s1 i1 e1 → self w1 i1 e1 = self2 w1 i1 e1) :
    run_script_iter self w lines lc i e = run_script_iter self2 w lines lc i e := by
  have hnext : is_block_header (clean_line lines i) = false →
      (fun w1 => self w1 (i + 1) e) = (fun w1 => self2 w1 (i + 1) e) := by
    intro hh
    funext w1
    exact h w1 s (i + 1) e (LoopAt.next hpos hie hh)
  have hblock : is_block_header (clean_line lines i) = true →
      find_matching_end lines lc (i + 1) ≠ -1 →
      (fun w1 => self w1 (i + 1) (find_matching_end lines lc (i + 1)).toNat)
        = (fun w1 => self2 w1 (i + 1) (find_matching_end lines lc (i + 1)).toNat) ∧
      (fun w1 => self w1 ((find_matching_end lines lc (i + 1)).toNat + 1) e)
        = (fun w1 => self2 w1 ((find_matching_end lines lc (i + 1)).toNat + 1) e) := by
    intro hh hne
    constructor
    · funext w1
      exact h w1 (i + 1) (i + 1) _ (LoopAt.body hpos hie hh hne)
    · funext w1
      exact h w1 s _ e (LoopAt.past hpos hie hh hne)
  unfold run_script_iter
  simp only []
  by_cases h1 : (clean_line lines i).head? = none ∨ (clean_line lines i).head? = some '#'
  · simp only [if_pos h1]
    exact congrFun (hnext (skipped_line_not_header _ h1)) w
  simp only [if_neg h1]
  by_cases h2 : strncmp_eq (clean_line lines i) ['l', 'o', 'o', 'p', ' '] 5 = true
  · have hh : is_block_header (clean_line lines i) = true := by
      simp [is_block_header, h2]
    simp only [if_pos h2]
    generalize resolve_value w.state (List.drop 5 (clean_line lines i)) = rv
    cases rv with
    | error f => rfl
    | ok n =>
      simp only []
      by_cases h5 : find_matching_end lines lc (i + 1) = -1
      · simp only [if_pos h5]
      · simp only [if_neg h5]
        rw [(hblock hh h5).1, (hblock hh h5).2]
  simp only [if_neg h2]
  by_cases h3 : strncmp_eq (clean_line lines i) ['i', 'f', ' '] 3 = true
  · have hh : is_block_header (clean_line lines i) = true := by
      simp [is_block_header, h3]
    simp only [if_pos h3]
    generalize sscanf (clean_line lines i) "if %s %2s %s" = toks
    rcases toks with _ | ⟨a, _ | ⟨b, _ | ⟨c, _ | ⟨d, r⟩⟩⟩⟩
    · rfl
    · rfl
    · rfl
    · simp only []
      generalize resolve_value w.state a = rv1
      cases rv1 with
      | error f => rfl
      | ok l =>
        simp only []
        generalize resolve_value w.state c = rv2
        cases rv2 with
        | error f => rfl
        | ok r =>
          simp only []
          generalize eval_condition b l r = cond
          cases cond with
          | none => rfl
          | some cnd =>
            simp only []
            by_cases h5 : find_matching_end lines lc (i + 1) = -1
            · simp only [if_pos h5]
            · simp only [if_neg h5]
              have hb := congrFun (hblock hh h5).1 w
              simp only [] at hb
              rw [(hblock hh h5).2, hb]
    · rfl
  simp only [if_neg h3]
  have hh : is_block_header (clean_line lines i) = false := by
    simp [is_block_header, h2, h3]
  rw [hnext hh]

/-- C22: the interpreter terminates on every script.  For a script whose lines
fit their buffers (`fgets` reads at most 255 characters into a line) and every
initial world, `run_script` over `[0, line_count)`, and over every other range,
returns or exits with a fault: the step budget of the model never runs out.
In the call tree of that run, a recursive call made at a header on line `i` of
an invocation on `[s, e)` is on the body `[i + 1, block_end)` with
`s ≤ i < block_end < e`.  A `loop` header whose count resolves to `n` at entry
runs its body `n.toNat` times, whatever the body does to the variables, and
then goes on behind the block. -/
theorem run_script_terminates (w : World) (lines : List CStr)
    (hlines : ∀ l ∈ lines, l.length < MAX_LINE_LEN) :
    (run_script w lines lines.length 0 lines.length).finished = true ∧
    (∀ (w1 : World) (i e : Nat), (run_script w1 lines lines.length i e).finished = true) ∧
    (∀ s i e : Nat, LoopAt lines lines.length s i e → i < e →
      is_block_header (clean_line lines i) = true →
      find_matching_end lines lines.length (i + 1) ≠ -1 →
      s ≤ i ∧ i < (find_matching_end lines lines.length (i + 1)).toNat ∧
        (find_matching_end lines lines.length (i + 1)).toNat < e) ∧
    (∀ (w1 : World) (i e : Nat) (v : CStr) (n : Int), i < e →
      clean_line lines i = ['l', 'o', 'o', 'p', ' '] ++ v →
      resolve_value w1.state v = .ok n →
      find_matching_end lines lines.length (i + 1) ≠ -1 →
      run_script w1 lines lines.length i e
        = (repeat_body (fun w2 => run_script w2 lines lines.length (i + 1)
              (find_matching_end lines lines.length (i + 1)).toNat) n.toNat w1).bind
            (fun w2 => run_script w2 lines lines.length
              ((find_matching_end lines lines.length (i + 1)).toNat + 1) e)) := by
  refine ⟨run_script_finished _ _ _ _ _, fun w1 i e => run_script_finished _ _ _ _ _, ?_, ?_⟩
  · intro s i e hpos _ hhdr hne
    exact loopAt_body_inside lines lines.length hlines s i e hpos hhdr hne
  · intro w1 i e v n hie hline hv hne
    rw [run_script_loop_header w1 lines lines.length i e v n hie hline hv, if_neg hne]

end Tako

theorem run_script_terminates_witness :
    (∀ l ∈ Tako.nested_script, l.length < Tako.MAX_LINE_LEN) ∧
    (Tako.run_script fresh_world Tako.nested_script Tako.nested_script.length 0
      Tako.nested_script.length).finished = true ∧
    (1 ≤ 1 ∧ 1 < (Tako.find_matching_end Tako.nested_script Tako.nested_script.length
        (1 + 1)).toNat ∧
      (Tako.find_matching_end Tako.nested_script Tako.nested_script.length (1 + 1)).toNat
        < (Tako.find_matching_end Tako.nested_script Tako.nested_script.length (0 + 1)).toNat) :=
  ⟨by decide,
    (Tako.run_script_terminates fresh_world Tako.nested_script (by decide)).1,
    (Tako.run_script_terminates fresh_world Tako.nested_script (by decide)).2.2.1 (0 + 1) 1 _
      (Tako.LoopAt.body Tako.LoopAt.entry (by decide) (by decide) (by decide))
      (by decide) (by decide) (by decide)⟩

/-! ## The machine code of a conditional -/

/-- The loop of `exec_text` at a line: the line is executed when its newline
is reached. -/
theorem exec_text_loop_line (line rest : CStr) (hline : ∀ c ∈ line, c ≠ '\n') :
    ∀ (m : Option Machine) (acc : CStr),
      exec_text_loop m acc (line ++ '\n' :: rest)
        = exec_text_loop (m.bind (fun m1 => exec_line m1 (acc.reverse ++ line))) [] rest := by
  induction line with
  | nil =>
    intro m acc
    simp [exec_text_loop]
  | cons c cs ih =>
    intro m acc
    have hc : c ≠ '\n' := hline c (by simp)
    simp only [List.cons_append, exec_text_loop, if_neg hc, List.append_eq]
    rw [ih (fun x hx => hline x (by simp [hx]))]
    simp

/-- A text of one line does what the line does. -/
theorem exec_text_line (m : Machine) (line : CStr) (hline : ∀ c ∈ line, c ≠ '\n') :
    exec_text m (line ++ ['\n']) = exec_line m line := by
  unfold exec_text
  rw [exec_text_loop_line line [] hline]
  simp [exec_text_loop]

namespace Compiler

/-- A number in the sense of `is_number` consists of a first character that is
a minus sign or a digit and of digits. -/
theorem is_number_chars (x : CStr) (h : is_number x = true) :
    ∃ c cs, x = c :: cs ∧ (c = '-' ∨ isdigit c = true) ∧ ∀ y ∈ cs, isdigit y = true := by
  cases x with
  | nil => simp [is_number] at h
  | cons c cs =>
    refine ⟨c, cs, rfl, ?_⟩
    unfold is_number at h
    by_cases hc : c = '-'
    · simp only [hc, if_true] at h
      refine ⟨Or.inl hc, ?_⟩
      cases cs with
      | nil => simp at h
      | cons d ds =>
        simp only [List.all_eq_true] at h
        exact h
    · simp only [if_neg hc] at h
      simp only [List.all_eq_true] at h
      exact ⟨Or.inr (h c (by simp)), fun y hy => h y (by simp [hy])⟩

end Compiler

/-- The line `mov rax, <number>` loads the number as a signed quadword. -/
theorem exec_line_load_number (m : Machine) (x : CStr) (hx : Compiler.is_number x = true) :
    exec_line m ("    mov rax, ".toList ++ x) = some { m with rax := wrap64 (literal_value x) } := by
  obtain ⟨c, cs, hxe, hc, _⟩ := Compiler.is_number_chars x hx
  have hcb : c ≠ '[' := by
    rcases hc with hc | hc
    · rw [hc]; decide
    · intro e; rw [e] at hc; revert hc; decide
  have h1 : ¬ ("    mov rax, ".toList ++ x = "    push rax".toList) := by simp
  have h2 : ¬ ("    mov rax, ".toList ++ x = "    pop rbx".toList) := by simp
  have h3 : ¬ ("    mov rax, ".toList ++ x = "    cmp rbx, rax".toList) := by simp
  have h4 : ("    mov rax, [vars + ".toList.isPrefixOf ("    mov rax, ".toList ++ x)) = false := by
    rw [hxe]
    have : ("    mov rax, [vars + ".toList.isPrefixOf ("    mov rax, ".toList ++ c :: cs))
        = (('[' == c) && "vars + ".toList.isPrefixOf cs) := rfl
    rw [this]
    have : ('[' == c) = false := by simpa using fun h => hcb h.symm
    rw [this]; rfl
  have h5 : ("    mov rax, ".toList.isPrefixOf ("    mov rax, ".toList ++ x)) = true :=
    Compiler.isPrefixOf_append _ _
  have h6 : ("    mov rax, ".toList ++ x).drop "    mov rax, ".toList.length = x :=
    List.drop_left _ _
  unfold exec_line
  simp only [if_neg h1, if_neg h2, if_neg h3, h4, h5, h6, hx, if_true, Bool.false_eq_true,
    if_false]

theorem takeWhile_isdigit_bracket (ds : CStr) (h : ∀ c ∈ ds, isdigit c = true) :
    (ds ++ [']']).takeWhile isdigit = ds := by
  induction ds with
  | nil => rfl
  | cons c cs ih =>
    have hc := h c (by simp)
    simp only [List.cons_append, List.takeWhile, hc]
    have ih2 := ih (fun x hx => h x (by simp [hx]))
    simp only [List.append_eq] at ih2 ⊢
    rw [ih2]

theorem fmt_nat_ne_nil (n : Nat) : Tako.fmt_nat n ≠ [] := by
  intro h
  unfold Tako.fmt_nat Nat.toDigits at h
  have hcore : ∀ (fuel k : Nat) (ds : CStr), Nat.toDigitsCore 10 (fuel + 1) k ds ≠ [] := by
    intro fuel
    induction fuel with
    | zero =>
      intro k ds
      simp only [Nat.toDigitsCore]
      split <;> simp
    | succ fuel ih =>
      intro k ds
      rw [Nat.toDigitsCore]
      split
      · simp
      · exact ih _ _
  exact hcore n n [] h

/-- The line `mov rax, [vars + <offset>]` loads the quadword of the slot. -/
theorem exec_line_load_slot (m : Machine) (offset : Nat) :
    exec_line m ("    mov rax, [vars + ".toList ++ Tako.fmt_nat offset ++ [']'])
      = some { m with rax := m.vars offset } := by
  have h1 : ¬ ("    mov rax, [vars + ".toList ++ Tako.fmt_nat offset ++ [']']
      = "    push rax".toList) := by simp
  have h2 : ¬ ("    mov rax, [vars + ".toList ++ Tako.fmt_nat offset ++ [']']
      = "    pop rbx".toList) := by simp
  have h3 : ¬ ("    mov rax, [vars + ".toList ++ Tako.fmt_nat offset ++ [']']
      = "    cmp rbx, rax".toList) := by simp
  have h4 : ("    mov rax, [vars + ".toList.isPrefixOf
      ("    mov rax, [vars + ".toList ++ Tako.fmt_nat offset ++ [']'])) = true := by
    rw [List.append_assoc]
    exact Compiler.isPrefixOf_append _ _
  have h5 : ("    mov rax, [vars + ".toList ++ Tako.fmt_nat offset ++ [']']).drop
      "    mov rax, [vars + ".toList.length = Tako.fmt_nat offset ++ [']'] := by
    rw [List.append_assoc]
    exact List.drop_left _ _
  have h6 := takeWhile_isdigit_bracket (Tako.fmt_nat offset) (fmt_nat_isdigit offset)
  unfold exec_line
  simp only [if_neg h1, if_neg h2, if_neg h3, h4, h5, h6, if_true, ne_eq, fmt_nat_ne_nil,
    not_false_eq_true, and_self, fmt_nat_value]

namespace Compiler

/-- What `emit_load_value` writes is one line that loads the value of the
operand into `rax`; a name that is not in the table is entered. -/
theorem emit_load_value_code (state s1 : CompilerState) (x : CStr)
    (h : emit_load_value state x = .ok s1) :
    s1.vars = vars_after_load state.vars x ∧
    ∃ t, s1.outfile = state.outfile ++ [.text t] ∧
      ∀ m : Machine, exec_text m t = some { m with rax := operand_value m state.vars x } := by
  unfold emit_load_value at h
  by_cases hx : is_number x = true
  · simp only [hx, if_true, Except.ok.injEq] at h
    rw [← h]
    refine ⟨by simp [emit, vars_after_load, hx],
      "    mov rax, ".toList ++ x ++ "\n".toList, rfl, ?_⟩
    intro m
    obtain ⟨c, cs, hxe, hc, hcs⟩ := is_number_chars x hx
    have hline : ∀ y ∈ "    mov rax, ".toList ++ x, y ≠ '\n' := by
      intro y hy
      rcases List.mem_append.1 hy with hy | hy
      · have hpre : ∀ z ∈ "    mov rax, ".toList, z ≠ '\n' := by decide
        exact hpre y hy
      · rw [hxe] at hy
        rcases List.mem_cons.1 hy with e | e
        · rw [e]
          rcases hc with hc | hc
          · rw [hc]; decide
          · intro e2; rw [e2] at hc; revert hc; decide
        · have := hcs y e
          intro e2; rw [e2] at this; revert this; decide
    have e1 : "    mov rax, ".toList ++ x ++ "\n".toList
        = ("    mov rax, ".toList ++ x) ++ ['\n'] := rfl
    rw [e1, exec_text_line m _ hline, exec_line_load_number m x hx]
    simp [operand_value, hx]
  · simp only [hx, Bool.false_eq_true, if_false] at h
    have key : ∀ (offset : Nat) (s2 : CompilerState),
        get_var_offset state x = .ok (offset, s2) →
        offset = slot_of state.vars x ∧ s2.vars = vars_after_load state.vars x ∧
          s2.outfile = state.outfile := by
      intro offset s2 hg
      unfold get_var_offset at hg
      unfold slot_of vars_after_load
      simp only [hx, Bool.false_eq_true, if_false]
      cases hl : get_var_offset_loop x state.vars 0 with
      | some off =>
        rw [hl] at hg
        simp only [Except.ok.injEq, Prod.mk.injEq] at hg
        rw [← hg.1, ← hg.2]
        exact ⟨rfl, rfl, rfl⟩
      | none =>
        rw [hl] at hg
        simp only [] at hg
        split at hg
        · cases hg
        · simp only [Except.ok.injEq, Prod.mk.injEq] at hg
          rw [← hg.1, ← hg.2]
          exact ⟨rfl, rfl, rfl⟩
    cases hg : get_var_offset state x with
    | error f => rw [hg] at h; cases h
    | ok r =>
      obtain ⟨offset, s2⟩ := r
      rw [hg] at h
      simp only [Except.ok.injEq] at h
      obtain ⟨k1, k2, k3⟩ := key offset s2 hg
      rw [← h]
      refine ⟨by simp only [emit]; exact k2,
        "    mov rax, [vars + ".toList ++ Tako.fmt_nat offset ++ "]\n".toList,
        by simp only [emit, k3], ?_⟩
      intro m
      have hline : ∀ y ∈ "    mov rax, [vars + ".toList ++ Tako.fmt_nat offset ++ [']'],
          y ≠ '\n' := by
        intro y hy
        rcases List.mem_append.1 hy with hy | hy
        · rcases List.mem_append.1 hy with hy | hy
          · have hpre : ∀ z ∈ "    mov rax, [vars + ".toList, z ≠ '\n' := by decide
            exact hpre y hy
          · have := fmt_nat_isdigit offset y hy
            intro e2; rw [e2] at this; revert this; decide
        · simp only [List.mem_singleton] at hy
          rw [hy]; decide
      have e1 : "    mov rax, [vars + ".toList ++ Tako.fmt_nat offset ++ "]\n".toList
          = ("    mov rax, [vars + ".toList ++ Tako.fmt_nat offset ++ [']']) ++ ['\n'] := by
        simp only [List.append_assoc]
        rfl
      rw [e1, exec_text_line m _ hline, exec_line_load_slot m offset]
      simp [operand_value, hx, k1]

end Compiler

theorem operand_value_congr (m m2 : Machine) (vars : List Compiler.VariableSymbol) (x : CStr)
    (h : m2.vars = m.vars) : Compiler.operand_value m2 vars x = Compiler.operand_value m vars x := by
  unfold Compiler.operand_value
  rw [h]

namespace Compiler

/-- What the `if` branch writes and what its code does: the code before the
jump leaves the value of the left operand in `rbx` and the value of the right
operand in `rax`, compares the two in this order and leaves the stack as it
was; then come the jump that `jump_for` gives with the fresh label, the body,
the definition of the label, and what the rest of the range writes. -/
theorem compile_if_code (self : CompilerState → Nat → Nat → Outcome)
    (hself : ∀ s i e s1, self s i e = .done s1 → appends_fresh s s1)
    (s0 s1 : CompilerState) (lines : List CStr) (lc i e : Nat) (line a op b : CStr)
    (hscan : sscanf line "if %s %s %s" = [a, op, b])
    (h : compile_if self (emit s0 [.line_comment (i + 1) line]) lines lc i e line
      = .done s1) :
    ∃ mn t1 t2 body rest, jump_for op = some mn ∧
      s1.outfile = s0.outfile ++ [Asm.line_comment (i + 1) line, .text t1,
          .text "    push rax\n".toList, .text t2]
        ++ [.text "    pop rbx\n    cmp rbx, rax\n".toList, .jump mn s0.label_count]
        ++ body ++ [.label_def s0.label_count] ++ rest ∧
      ∀ m : Machine, ∃ m1,
        exec_pieces m [Asm.line_comment (i + 1) line, .text t1,
          .text "    push rax\n".toList, .text t2,
          .text "    pop rbx\n    cmp rbx, rax\n".toList] = some m1 ∧
        m1.rbx = operand_value m s0.vars a ∧
        m1.rax = operand_value m (vars_after_load s0.vars a) b ∧
        m1.cmp = (m1.rbx, m1.rax) ∧ m1.stack = m.stack ∧ m1.vars = m.vars := by
  unfold compile_if at h
  rw [hscan] at h
  simp only [new_label] at h
  cases hl1 : emit_load_value
      { emit s0 [.line_comment (i + 1) line] with
        label_count := (emit s0 [.line_comment (i + 1) line]).label_count + 1 } a with
  | error f =>
    simp only [hl1] at h
    cases h
  | ok s2 =>
    simp only [hl1] at h
    obtain ⟨v1, t1, k3, x1⟩ := emit_load_value_code _ _ _ hl1
    cases hl2 : emit_load_value (emit s2 [.text "    push rax\n".toList]) b with
    | error f =>
      simp only [hl2] at h
      cases h
    | ok s3 =>
      simp only [hl2] at h
      obtain ⟨_, t2, m3, x2⟩ := emit_load_value_code _ _ _ hl2
      cases hj : jump_for op with
      | none =>
        simp only [hj] at h
        cases h
      | some mn =>
        simp only [hj] at h
        by_cases hb : find_matching_end lines lc (i + 1) = -1
        · simp only [if_pos hb] at h
          cases h
        · simp only [if_neg hb] at h
          cases hbody : self (emit (emit s3 [.text "    pop rbx\n    cmp rbx, rax\n".toList])
              [.jump mn s0.label_count]) (i + 1)
              (find_matching_end lines lc (i + 1)).toNat with
          | exit f =>
            simp only [emit] at hbody h
            rw [hbody] at h
            cases h
          | unfinished =>
            simp only [emit] at hbody h
            rw [hbody] at h
            cases h
          | done s5 =>
            simp only [emit] at hbody h
            rw [hbody] at h
            simp only [Outcome.bind] at h
            obtain ⟨body, hb1, _⟩ := hself _ _ _ _ hbody
            obtain ⟨rest, hr1, _⟩ := hself _ _ _ _ h
            simp only [emit] at k3 m3 hb1 hr1 v1 x1 x2
            refine ⟨mn, t1, t2, body, rest, rfl, ?_, ?_⟩
            · rw [hr1, hb1, m3, k3]
              simp only [List.append_assoc, List.cons_append, List.nil_append]
            · intro m
              have hpush : ∀ m2 : Machine, exec_text m2 "    push rax\n".toList
                  = some { m2 with stack := m2.rax :: m2.stack } := fun _ => rfl
              have hpop : ∀ (m2 : Machine) (v : Int) (st : List Int), m2.stack = v :: st →
                  exec_text m2 "    pop rbx\n    cmp rbx, rax\n".toList
                    = some { m2 with rbx := v, stack := st, cmp := (v, m2.rax) } := by
                intro m2 v st hst
                have : exec_text m2 "    pop rbx\n    cmp rbx, rax\n".toList
                    = (match m2.stack with
                      | [] => none
                      | v :: rest => some { m2 with rbx := v, stack := rest }).bind
                        (fun m3 => some { m3 with cmp := (m3.rbx, m3.rax) }) := rfl
                rw [this, hst]
                rfl
              simp only [exec_pieces, x1 m, Option.bind, hpush, x2]
              rw [hpop _ _ _ rfl]
              refine ⟨_, rfl, rfl, ?_, rfl, rfl, rfl⟩
              simp only []
              rw [v1]
              exact operand_value_congr _ m _ b rfl

end Compiler

/-- C13: for a header `if <a> <op> <b>` with one of the six operators that
`compile_script` accepts, the output is the comment of the line, the load of
the left operand, `push rax`, the load of the right operand, `pop rbx` and
`cmp rbx, rax`, then a conditional jump to the fresh end label, later the body
and the definition of that label.  Run on any machine, the code before the
jump leaves the value of `a` in `rbx` and the value of `b` in `rax` (a literal
as a signed quadword, a name as the content of its slot) and compares `rbx`
with `rax`, with the stack as it was.  The jump is the one of the inversion
table (`jne` for `==`, `je` for `!=`, `jle` for `>`, `jge` for `<`, `jl` for
`>=`, `jg` for `<=`), so after that comparison it is taken exactly when
`a op b` is false on signed integers. -/
theorem if_jump_inverted (s0 s1 : Compiler.CompilerState) (lines : List CStr)
    (line_count i t : Nat) (a op b : CStr) (hit : i < t)
    (hline : Compiler.clean_line lines i = ['i', 'f', ' '] ++ a ++ [' '] ++ op ++ [' '] ++ b)
    (ha : is_token a = true) (hb : is_token b = true) (hop : op ∈ operators)
    (h : Compiler.compile_script s0 lines line_count i t = .done s1) :
    ∃ mn t1 t2 body rest, (op, mn) ∈ inverted_jump_table ∧
      s1.outfile = s0.outfile
        ++ [Compiler.Asm.line_comment (i + 1) (Compiler.clean_line lines i),
            .text t1, .text "    push rax\n".toList, .text t2]
        ++ [.text "    pop rbx\n    cmp rbx, rax\n".toList, .jump mn s0.label_count]
        ++ body ++ [.label_def s0.label_count] ++ rest ∧
      ∀ m : Machine, ∃ m1,
        exec_pieces m [Compiler.Asm.line_comment (i + 1) (Compiler.clean_line lines i),
          .text t1, .text "    push rax\n".toList, .text t2,
          .text "    pop rbx\n    cmp rbx, rax\n".toList] = some m1 ∧
        m1.rbx = Compiler.operand_value m s0.vars a ∧
        m1.rax = Compiler.operand_value m (Compiler.vars_after_load s0.vars a) b ∧
        m1.cmp = (m1.rbx, m1.rax) ∧ m1.stack = m.stack ∧
        (jump_taken mn m1.cmp.1 m1.cmp.2 ↔
          ¬ op_holds op (Compiler.operand_value m s0.vars a)
            (Compiler.operand_value m (Compiler.vars_after_load s0.vars a) b)) := by
  obtain ⟨hopt, _⟩ := operators_are_tokens op hop
  have e1 : ['i', 'f', ' '] ++ a ++ [' '] ++ op ++ [' '] ++ b
      = 'i' :: 'f' :: ' ' :: (a ++ ' ' :: (op ++ ' ' :: b)) := by simp
  have hscan := sscanf_if_plain a op b ha hopt hb
  rw [← hline] at hscan
  have hhead : ¬ ((Compiler.clean_line lines i).head? = none ∨
      (Compiler.clean_line lines i).head? = some '#') := by
    rw [hline, e1]; simp
  have hsimple : ∀ st, Compiler.compile_simple st (Compiler.clean_line lines i) = none := by
    intro st
    rw [hline, e1]
    exact Compiler.compile_simple_if_line st _
  have hnotloop : ¬ strncmp_eq (Compiler.clean_line lines i) ['l', 'o', 'o', 'p', ' '] 5
      = true := by
    rw [hline, e1]; simp [strncmp_eq]
  have hif : strncmp_eq (Compiler.clean_line lines i) ['i', 'f', ' '] 3 = true := by
    rw [hline, e1]; simp [strncmp_eq]
  unfold Compiler.compile_script at h
  have hg : Tako.gas_bound line_count i t = (max line_count t - i) + 1 := rfl
  rw [hg, Compiler.compile_script_gas, if_pos hit] at h
  unfold Compiler.compile_script_iter at h
  simp only [if_neg hhead, hsimple, if_neg hnotloop, if_pos hif] at h
  obtain ⟨mn, t1, t2, body, rest, hj, hout, hcode⟩ := Compiler.compile_if_code _
    (fun s i e s1 hs => Compiler.compile_script_gas_labels lines line_count _ s s1 i e hs)
    s0 s1 lines line_count i t _ a op b hscan h
  obtain ⟨mn2, hj2, htab, hsem⟩ := jump_for_operator op hop
  rw [hj] at hj2
  simp only [Option.some.injEq] at hj2
  subst hj2
  refine ⟨mn, t1, t2, body, rest, htab, hout, ?_⟩
  intro m
  obtain ⟨m1, g1, g2, g3, g4, g5, _⟩ := hcode m
  refine ⟨m1, g1, g2, g3, g4, g5, ?_⟩
  rw [g4, g2, g3]
  exact hsem _ _

theorem if_jump_inverted_witness :
    Compiler.compile_script Compiler.CompilerState.empty if_script 4 0 4 = .done if_result ∧
    (∃ mn t1 t2 body rest, ((['>'] : CStr), mn) ∈ inverted_jump_table ∧
      if_result.outfile = Compiler.CompilerState.empty.outfile
        ++ [Compiler.Asm.line_comment (0 + 1) (Compiler.clean_line if_script 0),
            .text t1, .text "    push rax\n".toList, .text t2]
        ++ [.text "    pop rbx\n    cmp rbx, rax\n".toList,
            .jump mn Compiler.CompilerState.empty.label_count]
        ++ body ++ [.label_def Compiler.CompilerState.empty.label_count] ++ rest ∧
      ∀ m : Machine, ∃ m1,
        exec_pieces m [Compiler.Asm.line_comment (0 + 1) (Compiler.clean_line if_script 0),
          .text t1, .text "    push rax\n".toList, .text t2,
          .text "    pop rbx\n    cmp rbx, rax\n".toList] = some m1 ∧
        m1.rbx = Compiler.operand_value m Compiler.CompilerState.empty.vars ['a'] ∧
        m1.rax = Compiler.operand_value m
          (Compiler.vars_after_load Compiler.CompilerState.empty.vars ['a']) ['5'] ∧
        m1.cmp = (m1.rbx, m1.rax) ∧ m1.stack = m.stack ∧
        (jump_taken mn m1.cmp.1 m1.cmp.2 ↔
          ¬ op_holds ['>'] (Compiler.operand_value m Compiler.CompilerState.empty.vars ['a'])
            (Compiler.operand_value m
              (Compiler.vars_after_load Compiler.CompilerState.empty.vars ['a']) ['5']))) ∧
    (exec_pieces (machine_with 10) (if_result.outfile.take 5)).map (fun m => (m.rbx, m.rax, m.cmp))
      = some (10, 5, (10, 5)) ∧
    Compiler.Asm.jump ['j', 'l', 'e'] 0 ∈ if_result.outfile :=
  ⟨by decide,
    if_jump_inverted Compiler.CompilerState.empty if_result if_script 4 0 4 ['a'] ['>'] ['5']
      (by decide) (by decide) (by decide) (by decide) (by decide) (by decide),
    by decide, by decide⟩

/-! ## A numeric name is read as a literal -/

/-- C19 (defect in `execute_line`, the one of C20): `add` and `sub` read their
first operand with `resolve_value`, which takes a token that looks like a
number for a literal, also when a variable of that name is in the table.  The
line `set 5 = 3` leaves the variable `5` set to 3; `add 5 1` then stores
5 + 1 = 6 in it, not 3 + 1 = 4, and `sub 5 1` stores 5 - 1 = 4, not 2.  For a
name that does not look like a number the update is the one of the
specification (`add_sub_update`), as in the end-to-end example, which prints
`x is 8`. -/
theorem add_reads_numeric_name_as_literal :
    Tako.run_program ["set 5 = 3".toList] = .done five_world ∧
    Tako.find_var five_world.state ['5'] = some 0 ∧
    Tako.resolve_value five_world.state ['1'] = .ok 1 ∧
    Tako.execute_line five_world "add 5 1".toList
      = .done { five_world with state := { vars := [{ name := ['5'], value := 6 }] } } ∧
    Tako.execute_line five_world "sub 5 1".toList
      = .done { five_world with state := { vars := [{ name := ['5'], value := 4 }] } } ∧
    Tako.run_program ["set 5 = 3".toList, "add 5 1".toList]
      = .done { five_world with state := { vars := [{ name := ['5'], value := 6 }] } } ∧
    Tako.run_program ["set x = 5".toList, "add x 3".toList, "print \"x is\" x".toList]
      = .done { state := { vars := [{ name := ['x'], value := 8 }] },
                out := "x is 8\n".toList, err := [] } := by
  refine ⟨by decide, by decide, by decide, by decide, by decide, by decide, by decide⟩
